import Mathlib

/-!
# 1brc: a shallow embedding of the parallel and the single-pass implementation

The input buffer is a list of bytes (`List Nat`, every element below 256); a C
pointer into the buffer is an index into that list.  A function that reads the
buffer returns `none` when it would read a byte outside the buffer.  A loop of
the source that need not terminate (`while (1)` in `find_or_create`) takes a
fuel argument and returns `none` when the fuel is used up.

Machine integers are `Int`/`Nat` with the reduction to the machine width written
out (`wrap32`, `wrap64`, `% 2 ^ 32`).
-/

namespace OneBrc

/-! ## Constants of `1brc.c` (parallel implementation) -/

/-- The constant `NUM_THREADS`. -/
def NUM_THREADS : Nat := 48

/-- The constant `HASH_TABLE_SIZE`. -/
def HASH_TABLE_SIZE : Nat := 16384

/-- The constant `MAX_STATIONS`. -/
def MAX_STATIONS : Nat := 10000

/-- The constant `MAX_NAME_LEN`. -/
def MAX_NAME_LEN : Nat := 100

/-! ## Machine integers -/

/-- Two's complement reduction of an integer to `int` (32 bits). -/
def wrap32 (x : Int) : Int := (x + 2 ^ 31) % 2 ^ 32 - 2 ^ 31

/-- Two's complement reduction of an integer to `int64_t`. -/
def wrap64 (x : Int) : Int := (x + 2 ^ 63) % 2 ^ 64 - 2 ^ 63

/-- The value of a byte read through a `char` lvalue (`char` is signed on the
target of the source, which includes `immintrin.h`). -/
def char_val (b : Nat) : Int := if b < 128 then (b : Int) else (b : Int) - 256

/-! ## `parse_temp` (parallel implementation, lines 89-118) -/

/-- The function `parse_temp`: `data` is the buffer, `ptr` the position `*ptr` on entry;
the result is the returned `int` and the position stored back into `*ptr`.
Only the five dereferences of the source read the buffer: the two skips
(`p++` over the dot and over the newline) do not. -/
def parse_temp (data : List Nat) (ptr : Nat) : Option (Int × Nat) := do
  let p := ptr
  let c0 ← data[p]?
  let neg := decide (c0 = 45)
  let p := if c0 = 45 then p + 1 else p
  -- First digit
  let c1 ← data[p]?
  let val : Int := char_val c1 - 48
  let p := p + 1
  let c2 ← data[p]?
  if c2 ≠ 46 then
    -- Two digit number
    let val := val * 10 + (char_val c2 - 48)
    let p := p + 1
    -- Skip '.'
    let p := p + 1
    let c3 ← data[p]?
    let val := val * 10 + (char_val c3 - 48)
    let p := p + 1
    -- Skip newline
    let p := p + 1
    some (if neg then -val else val, p)
  else
    -- Skip '.'
    let p := p + 1
    let c3 ← data[p]?
    let val := val * 10 + (char_val c3 - 48)
    let p := p + 1
    -- Skip newline
    let p := p + 1
    some (if neg then -val else val, p)

/-! ## The value grammar of section 4.3 -/

/-- A value text of the grammar: an optional `-`, one or two ASCII digits, a `.`,
one ASCII digit.  The digits are kept as digit values. -/
structure ValueText where
  neg : Bool
  tens : Option Nat
  units : Nat
  frac : Nat
deriving DecidableEq, Repr

/-- Every digit of the text is a decimal digit. -/
def ValueText.wf (v : ValueText) : Prop :=
  (∀ t, v.tens = some t → t ≤ 9) ∧ v.units ≤ 9 ∧ v.frac ≤ 9

instance (v : ValueText) : Decidable v.wf := by
  unfold ValueText.wf
  cases v.tens with
  | none => exact decidable_of_iff (v.units ≤ 9 ∧ v.frac ≤ 9) (by simp)
  | some t => exact decidable_of_iff (t ≤ 9 ∧ v.units ≤ 9 ∧ v.frac ≤ 9) (by simp)

/-- The bytes of a value text. -/
def ValueText.bytes (v : ValueText) : List Nat :=
  (if v.neg then [45] else []) ++
    (match v.tens with
      | some t => [48 + t]
      | none => []) ++ [48 + v.units, 46, 48 + v.frac]

/-- The decimal number a value text denotes. -/
def ValueText.value (v : ValueText) : ℚ :=
  (if v.neg then -1 else 1) * (((v.tens.getD 0 : Nat) : ℚ) * 10 + (v.units : ℚ) + (v.frac : ℚ) / 10)

/-- The value of a value text in tenths, as an integer. -/
def ValueText.tenths (v : ValueText) : Int :=
  (if v.neg then -1 else 1) * (((v.tens.getD 0 : Nat) : Int) * 100 + (v.units : Int) * 10 + (v.frac : Int))


/-! ## The range planner (parallel implementation, `main`, lines 218-246) -/

/-- The loop `while (*p != c) p++` over the rest of the buffer: `rest` is the buffer
from position `p` on.  The result is the position of the first byte equal to `c`
at or after `p`; `none` when the loop would read past the end of the buffer. -/
def scan_from (c : Nat) : List Nat → Nat → Option Nat
  | [], _ => none
  | b :: rest, p => if b ≠ c then scan_from c rest (p + 1) else some p

/-- The loop `while (*p != c) p++` started at position `p` of `data`. -/
def scan (data : List Nat) (c : Nat) (p : Nat) : Option Nat :=
  scan_from c (data.drop p) p

/-- One iteration of the planning loop of `main` for worker `i` of `W`: the pair
`(start, end)` as offsets from `data`. -/
def plan_range (data : List Nat) (W : Nat) (i : Nat) : Option (Nat × Nat) := do
  let file_size := data.length
  let chunk_size := file_size / W
  let start ←
    if i = 0 then some 0
    else do
      -- Find next newline after chunk boundary
      let start ← scan data 10 (i * chunk_size)
      some (start + 1)
  let end_ ←
    if i = W - 1 then some file_size
    else do
      let e ← scan data 10 ((i + 1) * chunk_size)
      some (e + 1)
  some (start, end_)

/-- The planning loop `for (int i = 0; i < NUM_THREADS; i++)` of `main`, from
iteration `i` with `n` iterations left; the worker count is the parameter `W`. -/
def plan_loop (data : List Nat) (W : Nat) : Nat → Nat → Option (List (Nat × Nat))
  | 0, _ => some []
  | n + 1, i => do
    let r ← plan_range data W i
    let rs ← plan_loop data W n (i + 1)
    some (r :: rs)

/-- All ranges planned by `main` for `W` workers. -/
def plan (data : List Nat) (W : Nat) : Option (List (Nat × Nat)) :=
  plan_loop data W W 0

/-- The bytes of the range `[r.1, r.2)` of the buffer. -/
def slice (data : List Nat) (r : Nat × Nat) : List Nat :=
  (data.drop r.1).take (r.2 - r.1)

/-- The lines of a byte sequence, each with its terminating newline; bytes after
the last newline form a last, unterminated line. -/
def split_lines : List Nat → List (List Nat)
  | [] => []
  | b :: rest =>
    if b = 10 then [10] :: split_lines rest
    else
      match split_lines rest with
      | [] => [[b]]
      | l :: ls => (b :: l) :: ls

/-- A buffer of whole lines: it is empty or its last byte is a newline. -/
def EndsWithNewline (data : List Nat) : Prop :=
  data = [] ∨ data.getLast? = some 10

instance (data : List Nat) : Decidable (EndsWithNewline data) := by
  unfold EndsWithNewline; exact inferInstance

/-! ## The aggregate table (parallel implementation, lines 32-86) -/

/-- The struct `Station`.  The array `name` together with the field `name_len` is
the list `name` of the first `name_len` bytes; the bytes of the array after them
are zero in every table built from zeroed memory (`memset`, then the terminator
that `find_or_create` writes).  The embedding covers `name_len ≤ MAX_NAME_LEN`. -/
structure Station where
  name : List Nat
  sum : Int
  count : Int
  min : Int
  max : Int
deriving DecidableEq, Repr

/-- The field `name_len`. -/
def Station.name_len (s : Station) : Nat := s.name.length

/-- The struct `HashTable`: the array `stations`, indexed by slot, and `count`. -/
structure HashTable where
  stations : Nat → Station
  count : Int

/-- A `Station` of zeroed memory. -/
def zero_station : Station := { name := [], sum := 0, count := 0, min := 0, max := 0 }

/-- A table of zeroed memory (`memset(ht, 0, sizeof(HashTable))`). -/
def zero_table : HashTable := { stations := fun _ => zero_station, count := 0 }

/-- The function `hash_name` (FNV-1a on `uint32_t`). -/
def hash_name (name : List Nat) : Nat :=
  name.foldl (fun hash b => ((hash ^^^ (b % 256)) * 16777619) % 2 ^ 32) 2166136261

/-- The probing loop `while (1)` of `find_or_create`, started at slot `idx`, with a
bound `fuel` on the number of iterations: `none` when the bound is reached.  The
result is the table after the call and the slot of the returned `Station`.  The name
is stored as a whole: this is what the stores of the creation branch do for a name of
at most `MAX_NAME_LEN` bytes; `find_or_create_in_bounds_loop` checks them against the
array. -/
def find_or_create_loop (ht : HashTable) (name : List Nat) : Nat → Nat → Option (HashTable × Nat)
  | 0, _ => none
  | fuel + 1, idx =>
    let s := ht.stations idx
    if s.name_len = 0 then
      -- Empty slot - create new entry
      some ({ stations := Function.update ht.stations idx
                { name := name, min := 9999, max := -9999, sum := 0, count := 0 },
              count := wrap32 (ht.count + 1) }, idx)
    else if s.name_len = name.length ∧ s.name = name then
      some (ht, idx)
    else
      find_or_create_loop ht name fuel ((idx + 1) &&& (HASH_TABLE_SIZE - 1))

/-- The function `find_or_create`; `name` is the `name_len` bytes at the pointer `name`. -/
def find_or_create (fuel : Nat) (ht : HashTable) (name : List Nat) : Option (HashTable × Nat) :=
  find_or_create_loop ht name fuel (hash_name name &&& (HASH_TABLE_SIZE - 1))

/-- The probing loop of `find_or_create` with the stores of the creation branch
checked against the array `char name[MAX_NAME_LEN + 1]` of the entry:
`memcpy(s->name, name, name_len)` writes the indices below `name_len` and
`s->name[name_len] = '\0'` writes the index `name_len`, all inside the array only when
`name_len ≤ MAX_NAME_LEN`.  The result is `none` when a store would leave the array
(for a longer name the stores run over the other fields of the entry and into the next
slot), and as in `find_or_create_loop` when the fuel is used up. -/
def find_or_create_in_bounds_loop (ht : HashTable) (name : List Nat) :
    Nat → Nat → Option (HashTable × Nat)
  | 0, _ => none
  | fuel + 1, idx =>
    let s := ht.stations idx
    if s.name_len = 0 then
      -- Empty slot - create new entry
      if name.length ≤ MAX_NAME_LEN then
        some ({ stations := Function.update ht.stations idx
                  { name := name, min := 9999, max := -9999, sum := 0, count := 0 },
                count := wrap32 (ht.count + 1) }, idx)
      else none
    else if s.name_len = name.length ∧ s.name = name then
      some (ht, idx)
    else
      find_or_create_in_bounds_loop ht name fuel ((idx + 1) &&& (HASH_TABLE_SIZE - 1))

/-- The function `find_or_create` with the stores into `s->name` checked. -/
def find_or_create_in_bounds (fuel : Nat) (ht : HashTable) (name : List Nat) :
    Option (HashTable × Nat) :=
  find_or_create_in_bounds_loop ht name fuel (hash_name name &&& (HASH_TABLE_SIZE - 1))

/-- The update of a station with one temperature (`process_chunk`, lines 145-148). -/
def update_station (s : Station) (temp : Int) : Station :=
  let s := { s with sum := wrap64 (s.sum + temp), count := wrap32 (s.count + 1) }
  let s := if temp < s.min then { s with min := temp } else s
  if temp > s.max then { s with max := temp } else s

/-- The loop `while (p < end)` of `process_chunk`, from position `p` with table `ht`;
`fuel` bounds the iterations of this loop and of each probing loop.  The result is
the table and the position at loop exit; `none` when a read leaves the buffer or
the fuel is used up. -/
def process_chunk_loop (data : List Nat) (end_ : Nat) : Nat → Nat → HashTable → Option (HashTable × Nat)
  | 0, _, _ => none
  | fuel + 1, p, ht =>
    if p < end_ then do
      -- Find station name
      let name_start := p
      let p ← scan data 59 p
      let name_len := p - name_start
      let p := p + 1
      -- Parse temperature
      let r ← parse_temp data p
      let temp := r.1
      let p := r.2
      -- Update station
      let f ← find_or_create fuel ht ((data.drop name_start).take name_len)
      let ht := f.1
      let s := update_station (ht.stations f.2) temp
      process_chunk_loop data end_ fuel p { ht with stations := Function.update ht.stations f.2 s }
    else some (ht, p)

/-- The function `process_chunk` on the range `[start, end_)` of `data`: the table
starts zeroed. -/
def process_chunk (fuel : Nat) (data : List Nat) (start end_ : Nat) : Option (HashTable × Nat) :=
  process_chunk_loop data end_ fuel start zero_table

/-- The combine step of `merge_tables` (lines 166-169): fold `ls` into `gs`. -/
def combine_station (gs ls : Station) : Station :=
  let gs := { gs with sum := wrap64 (gs.sum + ls.sum), count := wrap32 (gs.count + ls.count) }
  let gs := if ls.min < gs.min then { gs with min := ls.min } else gs
  if ls.max > gs.max then { gs with max := ls.max } else gs

/-- The loop of `merge_tables` from slot `i` with `n` iterations left. -/
def merge_tables_loop (fuel : Nat) (loc : HashTable) : Nat → Nat → HashTable → Option HashTable
  | 0, _, global => some global
  | n + 1, i, global =>
    let ls := loc.stations i
    if ls.name_len = 0 then merge_tables_loop fuel loc n (i + 1) global
    else do
      let f ← find_or_create fuel global ls.name
      let global := f.1
      let gs := combine_station (global.stations f.2) ls
      merge_tables_loop fuel loc n (i + 1)
        { global with stations := Function.update global.stations f.2 gs }

/-- The function `merge_tables`. -/
def merge_tables (fuel : Nat) (global loc : HashTable) : Option HashTable :=
  merge_tables_loop fuel loc HASH_TABLE_SIZE 0 global

/-- The merge loop of `main` (lines 257-259) over the worker tables, in order. -/
def merge_all (fuel : Nat) : List HashTable → HashTable → Option HashTable
  | [], global => some global
  | t :: ts, global => do
    let global ← merge_tables fuel global t
    merge_all fuel ts global

/-! ## Specification vocabulary for tables -/

/-- Slot `i` holds an entry: `name_len != 0`, the test of `find_or_create`,
`merge_tables` and the collection loop of `main`. -/
def occupied (ht : HashTable) (i : Nat) : Prop := (ht.stations i).name_len ≠ 0

instance (ht : HashTable) (i : Nat) : Decidable (occupied ht i) := by
  unfold occupied; exact inferInstance

/-- The slot at which the probing for `name` starts. -/
def home (name : List Nat) : Nat := hash_name name &&& (HASH_TABLE_SIZE - 1)

/-- The slot reached from slot `h` after `d` probing steps. -/
def probe_slot (h d : Nat) : Nat := (h + d) % HASH_TABLE_SIZE

/-- The entry that `find_or_create` writes into an empty slot. -/
def fresh_station (name : List Nat) : Station :=
  { name := name, min := 9999, max := -9999, sum := 0, count := 0 }

/-- The invariant of a table built by `find_or_create`: no two occupied slots hold
the same name, and every slot on the probing path from the home slot of an occupied
slot's name up to that slot is occupied. -/
structure TableInv (ht : HashTable) : Prop where
  distinct : ∀ i j, i < HASH_TABLE_SIZE → j < HASH_TABLE_SIZE → occupied ht i →
    (ht.stations i).name = (ht.stations j).name → i = j
  reach : ∀ i d, i < HASH_TABLE_SIZE → occupied ht i → d < HASH_TABLE_SIZE →
    probe_slot (home (ht.stations i).name) d = i →
    ∀ d2, d2 < d → occupied ht (probe_slot (home (ht.stations i).name) d2)

/-- The station `s` is an entry of the table: it sits in an occupied slot. -/
def HasEntry (ht : HashTable) (s : Station) : Prop :=
  ∃ i, i < HASH_TABLE_SIZE ∧ occupied ht i ∧ ht.stations i = s

/-- The table `ht` holds exactly the entries of the finite map `m` from names to
stations, each once. -/
structure Represents (ht : HashTable) (m : List Nat → Option Station) : Prop where
  inv : TableInv ht
  named : ∀ k s, m k = some s → s.name = k
  entries : ∀ s, HasEntry ht s ↔ m s.name = some s

/-! ## Well-formed input lines and the reference aggregation -/

/-- One input line `<key>;<value>\n`. -/
structure Line where
  key : List Nat
  value : ValueText
deriving DecidableEq, Repr

/-- A well-formed line: the key has 1 to 100 bytes, none of them `;` or newline,
and the value is of the grammar. -/
def Line.wf (l : Line) : Prop :=
  1 ≤ l.key.length ∧ l.key.length ≤ MAX_NAME_LEN ∧ 59 ∉ l.key ∧ 10 ∉ l.key ∧ l.value.wf

instance (l : Line) : Decidable l.wf := by
  unfold Line.wf; exact inferInstance

/-- The bytes of a line. -/
def Line.bytes (l : Line) : List Nat := l.key ++ 59 :: (l.value.bytes ++ [10])

/-- The bytes of a sequence of lines. -/
def encode (lines : List Line) : List Nat := (lines.map Line.bytes).flatten

/-- The values, in tenths, of the lines with key `k`, in input order. -/
def temps_of (k : List Nat) (lines : List Line) : List Int :=
  (lines.filter (fun l => l.key = k)).map (fun l => l.value.tenths)

/-- One step of the reference aggregation: fold the line into the map. -/
def aggregate_step (m : List Nat → Option Station) (l : Line) : List Nat → Option Station :=
  Function.update m l.key
    (some (update_station ((m l.key).getD (fresh_station l.key)) l.value.tenths))

/-- The reference aggregation of a sequence of lines into the map `m`. -/
def aggregate (m : List Nat → Option Station) (lines : List Line) : List Nat → Option Station :=
  lines.foldl aggregate_step m

/-- The lines of the end-to-end example of the specification:
`Hamburg;12.0`, `Hamburg;-3.4`, `Berlin;10.5`. -/
def example_lines : List Line :=
  [ ⟨[72, 97, 109, 98, 117, 114, 103], ⟨false, some 1, 2, 0⟩⟩,
    ⟨[72, 97, 109, 98, 117, 114, 103], ⟨true, none, 3, 4⟩⟩,
    ⟨[66, 101, 114, 108, 105, 110], ⟨false, some 1, 0, 5⟩⟩ ]

/-- The line `a;0.0`. -/
def zero_line : Line := ⟨[97], ⟨false, none, 0, 0⟩⟩

/-! ## The reference merge -/

/-- The entries of a table, in slot order. -/
def table_entries (ht : HashTable) : List Station :=
  ((List.range HASH_TABLE_SIZE).filter (fun i => occupied ht i)).map ht.stations

/-- The entry of a table for the key `k`, when there is one. -/
def entry_of (ht : HashTable) (k : List Nat) : Option Station :=
  (table_entries ht).find? (fun s => s.name = k)

/-- One step of the reference merge: fold the worker entry `ls` into the map. -/
def merge_step (m : List Nat → Option Station) (ls : Station) : List Nat → Option Station :=
  Function.update m ls.name
    (some (combine_station ((m ls.name).getD (fresh_station ls.name)) ls))

/-- The reference merge of the worker tables `ts`, in order, into the empty map. -/
def merged (ts : List HashTable) : List Nat → Option Station :=
  ((ts.map table_entries).flatten).foldl merge_step (fun _ => none)

/-- The entries that the workers hold for the key `k`, in worker order. -/
def worker_entries (ts : List HashTable) (k : List Nat) : List Station :=
  ts.filterMap (fun t => entry_of t k)

/-- All names held by the tables `ts`. -/
def table_names (ts : List HashTable) : List (List Nat) :=
  ((ts.map table_entries).flatten).map Station.name

/-- The table that `process_chunk` leaves for the buffer made of `lines` alone
(the zeroed table if the run did not end). -/
def worker_table (lines : List Line) : HashTable :=
  match process_chunk (lines.length + HASH_TABLE_SIZE + 1) (encode lines) 0 (encode lines).length with
  | some r => r.1
  | none => zero_table

/-- A table with every slot occupied: slot `i` holds the two-byte key
`[1 + i % 255, 1 + i / 255]` with one observation of 0.0. -/
def full_table : HashTable :=
  { stations := fun i => { name := [1 + i % 255, 1 + i / 255], sum := 0, count := 1, min := 0, max := 0 },
    count := 16384 }

/-! ## The reporter (parallel implementation, `main`, lines 261-290) -/

/-- The collection loop of `main` from slot `i` with `n` iterations left; `result`
holds the `result_count` entries stored so far.  The array `result` has room for
`MAX_STATIONS` entries: a store at an index from `MAX_STATIONS` on is outside the
allocation, and the loop returns `none`. -/
def collect_loop (global : HashTable) : Nat → Nat → List Station → Option (List Station)
  | 0, _, result => some result
  | n + 1, i, result =>
    if (global.stations i).name_len > 0 then
      if result.length < MAX_STATIONS then
        collect_loop global n (i + 1) (result ++ [global.stations i])
      else none
    else collect_loop global n (i + 1) result

/-- The collection loop of `main` over all slots. -/
def collect (global : HashTable) : Option (List Station) :=
  collect_loop global HASH_TABLE_SIZE 0 []

/-- The C string stored in a name array: the bytes before the first NUL byte. -/
def c_string (name : List Nat) : List Nat := name.takeWhile (fun b => b ≠ 0)

/-- The library function `strcmp` on two C strings given without their
terminators: the difference of the first pair of differing bytes, compared as
`unsigned char`, where the end of a string counts as the byte 0. -/
def strcmp : List Nat → List Nat → Int
  | [], [] => 0
  | [], b :: _ => 0 - (b : Int)
  | a :: _, [] => (a : Int)
  | a :: as, b :: bs => if a = b then strcmp as bs else (a : Int) - (b : Int)

/-- The function `compare_stations`. -/
def compare_stations (a b : Station) : Int := strcmp (c_string a.name) (c_string b.name)

/-- The library function `qsort` with `compare_stations`, as an insertion sort.
The theorems about the reporter use of it only that the result is a permutation of
the input in which no element compares greater than a later one. -/
def qsort (result : List Station) : List Station :=
  result.insertionSort (fun a b => compare_stations a b ≤ 0)

/-- The keys in the order in which the reporter prints them (`%s` prints the C string
of the name). -/
def rendered_keys (sorted : List Station) : List (List Nat) :=
  sorted.map (fun s => c_string s.name)

/-- Two well-formed lines whose keys contain a NUL byte: `a\0b;1.0` and `a\0c;2.0`. -/
def nul_lines : List Line :=
  [ ⟨[97, 0, 98], ⟨false, none, 1, 0⟩⟩, ⟨[97, 0, 99], ⟨false, none, 2, 0⟩⟩ ]

/-! ## Floating point (`double`) and formatted output

A finite `double` is modelled by the rational number it denotes.  No operation of
the program yields a negative zero (an `int` converts to `+0.0`, a zero sum of two
operands of opposite sign is `+0.0` in round-to-nearest), so the sign of zero is not
modelled.  The exponent range is not modelled either: every quotient of an
`int64_t` by a nonzero `int` is zero or lies well inside the normal range. -/

/-- Rounding of a rational to the nearest integer, ties to the even one. -/
def round_half_even (q : ℚ) : Int :=
  let f := Int.floor q
  let r := q - (f : ℚ)
  if r < 1 / 2 then f
  else if 1 / 2 < r then f + 1
  else if f % 2 = 0 then f
  else f + 1

/-- IEEE 754 binary64 rounding (to nearest, ties to even) of a real number: the
multiple of the unit in the last place of its binade that is nearest to it
(53 significant bits). -/
def fl64 (q : ℚ) : ℚ :=
  if q = 0 then 0
  else
    let ulp : ℚ := (2 : ℚ) ^ (Int.log 2 |q| - 52)
    (round_half_even (q / ulp) : ℚ) * ulp

/-- The conversion `(int)` of a `double`: truncation toward zero; `none` when the
value is outside the range of `int` (undefined behaviour). -/
def to_int (q : ℚ) : Option Int :=
  let r : Int := if 0 ≤ q then Int.floor q else Int.ceil q
  if -2 ^ 31 ≤ r ∧ r < 2 ^ 31 then some r else none

/-- The `int rounded` of `round_temp` (lines 176-178); `none` when `count` is 0 (the
quotient is then a NaN or an infinity, whose conversion to `int` is undefined). -/
def round_temp_rounded (sum count : Int) : Option Int :=
  if count = 0 then none
  else
    -- sum is in tenths, we need average in tenths then convert to double
    let avg := fl64 (fl64 (sum : ℚ) / (count : ℚ))
    -- Round to nearest 0.1
    to_int (if avg ≥ 0 then fl64 (avg + 1 / 2) else fl64 (avg - 1 / 2))

/-- The function `round_temp`. -/
def round_temp (sum count : Int) : Option ℚ := do
  let rounded ← round_temp_rounded sum count
  -- Avoid negative zero
  if rounded = 0 then some 0 else some (fl64 ((rounded : ℚ) / 10))

/-- The decimal digits of `n`, as ASCII bytes, in front of `acc`; `fuel` bounds the
number of digits. -/
def dec_digits_loop : Nat → Nat → List Nat → List Nat
  | 0, _, acc => acc
  | fuel + 1, n, acc =>
    if n < 10 then (48 + n) :: acc
    else dec_digits_loop fuel (n / 10) ((48 + n % 10) :: acc)

/-- The decimal digits of a natural number, as ASCII bytes. -/
def dec_digits (n : Nat) : List Nat := dec_digits_loop (n + 1) n []

/-- The conversion `%.1f` of `printf` for a finite `double`: the sign, then the
absolute value rounded to one decimal (to nearest, ties to even, as glibc does from
the exact binary value). -/
def printf_1f (x : ℚ) : List Nat :=
  let n := (round_half_even (|x| * 10)).natAbs
  (if x < 0 then [45] else []) ++ dec_digits (n / 10) ++ [46, 48 + n % 10]

/-- The display form of a value in tenths: sign, integer part, `.`, one digit. -/
def render_tenths (r : Int) : List Nat :=
  (if r < 0 then [45] else []) ++ dec_digits (r.natAbs / 10) ++ [46, 48 + r.natAbs % 10]

/-- One iteration of the output loop of `main` (lines 277-288) without the
separator: `printf("%s=%.1f/%.1f/%.1f", s->name, min, mean, max)`. -/
def render_station (s : Station) : Option (List Nat) := do
  let min := fl64 ((s.min : ℚ) / 10)
  let max := fl64 ((s.max : ℚ) / 10)
  let mean ← round_temp s.sum s.count
  -- Avoid -0.0 in output - use addition to normalize
  let min := fl64 (min + 0)
  let max := fl64 (max + 0)
  let mean := fl64 (mean + 0)
  some (c_string s.name ++ [61] ++ printf_1f min ++ [47] ++ printf_1f mean ++ [47] ++ printf_1f max)

/-- The output loop of `main` over the sorted entries, from entry `i`. -/
def render_loop : List Station → Nat → Option (List Nat)
  | [], _ => some []
  | s :: rest, i => do
    let field ← render_station s
    let tail ← render_loop rest (i + 1)
    some ((if i > 0 then [44, 32] else []) ++ field ++ tail)

/-- The reporter: collection, `qsort`, and the output `{...}\n`. -/
def report (global : HashTable) : Option (List Nat) := do
  let result ← collect global
  let body ← render_loop (qsort result) 0
  some ([123] ++ body ++ [125, 10])

/-- The bytes of an ASCII text. -/
def ascii (s : String) : List Nat := s.toList.map Char.toNat


/-! ## Accumulators -/

/-- The accumulator of an entry: the fields `sum`, `count`, `min`, `max`. -/
structure Acc where
  sum : Int
  count : Int
  min : Int
  max : Int
deriving DecidableEq, Repr

/-- The accumulator of a station. -/
def Station.acc (s : Station) : Acc :=
  { sum := s.sum, count := s.count, min := s.min, max := s.max }

/-- The combine step of `merge_tables` (lines 166-169) on accumulators. -/
def combine (a other : Acc) : Acc :=
  let a := { a with sum := wrap64 (a.sum + other.sum), count := wrap32 (a.count + other.count) }
  let a := if other.min < a.min then { a with min := other.min } else a
  if other.max > a.max then { a with max := other.max } else a

/-- The table after `find_or_create` has created the entry for `name` in slot `idx`. -/
def create_entry (ht : HashTable) (idx : Nat) (name : List Nat) : HashTable :=
  { stations := Function.update ht.stations idx (fresh_station name),
    count := wrap32 (ht.count + 1) }


/-! ## The pipeline of `main` (parallel implementation, lines 218-290) -/

/-- The worker threads of `main`: `process_chunk` on each planned range, each with a
table of its own (`thread_tables[i]`).  The workers share only the read-only buffer,
so their tables are those of the runs taken one after another. -/
def run_workers (fuel : Nat) (data : List Nat) : List (Nat × Nat) → Option (List HashTable)
  | [] => some []
  | r :: rs => do
    let t ← process_chunk fuel data r.1 r.2
    let ts ← run_workers fuel data rs
    some (t.1 :: ts)

/-- The function `main` up to the merge (lines 218-259): the global table. -/
def main_table (fuel : Nat) (data : List Nat) : Option HashTable := do
  let ranges ← plan data NUM_THREADS
  let tables ← run_workers fuel data ranges
  merge_all fuel tables zero_table

/-- The function `main` on a mapped file: the bytes written to the standard output. -/
def main_output (fuel : Nat) (data : List Nat) : Option (List Nat) := do
  let global ← main_table fuel data
  report global

/-- The lines `lines[a], ..., lines[c - 1]`. -/
def line_range (lines : List Line) (a c : Nat) : List Line := (lines.drop a).take (c - a)

/-- The list of 10001 lines `AAA;0.0`, `BAA;0.0`, ..., with pairwise distinct
three-letter keys. -/
def many_lines : List Line :=
  (List.range 10001).map
    (fun i => ⟨[65 + i % 26, 65 + i / 26 % 26, 65 + i / 676], ⟨false, none, 0, 0⟩⟩)

/-! ## The single-threaded implementation (second source file, lines 13-132) -/

/-- Reduction of an integer to `int16_t` (two's complement). -/
def wrap16 (x : Int) : Int := (x + 2 ^ 15) % 2 ^ 16 - 2 ^ 15

namespace Single

/-- The number of slots of `hash_table`. -/
def HASH_SIZE : Nat := 16384

/-- The struct `Station` of the single-threaded implementation; `name_len` is the
length of `name`.  The fields `min` and `max` are `int16_t`, `count` is `int32_t`. -/
structure Station where
  name : List Nat
  sum : Int
  count : Int
  min : Int
  max : Int
  hash : Nat
deriving DecidableEq, Repr

/-- The field `name_len`. -/
def Station.name_len (s : Station) : Nat := s.name.length

/-- The struct `StationMap`: the array `stations` (of `MAX_STATIONS` elements), the
number `count` of stations in use, and `hash_table`, whose slots hold a pointer to an
element of `stations` (its index) or `NULL`. -/
structure StationMap where
  stations : Nat → Station
  count : Int
  hash_table : Nat → Option Nat

/-- The map after `calloc(1, sizeof(StationMap))`. -/
def zero_map : StationMap :=
  { stations := fun _ => { name := [], sum := 0, count := 0, min := 0, max := 0, hash := 0 },
    count := 0,
    hash_table := fun _ => none }

/-- The function `hash_name` (`hash * 33 + byte` on `uint32_t`, from 5381). -/
def hash_name (name : List Nat) : Nat :=
  name.foldl (fun hash b => ((hash <<< 5) % 2 ^ 32 + hash + b % 256) % 2 ^ 32) 5381

/-- The function `parse_temp`: `p` is the position of the first byte of the value; the
result is the returned `int16_t` and the position stored into `*end` (the position of
the newline). -/
def parse_temp (data : List Nat) (p : Nat) : Option (Int × Nat) := do
  let c0 ← data[p]?
  let negative := decide (c0 = 45)
  let p := if c0 = 45 then p + 1 else p
  -- Parse integer part
  let p0 ← data[p]?
  let p1 ← data[p + 1]?
  if p1 = 46 then
    -- Single digit
    let result := wrap16 ((char_val p0 - 48) * 10)
    let p2 ← data[p + 2]?
    let result := wrap16 (result + (char_val p2 - 48))
    some (if negative then wrap16 (-result) else result, p + 3)
  else
    -- Two digits
    let result := wrap16 ((char_val p0 - 48) * 100 + (char_val p1 - 48) * 10)
    let p3 ← data[p + 3]?
    let result := wrap16 (result + (char_val p3 - 48))
    some (if negative then wrap16 (-result) else result, p + 4)

/-- The probing loop `while (1)` of `get_station`, started at slot `idx`, with a bound
`fuel` on the number of iterations: `none` when the bound is reached, or when the new
station would lie outside the array `stations`.  The result is the map after the call
and the index in `stations` of the returned station. -/
def get_station_loop (map : StationMap) (name : List Nat) (hash : Nat) :
    Nat → Nat → Option (StationMap × Nat)
  | 0, _ => none
  | fuel + 1, idx =>
    match map.hash_table idx with
    | none =>
      -- New station
      if 0 ≤ map.count ∧ map.count < MAX_STATIONS then
        some ({ stations := Function.update map.stations map.count.toNat
                  { name := name, sum := 0, count := 0, min := 32767, max := -32768, hash := hash },
                count := wrap32 (map.count + 1),
                hash_table := Function.update map.hash_table idx (some map.count.toNat) },
              map.count.toNat)
      else none
    | some s =>
      if (map.stations s).hash = hash ∧ (map.stations s).name_len = name.length ∧
          (map.stations s).name = name then
        some (map, s)
      else
        get_station_loop map name hash fuel ((idx + 1) &&& (HASH_SIZE - 1))

/-- The function `get_station`. -/
def get_station (fuel : Nat) (map : StationMap) (name : List Nat) (hash : Nat) :
    Option (StationMap × Nat) :=
  get_station_loop map name hash fuel (hash &&& (HASH_SIZE - 1))

/-- The function `update_station`. -/
def update_station (s : Station) (temp : Int) : Station :=
  let s := { s with sum := wrap64 (s.sum + temp), count := wrap32 (s.count + 1) }
  let s := if temp < s.min then { s with min := temp } else s
  if temp > s.max then { s with max := temp } else s

/-- The loop `while (p < end)` of `process_chunk`, from position `p` with the map
`map`; `fuel` bounds the iterations of this loop and of each probing loop. -/
def process_chunk_loop (data : List Nat) (end_ : Nat) :
    Nat → Nat → StationMap → Option (StationMap × Nat)
  | 0, _, _ => none
  | fuel + 1, p, map =>
    if p < end_ then do
      -- Find semicolon
      let name_start := p
      let semicolon ← scan data 59 p
      let name_len := semicolon - name_start
      let name := (data.drop name_start).take name_len
      let hash := hash_name name
      -- Parse temperature
      let r ← parse_temp data (semicolon + 1)
      let temp := r.1
      let temp_end := r.2
      -- Get or create station
      let f ← get_station fuel map name hash
      let map := f.1
      let station := update_station (map.stations f.2) temp
      -- Skip to next line
      process_chunk_loop data end_ fuel (temp_end + 1)
        { map with stations := Function.update map.stations f.2 station }
    else some (map, p)

/-- The function `process_chunk` on the buffer `data` of `size` bytes. -/
def process_chunk (fuel : Nat) (map : StationMap) (data : List Nat) (size : Nat) :
    Option (StationMap × Nat) :=
  process_chunk_loop data size fuel 0 map

/-- The entry (key, sum, count, min, max) that a station holds. -/
def Station.entry (s : Station) : OneBrc.Station :=
  { name := s.name, sum := s.sum, count := s.count, min := s.min, max := s.max }

/-- The entries of a map: those of the first `count` elements of `stations`, the
elements that `print_results` sorts and prints. -/
def entries (map : StationMap) : List OneBrc.Station :=
  (List.range map.count.toNat).map (fun j => (map.stations j).entry)

/-- The aggregate table with the slots of `hash_table`: a slot holds the entry of the
station it points to, a `NULL` slot is empty. -/
def table_of (map : StationMap) : HashTable :=
  { stations := fun i =>
      match map.hash_table i with
      | some j => (map.stations j).entry
      | none => zero_station,
    count := map.count }

/-- The slot at which the probing for `name` starts. -/
def home (name : List Nat) : Nat := hash_name name &&& (HASH_SIZE - 1)

/-- The station that `get_station` creates. -/
def fresh_station (name : List Nat) (hash : Nat) : Station :=
  { name := name, sum := 0, count := 0, min := 32767, max := -32768, hash := hash }

/-- The map after `get_station` has created the station for `name` at slot `idx`. -/
def create_station (map : StationMap) (idx : Nat) (name : List Nat) (hash : Nat) : StationMap :=
  { stations := Function.update map.stations map.count.toNat (fresh_station name hash),
    count := wrap32 (map.count + 1),
    hash_table := Function.update map.hash_table idx (some map.count.toNat) }

end Single

/-! ## Specification vocabulary for tables probed from any home slot -/

/-- The invariant `TableInv` for a table probed from the home slots `hm`. -/
structure TableInvAt (hm : List Nat → Nat) (ht : HashTable) : Prop where
  distinct : ∀ i j, i < HASH_TABLE_SIZE → j < HASH_TABLE_SIZE → occupied ht i →
    (ht.stations i).name = (ht.stations j).name → i = j
  reach : ∀ i d, i < HASH_TABLE_SIZE → occupied ht i → d < HASH_TABLE_SIZE →
    probe_slot (hm (ht.stations i).name) d = i →
    ∀ d2, d2 < d → occupied ht (probe_slot (hm (ht.stations i).name) d2)

/-- The table `ht`, probed from the home slots `hm`, holds exactly the entries of the
finite map `m`, each once. -/
structure RepresentsAt (hm : List Nat → Nat) (ht : HashTable)
    (m : List Nat → Option Station) : Prop where
  inv : TableInvAt hm ht
  named : ∀ k s, m k = some s → s.name = k
  entries : ∀ s, HasEntry ht s ↔ m s.name = some s

/-- The invariant of a `StationMap` built by `get_station`: `count` is within the
array, the non-`NULL` slots of `hash_table` point one-to-one onto the stations in
use, and each station in use has a non-empty name and holds the hash of its name. -/
structure MapInv (map : Single.StationMap) : Prop where
  count_nonneg : 0 ≤ map.count
  count_le : map.count ≤ MAX_STATIONS
  slot_lt : ∀ i j, map.hash_table i = some j → i < HASH_TABLE_SIZE ∧ j < map.count.toNat
  slot_inj : ∀ i1 i2 j, map.hash_table i1 = some j → map.hash_table i2 = some j → i1 = i2
  slot_surj : ∀ j, j < map.count.toNat → ∃ i, map.hash_table i = some j
  hash_eq : ∀ j, j < map.count.toNat →
    (map.stations j).hash = Single.hash_name (map.stations j).name
  name_ne : ∀ j, j < map.count.toNat → (map.stations j).name ≠ []

/-! ## Theorems -/

theorem getElem?_mid (pre l : List Nat) (k : Nat) :
    (pre ++ l)[pre.length + k]? = l[k]? := by
  rw [List.getElem?_append_right (by omega)]
  congr 1; omega

theorem tenths_eq (v : ValueText) : (v.tenths : ℚ) = 10 * v.value := by
  unfold ValueText.tenths ValueText.value
  cases v.neg <;> simp <;> ring

theorem tenths_bound (v : ValueText) (h : v.wf) : -999 ≤ v.tenths ∧ v.tenths ≤ 999 := by
  obtain ⟨h1, h2, h3⟩ := h
  unfold ValueText.tenths
  cases ht : v.tens with
  | none => cases v.neg <;> simp <;> omega
  | some t =>
    have := h1 t ht
    cases v.neg <;> simp <;> omega

theorem char_val_digit (d : Nat) (h : d ≤ 9) : char_val (48 + d) - 48 = (d : Int) := by
  unfold char_val
  rw [if_pos (by omega)]
  push_cast; ring

theorem parse_temp_bytes (v : ValueText) (h : v.wf) (pre post : List Nat) :
    parse_temp (pre ++ (v.bytes ++ 10 :: post)) pre.length
      = some (v.tenths, pre.length + v.bytes.length + 1) := by
  obtain ⟨h1, h2, h3⟩ := h
  rcases v with ⟨neg, tens, units, frac⟩
  simp only at h1 h2 h3
  have e0 : ∀ l : List Nat, (pre ++ l)[pre.length]? = l[0]? := fun l => by
    simpa using getElem?_mid pre l 0
  have e1 : ∀ (l : List Nat) k, (pre ++ l)[pre.length + k]? = l[k]? := fun l k => getElem?_mid pre l k
  have u1 : 48 + units ≠ 45 := by omega
  have u2 : 48 + units ≠ 46 := by omega
  have cu := char_val_digit units h2
  have cf := char_val_digit frac h3
  cases neg <;> cases tens with
  | none =>
    simp [parse_temp, ValueText.bytes, ValueText.tenths, e0, e1, add_assoc, u1, u2, cu, cf]
    try linarith
  | some t =>
    have ht := h1 t rfl
    have t1 : 48 + t ≠ 45 := by omega
    have ct := char_val_digit t ht
    simp [parse_temp, ValueText.bytes, ValueText.tenths, e0, e1, add_assoc, u1, u2, t1, cu, cf, ct]
    try linarith

/-- C2: for every value text of the grammar (optional `-`, one or two digits, `.`,
one digit) followed by a newline, at any position of any buffer, `parse_temp`
returns the integer equal to ten times the decimal value, which lies in
`[-999, 999]`, and leaves the position on the byte right after the newline. -/
theorem parse_temp_correct (v : ValueText) (h : v.wf) (pre post : List Nat) :
    ∃ r : Int,
      parse_temp (pre ++ (v.bytes ++ 10 :: post)) pre.length
        = some (r, pre.length + v.bytes.length + 1) ∧
      (pre ++ (v.bytes ++ 10 :: post))[pre.length + v.bytes.length]? = some 10 ∧
      (r : ℚ) = 10 * v.value ∧ -999 ≤ r ∧ r ≤ 999 :=
  ⟨v.tenths, parse_temp_bytes v h pre post,
    by rw [getElem?_mid, List.getElem?_append_right (le_refl _)]; simp,
    tenths_eq v, tenths_bound v h⟩

/-- C2 at `-12.3` inside the buffer `a;-12.3\nb`. -/
theorem parse_temp_correct_witness :
    ValueText.wf ⟨true, some 1, 2, 3⟩ ∧
    ∃ r : Int,
      parse_temp ([97, 59] ++ ((⟨true, some 1, 2, 3⟩ : ValueText).bytes ++ 10 :: [98])) [97, 59].length
        = some (r, [97, 59].length + (⟨true, some 1, 2, 3⟩ : ValueText).bytes.length + 1) ∧
      ([97, 59] ++ ((⟨true, some 1, 2, 3⟩ : ValueText).bytes ++ 10 :: [98]))[[97, 59].length +
        (⟨true, some 1, 2, 3⟩ : ValueText).bytes.length]? = some 10 ∧
      (r : ℚ) = 10 * (⟨true, some 1, 2, 3⟩ : ValueText).value ∧ -999 ≤ r ∧ r ≤ 999 :=
  ⟨by decide, parse_temp_correct ⟨true, some 1, 2, 3⟩ (by decide) [97, 59] [98]⟩

/-! ### The range planner -/

theorem scan_from_some {c : Nat} : ∀ {rest : List Nat} {p q : Nat},
    scan_from c rest p = some q →
      p ≤ q ∧ rest[q - p]? = some c ∧ ∀ j, j < q - p → rest[j]? ≠ some c := by
  intro rest
  induction rest with
  | nil => intro p q h; simp [scan_from] at h
  | cons b rest ih =>
    intro p q h
    unfold scan_from at h
    by_cases hb : b = c
    · simp [hb] at h
      subst h
      simp [hb]
    · simp [hb] at h
      obtain ⟨h1, h2, h3⟩ := ih h
      refine ⟨by omega, ?_, ?_⟩
      · have : q - p = (q - (p + 1)) + 1 := by omega
        rw [this]; simpa using h2
      · intro j hj
        cases j with
        | zero => simpa using hb
        | succ j => simpa using h3 j (by omega)

theorem scan_from_exists {c : Nat} : ∀ {rest : List Nat} (p : Nat),
    c ∈ rest → ∃ q, scan_from c rest p = some q := by
  intro rest
  induction rest with
  | nil => intro p h; simp at h
  | cons b rest ih =>
    intro p h
    unfold scan_from
    by_cases hb : b = c
    · exact ⟨p, by simp [hb]⟩
    · have : c ∈ rest := by
        rcases List.mem_cons.1 h with h | h
        · exact absurd h.symm hb
        · exact h
      obtain ⟨q, hq⟩ := ih (p + 1) this
      exact ⟨q, by simp [hb, hq]⟩

theorem scan_some {data : List Nat} {c p q : Nat} (h : scan data c p = some q) :
    p ≤ q ∧ q < data.length ∧ data[q]? = some c ∧ ∀ j, p ≤ j → j < q → data[j]? ≠ some c := by
  obtain ⟨h1, h2, h3⟩ := scan_from_some h
  rw [List.getElem?_drop] at h2
  have e : p + (q - p) = q := by omega
  rw [e] at h2
  refine ⟨h1, ?_, h2, ?_⟩
  · by_contra hlt
    rw [List.getElem?_eq_none (by omega)] at h2
    exact absurd h2 (by simp)
  · intro j hj hjq
    have := h3 (j - p) (by omega)
    rw [List.getElem?_drop] at this
    have e2 : p + (j - p) = j := by omega
    rwa [e2] at this

theorem scan_exists {data : List Nat} {c p j : Nat} (hj : p ≤ j) (h : data[j]? = some c) :
    ∃ q, scan data c p = some q := by
  apply scan_from_exists
  rw [List.mem_iff_getElem?]
  refine ⟨j - p, ?_⟩
  rw [List.getElem?_drop]
  have e2 : p + (j - p) = j := by omega
  rwa [e2]

/-- The scan for a byte is monotone in its start position. -/
theorem scan_mono {data : List Nat} {c p p2 q q2 : Nat} (hp : p ≤ p2)
    (h : scan data c p = some q) (h2 : scan data c p2 = some q2) : q ≤ q2 := by
  obtain ⟨_, _, _, a4⟩ := scan_some h
  obtain ⟨b1, _, b3, _⟩ := scan_some h2
  by_contra hlt
  exact a4 q2 (by omega) (by omega) b3

theorem getLast?_eq_getElem?_pred (l : List Nat) : l.getLast? = l[l.length - 1]? := by
  rw [List.getLast?_eq_getElem?]

theorem split_lines_eq_nil {l : List Nat} : split_lines l = [] ↔ l = [] := by
  cases l with
  | nil => simp [split_lines]
  | cons b rest =>
    simp only [split_lines]
    by_cases hb : b = 10
    · simp [hb]
    · simp only [hb, if_false]
      cases split_lines rest <;> simp

theorem endsWithNewline_tail {b : Nat} {rest : List Nat} (h : EndsWithNewline (b :: rest)) :
    EndsWithNewline rest := by
  cases rest with
  | nil => exact Or.inl rfl
  | cons c rest =>
    right
    rcases h with h | h
    · simp at h
    · simpa [List.getLast?_cons_cons] using h

/-- Splitting into lines distributes over appending to a buffer of whole lines. -/
theorem split_lines_append {a : List Nat} (h : EndsWithNewline a) (b : List Nat) :
    split_lines (a ++ b) = split_lines a ++ split_lines b := by
  induction a with
  | nil => simp [split_lines]
  | cons x rest ih =>
    have ih2 := ih (endsWithNewline_tail h)
    simp only [List.cons_append, split_lines]
    by_cases hx : x = 10
    · simp [hx, ih2]
    · simp only [hx, if_false]
      have hne : rest ≠ [] := by
        rintro rfl
        rcases h with h | h
        · simp at h
        · simp at h; exact hx h
      have e : rest.append b = rest ++ b := rfl
      rw [e, ih2]
      cases hs : split_lines rest with
      | nil => exact absurd (split_lines_eq_nil.1 hs) hne
      | cons l ls => simp

theorem split_lines_join (cs : List (List Nat)) (h : ∀ c ∈ cs, EndsWithNewline c) :
    split_lines cs.flatten = (cs.map split_lines).flatten := by
  induction cs with
  | nil => simp [split_lines]
  | cons c cs ih =>
    simp only [List.flatten_cons, List.map_cons]
    rw [split_lines_append (h c (List.mem_cons_self _ _)),
      ih (fun c hc => h c (List.mem_cons_of_mem _ hc))]

theorem slice_append (data : List Nat) {s m e : Nat} (h1 : s ≤ m) (h2 : m ≤ e) :
    slice data (s, m) ++ slice data (m, e) = slice data (s, e) := by
  unfold slice
  simp only
  have e1 : e - s = (m - s) + (e - m) := by omega
  rw [e1, List.take_add, List.drop_drop]
  have e2 : s + (m - s) = m := by omega
  have e3 : m - s + s = m := by omega
  rw [e2]

theorem slices_flatten (data : List Nat) (b : Nat → Nat) (hmono : ∀ i, b i ≤ b (i + 1)) :
    ∀ n i, ((List.range' i n).map (fun j => slice data (b j, b (j + 1)))).flatten
      = slice data (b i, b (i + n)) := by
  intro n
  induction n with
  | zero => intro i; simp [slice]
  | succ n ih =>
    intro i
    have hm : ∀ k, b (i + 1) ≤ b (i + 1 + k) := by
      intro k
      induction k with
      | zero => exact le_refl _
      | succ k ihk => exact le_trans ihk (hmono _)
    rw [List.range'_succ, List.map_cons, List.flatten_cons, ih (i + 1)]
    have e : i + (n + 1) = i + 1 + n := by omega
    rw [e]
    exact slice_append data (hmono i) (hm n)

theorem slice_full (data : List Nat) : slice data (0, data.length) = data := by
  simp [slice]

theorem plan_loop_eq (data : List Nat) (W : Nat) (b : Nat → Nat) :
    ∀ n i, (∀ j, i ≤ j → j < i + n → plan_range data W j = some (b j, b (j + 1))) →
      plan_loop data W n i = some ((List.range' i n).map (fun j => (b j, b (j + 1)))) := by
  intro n
  induction n with
  | zero => intro i _; simp [plan_loop]
  | succ n ih =>
    intro i h
    have h0 := h i (le_refl _) (by omega)
    have h1 := ih (i + 1) (fun j hj hj2 => h j (by omega) (by omega))
    simp [plan_loop, h0, h1, List.range'_succ]

/-- The boundaries computed by the planning loop: `0`, the position after the
first newline at or after each even split point, and the buffer length. -/
theorem plan_boundaries (data : List Nat) (W : Nat) (hW : 1 ≤ W) (hne : data ≠ [])
    (hnl : EndsWithNewline data) :
    ∃ b : Nat → Nat, b 0 = 0 ∧ b W = data.length ∧ (∀ i, b i ≤ b (i + 1)) ∧
      (∀ i, b i ≤ data.length) ∧
      (∀ i, b i = 0 ∨ data[b i - 1]? = some 10) ∧
      plan data W = some ((List.range W).map (fun j => (b j, b (j + 1)))) := by
  have hlen : 0 < data.length := List.length_pos.2 hne
  have hlast : data[data.length - 1]? = some 10 := by
    rcases hnl with h | h
    · exact absurd h hne
    · rw [← List.getLast?_eq_getElem?]; exact h
  -- every split point below the length has a newline at or after it
  have hscan : ∀ x, x < data.length → ∃ q, scan data 10 x = some q :=
    fun x hx => scan_exists (Nat.le_sub_one_of_lt hx) hlast
  have hcs : ∀ i, 0 < i → i < W → i * (data.length / W) < data.length := by
    intro i _ hi
    by_cases hz : data.length / W = 0
    · rw [hz]; simpa using hlen
    · have h1 : i * (data.length / W) < W * (data.length / W) :=
        Nat.mul_lt_mul_of_pos_right hi (Nat.pos_of_ne_zero hz)
      have h2 : W * (data.length / W) ≤ data.length := Nat.mul_div_le _ _
      omega
  let b : Nat → Nat := fun i =>
    if i = 0 then 0
    else if W ≤ i then data.length
    else (scan data 10 (i * (data.length / W))).getD 0 + 1
  have hb_mid : ∀ i, 0 < i → i < W → ∃ q, scan data 10 (i * (data.length / W)) = some q ∧
      b i = q + 1 := by
    intro i h0 hi
    obtain ⟨q, hq⟩ := hscan _ (hcs i h0 hi)
    refine ⟨q, hq, ?_⟩
    simp only [b]
    rw [if_neg (by omega), if_neg (by omega), hq]
    rfl
  have hble : ∀ i, b i ≤ data.length := by
    intro i
    by_cases h0 : i = 0
    · simp [b, h0]
    · by_cases hi : W ≤ i
      · simp [b, h0, hi]
      · obtain ⟨q, hq, e⟩ := hb_mid i (by omega) (by omega)
        have := (scan_some hq).2.1
        omega
  refine ⟨b, by simp [b], ?_, ?_, hble, ?_, ?_⟩
  · simp only [b]
    rw [if_neg (by omega), if_pos (le_refl _)]
  · intro i
    by_cases h0 : i = 0
    · subst h0; simp [b]
    · by_cases hi : W ≤ i + 1
      · have : b (i + 1) = data.length := by
          simp only [b]
          rw [if_neg (by omega), if_pos hi]
        rw [this]; exact hble i
      · obtain ⟨q, hq, e⟩ := hb_mid i (by omega) (by omega)
        obtain ⟨q2, hq2, e2⟩ := hb_mid (i + 1) (by omega) (by omega)
        have := scan_mono (Nat.mul_le_mul_right _ (Nat.le_succ i)) hq hq2
        omega
  · intro i
    by_cases h0 : i = 0
    · left; simp [b, h0]
    · right
      by_cases hi : W ≤ i
      · have : b i = data.length := by
          simp only [b]
          rw [if_neg h0, if_pos hi]
        rw [this]; exact hlast
      · obtain ⟨q, hq, e⟩ := hb_mid i (by omega) (by omega)
        rw [e]
        simpa using (scan_some hq).2.2.1
  · unfold plan
    rw [List.range_eq_range']
    apply plan_loop_eq
    intro j _ hj
    have hj : j < W := by omega
    have hbW : j = W - 1 → b (j + 1) = data.length := by
      intro h1
      simp only [b]
      rw [if_neg (by omega), if_pos (by omega)]
    by_cases h0 : j = 0
    · have hb0 : b j = 0 := by simp [b, h0]
      by_cases h1 : j = W - 1
      · have e1 := hbW h1
        rw [h0] at e1 h1
        simp [plan_range, h0, ← h1, e1]
        simp [b]
      · obtain ⟨q, hq, e⟩ := hb_mid (j + 1) (by omega) (by omega)
        rw [h0] at hq e h1
        rw [Nat.zero_add, Nat.one_mul] at hq
        simp [plan_range, h0, hq, e, h1]
        simp [b]
    · obtain ⟨q0, hq0, e0⟩ := hb_mid j (by omega) hj
      by_cases h1 : j = W - 1
      · simp [plan_range, h0, ← h1, hq0, e0, hbW h1]
      · obtain ⟨q, hq, e⟩ := hb_mid (j + 1) (by omega) (by omega)
        simp [plan_range, h0, hq, e, h1, hq0, e0]

/-- C3: for a non-empty buffer of whole lines and any worker count `W ≥ 1`, the
planning loop of `main` returns `W` ranges; range 0 starts at 0, the last range ends
at the buffer length, every range has `start ≤ end ≤ length`, each range ends where
the next one starts, every start is 0 or the position right after a newline, and
the lines of the ranges, in order, are exactly the lines of the buffer. -/
theorem plan_ranges_correct (data : List Nat) (W : Nat) (hW : 1 ≤ W) (hne : data ≠ [])
    (hnl : EndsWithNewline data) :
    ∃ rs : List (Nat × Nat), plan data W = some rs ∧ rs.length = W ∧
      (∃ r, rs[0]? = some r ∧ r.1 = 0) ∧
      (∃ r, rs[W - 1]? = some r ∧ r.2 = data.length) ∧
      (∀ r ∈ rs, r.1 ≤ r.2 ∧ r.2 ≤ data.length ∧ (r.1 = 0 ∨ data[r.1 - 1]? = some 10)) ∧
      (∀ i r r2, rs[i]? = some r → rs[i + 1]? = some r2 → r.2 = r2.1) ∧
      (rs.map (fun r => slice data r)).flatten = data ∧
      (rs.map (fun r => split_lines (slice data r))).flatten = split_lines data := by
  obtain ⟨b, b0, bW, bmono, ble, bnl, hplan⟩ := plan_boundaries data W hW hne hnl
  have hget : ∀ i, i < W →
      ((List.range W).map (fun j => (b j, b (j + 1))))[i]? = some (b i, b (i + 1)) := by
    intro i hi
    simp [List.getElem?_map, List.getElem?_range hi]
  have hflat : (((List.range W).map (fun j => (b j, b (j + 1)))).map
      (fun r => slice data r)).flatten = data := by
    rw [List.map_map, List.range_eq_range']
    have := slices_flatten data b bmono W 0
    simp only [Function.comp_def]
    rw [this, b0, Nat.zero_add, bW, slice_full]
  refine ⟨_, hplan, by simp, ⟨_, hget 0 (by omega), b0⟩,
    ⟨_, hget (W - 1) (by omega), ?_⟩, ?_, ?_, hflat, ?_⟩
  · have : W - 1 + 1 = W := by omega
    simp only [this, bW]
  · intro r hr
    simp only [List.mem_map, List.mem_range] at hr
    obtain ⟨i, _, rfl⟩ := hr
    exact ⟨bmono i, ble _, bnl i⟩
  · intro i r r2 h1 h2
    have hi : i + 1 < W := by
      by_contra hc
      rw [List.getElem?_eq_none (by simp; omega)] at h2
      simp at h2
    rw [hget i (by omega)] at h1
    rw [hget (i + 1) hi] at h2
    simp only [Option.some.injEq] at h1 h2
    subst h1; subst h2; rfl
  · have hall : ∀ c ∈ ((List.range W).map (fun j => (b j, b (j + 1)))).map
        (fun r => slice data r), EndsWithNewline c := by
      intro c hc
      simp only [List.mem_map, List.mem_range] at hc
      obtain ⟨r, ⟨i, _, rfl⟩, rfl⟩ := hc
      by_cases he : slice data (b i, b (i + 1)) = []
      · exact Or.inl he
      · right
        have hlt : b i < b (i + 1) := by
          by_contra hc
          apply he
          simp only [slice]
          have : b (i + 1) - b i = 0 := by omega
          rw [this]; simp
        rw [List.getLast?_eq_getElem?]
        have hl : (slice data (b i, b (i + 1))).length = b (i + 1) - b i := by
          simp only [slice, List.length_take, List.length_drop]
          have := ble (i + 1)
          omega
        rw [hl]
        simp only [slice]
        rw [List.getElem?_take_of_lt (by omega), List.getElem?_drop]
        have e : b i + (b (i + 1) - b i - 1) = b (i + 1) - 1 := by omega
        rw [e]
        rcases bnl (i + 1) with h | h
        · omega
        · exact h
    have := split_lines_join _ hall
    rw [hflat] at this
    rw [this]
    simp [List.map_map, Function.comp_def]

/-- C3 on the buffer of the end-to-end example with `NUM_THREADS` workers. -/
theorem plan_ranges_correct_witness :
    1 ≤ NUM_THREADS ∧ encode example_lines ≠ [] ∧ EndsWithNewline (encode example_lines) ∧
    ∃ rs : List (Nat × Nat), plan (encode example_lines) NUM_THREADS = some rs ∧
      rs.length = NUM_THREADS ∧
      (∃ r, rs[0]? = some r ∧ r.1 = 0) ∧
      (∃ r, rs[NUM_THREADS - 1]? = some r ∧ r.2 = (encode example_lines).length) ∧
      (∀ r ∈ rs, r.1 ≤ r.2 ∧ r.2 ≤ (encode example_lines).length ∧
        (r.1 = 0 ∨ (encode example_lines)[r.1 - 1]? = some 10)) ∧
      (∀ i r r2, rs[i]? = some r → rs[i + 1]? = some r2 → r.2 = r2.1) ∧
      (rs.map (fun r => slice (encode example_lines) r)).flatten = encode example_lines ∧
      (rs.map (fun r => split_lines (slice (encode example_lines) r))).flatten
        = split_lines (encode example_lines) :=
  ⟨by decide, by decide, by decide,
    plan_ranges_correct (encode example_lines) NUM_THREADS (by decide) (by decide) (by decide)⟩

/-! ### Linear probing -/

theorem mask_eq_mod (x : Nat) : x &&& (HASH_TABLE_SIZE - 1) = x % HASH_TABLE_SIZE := by
  have := Nat.and_pow_two_sub_one_eq_mod x 14
  simpa [HASH_TABLE_SIZE] using this

theorem home_lt (name : List Nat) : home name < HASH_TABLE_SIZE := by
  unfold home
  rw [mask_eq_mod]
  exact Nat.mod_lt _ (by decide)

theorem probe_slot_lt (h d : Nat) : probe_slot h d < HASH_TABLE_SIZE :=
  Nat.mod_lt _ (by decide)

theorem probe_slot_zero {h : Nat} (hh : h < HASH_TABLE_SIZE) : probe_slot h 0 = h := by
  simp [probe_slot, Nat.mod_eq_of_lt hh]

theorem probe_slot_succ (h d : Nat) :
    probe_slot ((h + 1) &&& (HASH_TABLE_SIZE - 1)) d = probe_slot h (d + 1) := by
  rw [mask_eq_mod]
  unfold probe_slot
  rw [Nat.mod_add_mod]
  congr 1; omega

theorem probe_slot_inj {h d1 d2 : Nat} (h1 : d1 < HASH_TABLE_SIZE) (h2 : d2 < HASH_TABLE_SIZE)
    (e : probe_slot h d1 = probe_slot h d2) : d1 = d2 := by
  unfold probe_slot at e
  unfold HASH_TABLE_SIZE at *
  omega

/-- Every slot is on the probing path of every start slot. -/
theorem probe_slot_surj {h i : Nat} (hi : i < HASH_TABLE_SIZE) :
    ∃ d, d < HASH_TABLE_SIZE ∧ probe_slot h d = i := by
  refine ⟨(i + HASH_TABLE_SIZE - h % HASH_TABLE_SIZE) % HASH_TABLE_SIZE, Nat.mod_lt _ (by decide), ?_⟩
  unfold probe_slot
  unfold HASH_TABLE_SIZE at *
  omega

/-- The outcome of `find_or_create` when the probing stops at slot `idx`. -/
theorem find_or_create_loop_stop (ht : HashTable) (name : List Nat) (fuel idx : Nat)
    (h : ¬ occupied ht idx ∨ (ht.stations idx).name = name) :
    find_or_create_loop ht name (fuel + 1) idx =
      if occupied ht idx then some (ht, idx)
      else some ({ stations := Function.update ht.stations idx (fresh_station name),
                   count := wrap32 (ht.count + 1) }, idx) := by
  unfold find_or_create_loop
  by_cases ho : occupied ht idx
  · have hn : (ht.stations idx).name = name := by
      rcases h with h | h
      · exact absurd ho h
      · exact h
    have ho2 : ¬ (ht.stations idx).name_len = 0 := ho
    have h3 : (ht.stations idx).name_len = name.length ∧ (ht.stations idx).name = name :=
      ⟨by rw [Station.name_len, hn], hn⟩
    simp only [if_neg ho2, if_pos h3, if_pos ho]
  · have ho2 : (ht.stations idx).name_len = 0 := by
      unfold occupied at ho; simpa using ho
    simp [ho, ho2, fresh_station]

theorem find_or_create_loop_step (ht : HashTable) (name : List Nat) (fuel idx : Nat)
    (h1 : occupied ht idx) (h2 : (ht.stations idx).name ≠ name) :
    find_or_create_loop ht name (fuel + 1) idx =
      find_or_create_loop ht name fuel ((idx + 1) &&& (HASH_TABLE_SIZE - 1)) := by
  conv_lhs => unfold find_or_create_loop
  have ho2 : ¬ (ht.stations idx).name_len = 0 := h1
  simp [ho2, h2]

/-- The probing loop run: if the first slot on the path from `idx` that is empty or
holds `name` comes after `d` steps, any fuel above `d` gives the outcome at that slot. -/
theorem find_or_create_loop_run (ht : HashTable) (name : List Nat) :
    ∀ (d idx fuel : Nat), idx < HASH_TABLE_SIZE → d < fuel →
      (∀ d2, d2 < d → occupied ht (probe_slot idx d2) ∧
        (ht.stations (probe_slot idx d2)).name ≠ name) →
      (¬ occupied ht (probe_slot idx d) ∨ (ht.stations (probe_slot idx d)).name = name) →
      find_or_create_loop ht name fuel idx =
        if occupied ht (probe_slot idx d) then some (ht, probe_slot idx d)
        else some ({ stations := Function.update ht.stations (probe_slot idx d) (fresh_station name),
                     count := wrap32 (ht.count + 1) }, probe_slot idx d) := by
  intro d
  induction d with
  | zero =>
    intro idx fuel hidx hf _ hstop
    obtain ⟨f, rfl⟩ : ∃ f, fuel = f + 1 := ⟨fuel - 1, by omega⟩
    rw [probe_slot_zero hidx] at hstop ⊢
    exact find_or_create_loop_stop ht name f idx hstop
  | succ d ih =>
    intro idx fuel hidx hf hpath hstop
    obtain ⟨f, rfl⟩ : ∃ f, fuel = f + 1 := ⟨fuel - 1, by omega⟩
    have h0 := hpath 0 (by omega)
    rw [probe_slot_zero hidx] at h0
    rw [find_or_create_loop_step ht name f idx h0.1 h0.2]
    have hidx2 : (idx + 1) &&& (HASH_TABLE_SIZE - 1) < HASH_TABLE_SIZE := by
      rw [mask_eq_mod]; exact Nat.mod_lt _ (by decide)
    have := ih ((idx + 1) &&& (HASH_TABLE_SIZE - 1)) f hidx2 (by omega)
      (fun d2 hd2 => by rw [probe_slot_succ]; exact hpath (d2 + 1) (by omega))
      (by rw [probe_slot_succ]; exact hstop)
    rw [this, probe_slot_succ]

/-- With no slot on the whole cycle that is empty or holds `name`, the probing loop
uses up any fuel. -/
theorem find_or_create_loop_diverges (ht : HashTable) (name : List Nat)
    (h : ∀ i, i < HASH_TABLE_SIZE → occupied ht i ∧ (ht.stations i).name ≠ name) :
    ∀ (fuel idx : Nat), idx < HASH_TABLE_SIZE → find_or_create_loop ht name fuel idx = none := by
  intro fuel
  induction fuel with
  | zero => intro idx _; rfl
  | succ f ih =>
    intro idx hidx
    rw [find_or_create_loop_step ht name f idx (h idx hidx).1 (h idx hidx).2]
    apply ih
    rw [mask_eq_mod]; exact Nat.mod_lt _ (by decide)

/-! ### `find_or_create` on a table that satisfies the invariant -/

theorem occupied_iff_name (ht : HashTable) (i : Nat) :
    occupied ht i ↔ (ht.stations i).name ≠ [] := by
  unfold occupied Station.name_len
  rw [Ne, List.length_eq_zero]

theorem tableInv_zero : TableInv zero_table where
  distinct := fun i j _ _ ho _ => absurd rfl ho
  reach := fun i d _ ho _ _ _ _ => absurd rfl ho

/-- The invariant speaks about names only. -/
theorem tableInv_of_names {ht ht2 : HashTable} (h : TableInv ht)
    (hn : ∀ i, (ht2.stations i).name = (ht.stations i).name) : TableInv ht2 := by
  have ho : ∀ i, occupied ht2 i ↔ occupied ht i := fun i => by
    rw [occupied_iff_name, occupied_iff_name, hn]
  constructor
  · intro i j hi hj hoi e
    rw [hn, hn] at e
    exact h.distinct i j hi hj ((ho i).1 hoi) e
  · intro i d hi hoi hd e d2 hd2
    rw [hn] at e ⊢
    exact (ho _).2 (h.reach i d hi ((ho i).1 hoi) hd e d2 hd2)

/-- A present key is found in its slot, and the table is left as it is. -/
theorem find_or_create_present {ht : HashTable} (hinv : TableInv ht) {i : Nat}
    (hi : i < HASH_TABLE_SIZE) (ho : occupied ht i) (fuel : Nat) (hf : HASH_TABLE_SIZE ≤ fuel) :
    find_or_create fuel ht (ht.stations i).name = some (ht, i) := by
  obtain ⟨d, hd, hdi⟩ := probe_slot_surj (h := home (ht.stations i).name) hi
  have hpath : ∀ d2, d2 < d → occupied ht (probe_slot (home (ht.stations i).name) d2) ∧
      (ht.stations (probe_slot (home (ht.stations i).name) d2)).name ≠ (ht.stations i).name := by
    intro d2 hd2
    have h1 := hinv.reach i d hi ho hd hdi d2 hd2
    refine ⟨h1, fun e => ?_⟩
    have e2 := (hinv.distinct _ i (probe_slot_lt _ _) hi h1 e).trans hdi.symm
    have := probe_slot_inj (by omega) hd e2
    omega
  have := find_or_create_loop_run ht (ht.stations i).name d (home (ht.stations i).name) fuel
    (home_lt _) (by omega) hpath (by rw [hdi]; exact Or.inr rfl)
  unfold find_or_create
  rw [show hash_name (ht.stations i).name &&& (HASH_TABLE_SIZE - 1) = home (ht.stations i).name from rfl,
    this, hdi, if_pos ho]

/-- An absent key is created in an empty slot, and the invariant is kept. -/
theorem find_or_create_absent {ht : HashTable} (hinv : TableInv ht) {key : List Nat}
    (hkey : key ≠ [])
    (habs : ∀ i, i < HASH_TABLE_SIZE → occupied ht i → (ht.stations i).name ≠ key)
    (hroom : ∃ e, e < HASH_TABLE_SIZE ∧ ¬ occupied ht e) :
    ∃ j, j < HASH_TABLE_SIZE ∧ ¬ occupied ht j ∧
      TableInv { stations := Function.update ht.stations j (fresh_station key),
                 count := wrap32 (ht.count + 1) } ∧
      ∀ fuel, HASH_TABLE_SIZE ≤ fuel →
        find_or_create fuel ht key =
          some ({ stations := Function.update ht.stations j (fresh_station key),
                  count := wrap32 (ht.count + 1) }, j) := by
  classical
  obtain ⟨e, he, hoe⟩ := hroom
  obtain ⟨de, hde, hdee⟩ := probe_slot_surj (h := home key) he
  have hex : ∃ d, d < HASH_TABLE_SIZE ∧ ¬ occupied ht (probe_slot (home key) d) :=
    ⟨de, hde, by rw [hdee]; exact hoe⟩
  have hd0 := Nat.find_spec hex
  have hmin : ∀ d2, d2 < Nat.find hex → occupied ht (probe_slot (home key) d2) := by
    intro d2 hd2
    by_contra hc
    exact Nat.find_min hex hd2 ⟨by omega, hc⟩
  have hrun := fun fuel (hf : HASH_TABLE_SIZE ≤ fuel) =>
    find_or_create_loop_run ht key (Nat.find hex) (home key) fuel (home_lt _)
      (by omega) (fun d2 hd2 => ⟨hmin d2 hd2, habs _ (probe_slot_lt _ _) (hmin d2 hd2)⟩)
      (Or.inl hd0.2)
  have hjlt : probe_slot (home key) (Nat.find hex) < HASH_TABLE_SIZE := probe_slot_lt _ _
  have hinj : ∀ d, d < HASH_TABLE_SIZE →
      probe_slot (home key) d = probe_slot (home key) (Nat.find hex) → d = Nat.find hex :=
    fun d hd e => probe_slot_inj hd hd0.1 e
  have hd02 := hd0.2
  generalize probe_slot (home key) (Nat.find hex) = j at hrun hjlt hinj hd02
  refine ⟨j, hjlt, hd02, ?_, ?_⟩
  · have hocc : ∀ i, occupied ht i →
        occupied { stations := Function.update ht.stations j (fresh_station key),
                   count := wrap32 (ht.count + 1) } i := by
      intro i hi
      rw [occupied_iff_name] at hi ⊢
      by_cases hij : i = j
      · subst hij; simpa [fresh_station] using hkey
      · simpa [Function.update_noteq hij] using hi
    constructor
    · intro i i2 hi hi2 hoi e
      simp only at e
      rw [occupied_iff_name] at hoi
      simp only at hoi
      by_cases h1 : i = j
      · by_cases h2 : i2 = j
        · rw [h1, h2]
        · exfalso
          rw [h1, Function.update_same, Function.update_noteq h2] at e
          simp only [fresh_station] at e
          refine habs i2 hi2 ?_ e.symm
          rw [occupied_iff_name, ← e]; exact hkey
      · rw [Function.update_noteq h1] at e hoi
        by_cases h2 : i2 = j
        · exfalso
          rw [h2, Function.update_same] at e
          simp only [fresh_station] at e
          exact habs i hi ((occupied_iff_name _ _).2 hoi) e
        · rw [Function.update_noteq h2] at e
          exact hinv.distinct i i2 hi hi2 ((occupied_iff_name _ _).2 hoi) e
    · intro i d hi hoi hd e d2 hd2
      simp only at e ⊢
      by_cases h1 : i = j
      · rw [h1, Function.update_same] at e ⊢
        simp only [fresh_station] at e ⊢
        have := hinj d hd e
        exact hocc _ (hmin d2 (by omega))
      · rw [Function.update_noteq h1] at e ⊢
        rw [occupied_iff_name] at hoi
        simp only [Function.update_noteq h1] at hoi
        exact hocc _ (hinv.reach i d hi ((occupied_iff_name _ _).2 hoi) hd e d2 hd2)
  · intro fuel hf
    unfold find_or_create
    rw [show hash_name key &&& (HASH_TABLE_SIZE - 1) = home key from rfl, hrun fuel hf, if_neg hd02]

/-- Writing a station named `key` into slot `j` of a table that represents `m`
gives a table that represents `m` with `key` mapped to that station. -/
theorem represents_set_slot {ht ht2 : HashTable} {m : List Nat → Option Station}
    (hR : Represents ht m) {j : Nat} (hj : j < HASH_TABLE_SIZE) {s2 : Station} {key : List Nat}
    (hs2 : s2.name = key) (hkey : key ≠ [])
    (hC : ∀ i, i < HASH_TABLE_SIZE → i ≠ j → occupied ht i → (ht.stations i).name ≠ key)
    (hD : occupied ht j → (ht.stations j).name = key)
    (hst : ht2.stations = Function.update ht.stations j s2) (hinv2 : TableInv ht2) :
    Represents ht2 (Function.update m key (some s2)) := by
  have hoj : occupied ht2 j := by
    rw [occupied_iff_name, hst, Function.update_same, hs2]; exact hkey
  constructor
  · exact hinv2
  · intro k s hk
    by_cases hkk : k = key
    · subst hkk
      rw [Function.update_same] at hk
      cases hk; exact hs2
    · rw [Function.update_noteq hkk] at hk
      exact hR.named k s hk
  · intro s
    constructor
    · rintro ⟨i, hi, hoi, hsi⟩
      by_cases hij : i = j
      · subst hij
        rw [hst, Function.update_same] at hsi
        subst hsi
        rw [hs2, Function.update_same]
      · have hsi2 : ht.stations i = s := by
          rw [hst, Function.update_noteq hij] at hsi; exact hsi
        have hoi2 : occupied ht i := by
          rw [occupied_iff_name] at hoi ⊢
          rw [hst, Function.update_noteq hij] at hoi; exact hoi
        have hne : s.name ≠ key := by
          rw [← hsi2]; exact hC i hi hij hoi2
        rw [Function.update_noteq hne]
        exact (hR.entries s).1 ⟨i, hi, hoi2, hsi2⟩
    · intro hm
      by_cases hne : s.name = key
      · rw [hne, Function.update_same] at hm
        cases hm
        exact ⟨j, hj, hoj, by rw [hst, Function.update_same]⟩
      · rw [Function.update_noteq hne] at hm
        obtain ⟨i, hi, hoi, hsi⟩ := (hR.entries s).2 hm
        have hij : i ≠ j := by
          rintro rfl
          apply hne
          rw [← hsi]; exact hD hoi
        refine ⟨i, hi, ?_, by rw [hst, Function.update_noteq hij]; exact hsi⟩
        rw [occupied_iff_name] at hoi ⊢
        rw [hst, Function.update_noteq hij]; exact hoi

/-- The combined step of `process_chunk` and of `merge_tables`: `find_or_create`, then
an update `upd` of the returned station that keeps its name. -/
theorem find_update_represents {ht : HashTable} {m : List Nat → Option Station}
    (hR : Represents ht m) {key : List Nat} (hkey : key ≠ [])
    (hroom : m key ≠ none ∨ ∃ e, e < HASH_TABLE_SIZE ∧ ¬ occupied ht e)
    (upd : Station → Station) (hupd : ∀ s, (upd s).name = s.name) :
    ∃ ht1 idx, (∀ fuel, HASH_TABLE_SIZE ≤ fuel → find_or_create fuel ht key = some (ht1, idx)) ∧
      Represents { ht1 with stations := Function.update ht1.stations idx (upd (ht1.stations idx)) }
        (Function.update m key (some (upd ((m key).getD (fresh_station key))))) := by
  cases hm : m key with
  | some s =>
    have hname := hR.named key s hm
    obtain ⟨i, hi, hoi, hsi⟩ := (hR.entries s).2 (by rw [hname]; exact hm)
    refine ⟨ht, i, ?_, ?_⟩
    · intro fuel hf
      have := find_or_create_present hR.inv hi hoi fuel hf
      rwa [hsi, hname] at this
    · simp only [Option.getD_some]
      rw [hsi]
      refine represents_set_slot hR hi (by rw [hupd, hname]) hkey ?_ ?_ rfl ?_
      · intro i2 hi2 hne ho2 e
        apply hne
        exact hR.inv.distinct i2 i hi2 hi ho2 (by rw [e, hsi, hname])
      · intro _; rw [hsi, hname]
      · apply tableInv_of_names hR.inv
        intro i2
        simp only
        by_cases h : i2 = i
        · subst h; rw [Function.update_same, hupd, hsi]
        · rw [Function.update_noteq h]
  | none =>
    have habs : ∀ i, i < HASH_TABLE_SIZE → occupied ht i → (ht.stations i).name ≠ key := by
      intro i hi hoi e
      have := (hR.entries (ht.stations i)).1 ⟨i, hi, hoi, rfl⟩
      rw [e, hm] at this
      exact absurd this (by simp)
    have hroom2 : ∃ e, e < HASH_TABLE_SIZE ∧ ¬ occupied ht e := by
      rcases hroom with h | h
      · exact absurd hm h
      · exact h
    obtain ⟨j, hj, hoj, hinv1, hfind⟩ := find_or_create_absent hR.inv hkey habs hroom2
    refine ⟨_, j, hfind, ?_⟩
    simp only [Option.getD_none, Function.update_same]
    refine represents_set_slot hR hj (by rw [hupd]; rfl) hkey ?_ ?_ ?_ ?_
    · intro i hi _ hoi
      exact habs i hi hoi
    · intro h; exact absurd h hoj
    · simp only [Function.update_idem]
    · apply tableInv_of_names hinv1
      intro i2
      simp only
      by_cases h : i2 = j
      · subst h; simp only [Function.update_same, hupd]
      · simp only [Function.update_noteq h]

theorem represents_zero : Represents zero_table (fun _ => none) where
  inv := tableInv_zero
  named := fun k s h => by simp at h
  entries := fun s => by
    constructor
    · rintro ⟨i, _, ho, _⟩
      exact absurd rfl ho
    · intro h; simp at h

/-! ### `process_chunk` on well-formed lines -/

/-- A table whose names all come from a list with fewer distinct names than slots
has an empty slot. -/
theorem exists_empty_slot {ht : HashTable} (hinv : TableInv ht) (ks : List (List Nat))
    (hks : ∀ i, i < HASH_TABLE_SIZE → occupied ht i → (ht.stations i).name ∈ ks)
    (hcard : ks.dedup.length < HASH_TABLE_SIZE) :
    ∃ e, e < HASH_TABLE_SIZE ∧ ¬ occupied ht e := by
  by_contra hc
  push_neg at hc
  have hle : (Finset.range HASH_TABLE_SIZE).card ≤ ks.toFinset.card := by
    apply Finset.card_le_card_of_injOn (fun i => (ht.stations i).name)
    · intro i hi
      have hi2 : i < HASH_TABLE_SIZE := Finset.mem_range.1 hi
      simpa using hks i hi2 (hc i hi2)
    · intro i hi j hj e
      have hi2 : i < HASH_TABLE_SIZE := Finset.mem_range.1 hi
      have hj2 : j < HASH_TABLE_SIZE := Finset.mem_range.1 hj
      exact hinv.distinct i j hi2 hj2 (hc i hi2) e
  rw [Finset.card_range, List.card_toFinset] at hle
  omega

theorem represents_room {ht : HashTable} {m : List Nat → Option Station}
    (hR : Represents ht m) (ks : List (List Nat))
    (hks : ∀ k, m k ≠ none → k ∈ ks) (hcard : ks.dedup.length < HASH_TABLE_SIZE) :
    ∃ e, e < HASH_TABLE_SIZE ∧ ¬ occupied ht e := by
  apply exists_empty_slot hR.inv ks _ hcard
  intro i hi hoi
  apply hks
  have := (hR.entries (ht.stations i)).1 ⟨i, hi, hoi, rfl⟩
  rw [this]; simp

theorem scan_from_key (c : Nat) : ∀ (key rest : List Nat) (p : Nat), c ∉ key →
    scan_from c (key ++ c :: rest) p = some (p + key.length) := by
  intro key
  induction key with
  | nil => intro rest p _; simp [scan_from]
  | cons b key ih =>
    intro rest p h
    have hb : b ≠ c := fun e => h (by simp [e])
    have hk : c ∉ key := fun e => h (List.mem_cons_of_mem _ e)
    simp only [List.cons_append, scan_from, hb, ne_eq, not_false_eq_true, if_true]
    have e : key.append (c :: rest) = key ++ c :: rest := rfl
    rw [e, ih rest (p + 1) hk]
    simp only [List.length_cons]
    congr 1; omega

theorem scan_key (c : Nat) (pre key rest : List Nat) (h : c ∉ key) :
    scan (pre ++ (key ++ c :: rest)) c pre.length = some (pre.length + key.length) := by
  unfold scan
  rw [List.drop_left]
  exact scan_from_key c key rest _ h

theorem update_station_name (s : Station) (t : Int) : (update_station s t).name = s.name := by
  unfold update_station
  simp only
  split_ifs <;> rfl

theorem encode_cons (l : Line) (rest : List Line) :
    encode (l :: rest) = l.bytes ++ encode rest := by
  simp [encode]

theorem line_bytes_length (l : Line) :
    l.bytes.length = l.key.length + 1 + l.value.bytes.length + 1 := by
  simp [Line.bytes]; omega

theorem aggregate_dom (ks : List (List Nat)) (m : List Nat → Option Station) (l : Line)
    (hks : ∀ k, m k ≠ none → k ∈ ks) (hl : l.key ∈ ks) :
    ∀ k, aggregate_step m l k ≠ none → k ∈ ks := by
  intro k hk
  unfold aggregate_step at hk
  by_cases e : k = l.key
  · rw [e]; exact hl
  · rw [Function.update_noteq e] at hk
    exact hks k hk

/-- The loop of `process_chunk` on a run of well-formed lines: with enough fuel it
ends at the end of the run, with a table that represents the reference aggregation. -/
theorem process_chunk_loop_spec (ks : List (List Nat)) (hcard : ks.dedup.length < HASH_TABLE_SIZE)
    (post : List Nat) :
    ∀ (lines : List Line) (pre : List Nat) (ht : HashTable) (m : List Nat → Option Station)
      (fuel : Nat), (∀ l ∈ lines, l.wf) → (∀ l ∈ lines, l.key ∈ ks) →
      Represents ht m → (∀ k, m k ≠ none → k ∈ ks) →
      lines.length + HASH_TABLE_SIZE + 1 ≤ fuel →
      ∃ ht2, process_chunk_loop (pre ++ (encode lines ++ post)) (pre.length + (encode lines).length)
          fuel pre.length ht = some (ht2, pre.length + (encode lines).length) ∧
        Represents ht2 (aggregate m lines) := by
  intro lines
  induction lines with
  | nil =>
    intro pre ht m fuel _ _ hR _ hf
    obtain ⟨f, rfl⟩ : ∃ f, fuel = f + 1 := ⟨fuel - 1, by omega⟩
    refine ⟨ht, ?_, hR⟩
    simp [process_chunk_loop, encode]
  | cons l rest ih =>
    intro pre ht m fuel hwf hkeys hR hdom hf
    obtain ⟨f, rfl⟩ : ∃ f, fuel = f + 1 := ⟨fuel - 1, by omega⟩
    simp only [List.length_cons] at hf
    obtain ⟨hk1, hk2, hk3, hk4, hv⟩ := hwf l (List.mem_cons_self _ _)
    have hkey : l.key ≠ [] := by
      intro e; rw [e] at hk1; simp at hk1
    -- the shape of the buffer at this line
    have hdata : pre ++ (encode (l :: rest) ++ post)
        = pre ++ (l.key ++ 59 :: (l.value.bytes ++ 10 :: (encode rest ++ post))) := by
      simp [encode_cons, Line.bytes]
    have hdata2 : pre ++ (encode (l :: rest) ++ post)
        = (pre ++ l.key ++ [59]) ++ (l.value.bytes ++ 10 :: (encode rest ++ post)) := by
      simp [encode_cons, Line.bytes]
    have hdata3 : pre ++ (encode (l :: rest) ++ post)
        = (pre ++ l.bytes) ++ (encode rest ++ post) := by
      simp [encode_cons]
    have hscan : scan (pre ++ (encode (l :: rest) ++ post)) 59 pre.length
        = some (pre.length + l.key.length) := by
      rw [hdata]; exact scan_key 59 pre l.key _ hk3
    have hparse : parse_temp (pre ++ (encode (l :: rest) ++ post)) (pre.length + l.key.length + 1)
        = some (l.value.tenths, (pre ++ l.bytes).length) := by
      rw [hdata2]
      have := parse_temp_bytes l.value hv (pre ++ l.key ++ [59]) (encode rest ++ post)
      have e1 : (pre ++ l.key ++ [59]).length = pre.length + l.key.length + 1 := by
        simp only [List.length_append, List.length_singleton]
      have e2 : (pre ++ l.key ++ [59]).length + l.value.bytes.length + 1 = (pre ++ l.bytes).length := by
        simp [Line.bytes]; omega
      rw [e1] at this
      rw [this, ← e2, e1]
    have hname : ((pre ++ (encode (l :: rest) ++ post)).drop pre.length).take
        (pre.length + l.key.length - pre.length) = l.key := by
      rw [hdata, List.drop_left, Nat.add_sub_cancel_left, List.take_left]
    have hroom : m l.key ≠ none ∨ ∃ e, e < HASH_TABLE_SIZE ∧ ¬ occupied ht e :=
      Or.inr (represents_room hR ks hdom hcard)
    obtain ⟨ht1, idx, hfind, hR1⟩ := find_update_represents hR hkey hroom
      (fun s => update_station s l.value.tenths) (fun s => update_station_name s _)
    have hlt : pre.length < pre.length + (encode (l :: rest)).length := by
      rw [encode_cons, List.length_append, line_bytes_length]; omega
    have hend : pre.length + (encode (l :: rest)).length
        = (pre ++ l.bytes).length + (encode rest).length := by
      simp [encode_cons]; omega
    obtain ⟨ht2, hrun, hR2⟩ := ih (pre ++ l.bytes) _ _ f
      (fun x hx => hwf x (List.mem_cons_of_mem _ hx))
      (fun x hx => hkeys x (List.mem_cons_of_mem _ hx)) hR1
      (aggregate_dom ks m l hdom (hkeys l (List.mem_cons_self _ _))) (by omega)
    refine ⟨ht2, ?_, ?_⟩
    · rw [process_chunk_loop, if_pos hlt]
      simp only [hscan, Option.bind_eq_bind, Option.some_bind, hparse, hname,
        hfind f (by omega)]
      rw [hend, hdata3]
      exact hrun
    · exact hR2

/-! ### The reference aggregation, key by key -/

theorem wrap32_wrap32_add (a b : Int) : wrap32 (wrap32 a + b) = wrap32 (a + b) := by
  unfold wrap32; omega

theorem wrap64_wrap64_add (a b : Int) : wrap64 (wrap64 a + b) = wrap64 (a + b) := by
  unfold wrap64; omega

theorem wrap32_add_wrap32 (a b : Int) : wrap32 (a + wrap32 b) = wrap32 (a + b) := by
  unfold wrap32; omega

theorem wrap64_add_wrap64 (a b : Int) : wrap64 (a + wrap64 b) = wrap64 (a + b) := by
  unfold wrap64; omega

theorem wrap32_of_range {a : Int} (h1 : -2 ^ 31 ≤ a) (h2 : a < 2 ^ 31) : wrap32 a = a := by
  unfold wrap32; omega

theorem wrap64_of_range {a : Int} (h1 : -2 ^ 63 ≤ a) (h2 : a < 2 ^ 63) : wrap64 a = a := by
  unfold wrap64; omega

theorem update_station_eq (s : Station) (t : Int) :
    update_station s t =
      { name := s.name, sum := wrap64 (s.sum + t), count := wrap32 (s.count + 1),
        min := Min.min s.min t, max := Max.max s.max t } := by
  unfold update_station
  simp only
  by_cases h1 : t < s.min <;> by_cases h2 : t > s.max <;>
    simp [h1, h2, min_def, max_def] <;> omega

theorem wrap32_idem (a : Int) : wrap32 (wrap32 a) = wrap32 a := by
  unfold wrap32; omega

theorem wrap64_idem (a : Int) : wrap64 (wrap64 a) = wrap64 a := by
  unfold wrap64; omega

/-- Folding temperatures into a station whose sum and count are in range, in closed form. -/
theorem foldl_update_station (ts : List Int) : ∀ (s : Station),
    wrap64 s.sum = s.sum → wrap32 s.count = s.count →
    ts.foldl update_station s =
      { name := s.name, sum := wrap64 (s.sum + ts.sum),
        count := wrap32 (s.count + ts.length),
        min := ts.foldl Min.min s.min, max := ts.foldl Max.max s.max } := by
  induction ts with
  | nil =>
    intro s hs hc
    simp [hs, hc]
  | cons t ts ih =>
    intro s hs hc
    rw [List.foldl_cons, ih _ (by rw [update_station_eq]; exact wrap64_idem _)
      (by rw [update_station_eq]; exact wrap32_idem _), update_station_eq]
    simp only [List.sum_cons, List.length_cons, List.foldl_cons, Nat.cast_add, Nat.cast_one]
    rw [wrap64_wrap64_add, wrap32_wrap32_add]
    congr 2 <;> ring

theorem temps_of_cons (k : List Nat) (l : Line) (rest : List Line) :
    temps_of k (l :: rest) =
      if l.key = k then l.value.tenths :: temps_of k rest else temps_of k rest := by
  unfold temps_of
  by_cases h : l.key = k <;> simp [List.filter_cons, h]

/-- The reference aggregation at one key: the fold of the values of that key. -/
theorem aggregate_key (k : List Nat) : ∀ (lines : List Line) (m : List Nat → Option Station),
    aggregate m lines k =
      if temps_of k lines = [] then m k
      else some ((temps_of k lines).foldl update_station ((m k).getD (fresh_station k))) := by
  intro lines
  induction lines with
  | nil => intro m; simp [aggregate, temps_of]
  | cons l rest ih =>
    intro m
    have e : aggregate m (l :: rest) = aggregate (aggregate_step m l) rest := rfl
    rw [e, ih, temps_of_cons]
    by_cases h : l.key = k
    · subst h
      simp only [if_true, aggregate_step, Function.update_same, Option.getD_some,
        List.foldl_cons]
      by_cases h2 : temps_of l.key rest = []
      · simp [h2]
      · simp [h2]
    · have h2 : k ≠ l.key := fun e => h e.symm
      simp only [h, if_false, aggregate_step, Function.update_noteq h2]

theorem temps_of_eq_nil {k : List Nat} {lines : List Line} :
    temps_of k lines = [] ↔ k ∉ lines.map Line.key := by
  unfold temps_of
  simp only [List.map_eq_nil_iff, List.filter_eq_nil_iff, List.mem_map, decide_eq_true_eq]
  constructor
  · rintro h ⟨l, hl, e⟩; exact h l hl e
  · intro h l hl e; exact h ⟨l, hl, e⟩

theorem temps_of_bound {k : List Nat} {lines : List Line} (hwf : ∀ l ∈ lines, l.wf) :
    ∀ t ∈ temps_of k lines, -999 ≤ t ∧ t ≤ 999 := by
  intro t ht
  unfold temps_of at ht
  simp only [List.mem_map, List.mem_filter] at ht
  obtain ⟨l, ⟨hl, _⟩, rfl⟩ := ht
  exact tenths_bound _ (hwf l hl).2.2.2.2

theorem foldl_min_le (ts : List Int) : ∀ (a : Int), ts.foldl Min.min a ≤ a ∧
    ∀ t ∈ ts, ts.foldl Min.min a ≤ t := by
  induction ts with
  | nil => intro a; simp
  | cons t ts ih =>
    intro a
    obtain ⟨h1, h2⟩ := ih (Min.min a t)
    refine ⟨le_trans h1 (min_le_left _ _), ?_⟩
    intro x hx
    rcases List.mem_cons.1 hx with rfl | hx
    · exact le_trans h1 (min_le_right _ _)
    · exact h2 x hx

theorem foldl_min_mem (ts : List Int) : ∀ (a : Int),
    ts.foldl Min.min a = a ∨ ts.foldl Min.min a ∈ ts := by
  induction ts with
  | nil => intro a; simp
  | cons t ts ih =>
    intro a
    rcases ih (Min.min a t) with h | h
    · rw [List.foldl_cons, h]
      rcases min_choice a t with e | e
      · left; exact e
      · right; rw [e]; exact List.mem_cons_self _ _
    · right; exact List.mem_cons_of_mem _ h

theorem foldl_max_ge (ts : List Int) : ∀ (a : Int), a ≤ ts.foldl Max.max a ∧
    ∀ t ∈ ts, t ≤ ts.foldl Max.max a := by
  induction ts with
  | nil => intro a; simp
  | cons t ts ih =>
    intro a
    obtain ⟨h1, h2⟩ := ih (Max.max a t)
    refine ⟨le_trans (le_max_left _ _) h1, ?_⟩
    intro x hx
    rcases List.mem_cons.1 hx with rfl | hx
    · exact le_trans (le_max_right _ _) h1
    · exact h2 x hx

theorem foldl_max_mem (ts : List Int) : ∀ (a : Int),
    ts.foldl Max.max a = a ∨ ts.foldl Max.max a ∈ ts := by
  induction ts with
  | nil => intro a; simp
  | cons t ts ih =>
    intro a
    rcases ih (Max.max a t) with h | h
    · rw [List.foldl_cons, h]
      rcases max_choice a t with e | e
      · left; exact e
      · right; rw [e]; exact List.mem_cons_self _ _
    · right; exact List.mem_cons_of_mem _ h

/-- The minimum left by the fold from the sentinel 9999 is the least value. -/
theorem foldl_min_sentinel {ts : List Int} (hne : ts ≠ []) (hb : ∀ t ∈ ts, t ≤ 999) :
    ts.foldl Min.min 9999 ∈ ts ∧ ∀ t ∈ ts, ts.foldl Min.min 9999 ≤ t := by
  refine ⟨?_, (foldl_min_le ts 9999).2⟩
  rcases foldl_min_mem ts 9999 with h | h
  · exfalso
    obtain ⟨t, ht⟩ := List.exists_mem_of_ne_nil ts hne
    have := (foldl_min_le ts 9999).2 t ht
    have := hb t ht
    omega
  · exact h

/-- The maximum left by the fold from the sentinel -9999 is the greatest value. -/
theorem foldl_max_sentinel {ts : List Int} (hne : ts ≠ []) (hb : ∀ t ∈ ts, -999 ≤ t) :
    ts.foldl Max.max (-9999) ∈ ts ∧ ∀ t ∈ ts, t ≤ ts.foldl Max.max (-9999) := by
  refine ⟨?_, (foldl_max_ge ts (-9999)).2⟩
  rcases foldl_max_mem ts (-9999) with h | h
  · exfalso
    obtain ⟨t, ht⟩ := List.exists_mem_of_ne_nil ts hne
    have := (foldl_max_ge ts (-9999)).2 t ht
    have := hb t ht
    omega
  · exact h

/-- The entry of key `k` after aggregating `lines` from the empty map. -/
theorem aggregate_entry (k : List Nat) (lines : List Line) :
    aggregate (fun _ => none) lines k =
      if k ∈ lines.map Line.key then
        some { name := k, sum := wrap64 (temps_of k lines).sum,
               count := wrap32 (temps_of k lines).length,
               min := (temps_of k lines).foldl Min.min 9999,
               max := (temps_of k lines).foldl Max.max (-9999) }
      else none := by
  rw [aggregate_key]
  by_cases h : k ∈ lines.map Line.key
  · have h2 : temps_of k lines ≠ [] := fun e => temps_of_eq_nil.1 e h
    rw [if_neg h2, if_pos h, Option.getD_none, foldl_update_station _ _ rfl rfl]
    simp [fresh_station]
  · rw [if_pos (temps_of_eq_nil.2 h), if_neg h]

/-! ### C1: `process_chunk` -/

/-- On a range of well-formed lines with at most `MAX_STATIONS` distinct keys,
`process_chunk` ends at the range end with a table that represents the reference
aggregation, for every fuel from `lines.length + HASH_TABLE_SIZE + 1` on. -/
theorem process_chunk_represents (pre post : List Nat) (lines : List Line)
    (hwf : ∀ l ∈ lines, l.wf) (hcard : (lines.map Line.key).dedup.length ≤ MAX_STATIONS)
    (fuel : Nat) (hf : lines.length + HASH_TABLE_SIZE + 1 ≤ fuel) :
    ∃ ht, process_chunk fuel (pre ++ (encode lines ++ post)) pre.length
        (pre.length + (encode lines).length) = some (ht, pre.length + (encode lines).length) ∧
      Represents ht (aggregate (fun _ => none) lines) := by
  have hc : (lines.map Line.key).dedup.length < HASH_TABLE_SIZE :=
    lt_of_le_of_lt hcard (by decide)
  exact process_chunk_loop_spec (lines.map Line.key) hc post lines pre zero_table _ fuel hwf
    (fun l hl => List.mem_map_of_mem _ hl) represents_zero (fun k hk => absurd rfl hk) hf

theorem sum_bound (ts : List Int) (hb : ∀ t ∈ ts, -999 ≤ t ∧ t ≤ 999) :
    -999 * (ts.length : Int) ≤ ts.sum ∧ ts.sum ≤ 999 * (ts.length : Int) := by
  induction ts with
  | nil => simp
  | cons t ts ih =>
    have h1 := hb t (List.mem_cons_self _ _)
    have h2 := ih (fun x hx => hb x (List.mem_cons_of_mem _ hx))
    simp only [List.sum_cons, List.length_cons, Nat.cast_add, Nat.cast_one]
    constructor <;> linarith [h1.1, h1.2, h2.1, h2.2]

theorem temps_of_length_le (k : List Nat) (lines : List Line) :
    (temps_of k lines).length ≤ lines.length := by
  unfold temps_of
  rw [List.length_map]
  exact List.length_filter_le _ _

/-- What a table that represents a map holds, slot by slot. -/
theorem represents_slots {ht : HashTable} {m : List Nat → Option Station}
    (hR : Represents ht m) :
    (∀ i, i < HASH_TABLE_SIZE → occupied ht i → m (ht.stations i).name = some (ht.stations i)) ∧
    (∀ k s, m k = some s → ∃ i, i < HASH_TABLE_SIZE ∧ occupied ht i ∧ ht.stations i = s ∧
      ∀ j, j < HASH_TABLE_SIZE → occupied ht j → (ht.stations j).name = k → j = i) := by
  refine ⟨fun i hi ho => (hR.entries _).1 ⟨i, hi, ho, rfl⟩, ?_⟩
  intro k s hm
  have hn := hR.named k s hm
  obtain ⟨i, hi, ho, hs⟩ := (hR.entries s).2 (by rw [hn]; exact hm)
  refine ⟨i, hi, ho, hs, ?_⟩
  intro j hj hoj e
  exact hR.inv.distinct j i hj hi hoj (by rw [e, hs, hn])

/-- C1 (amended): on a byte range made only of well-formed lines, fewer than 2^31 of
them, with at most 10000 distinct keys, `process_chunk` ends with its position at the
range end and leaves a table whose occupied slots all hold keys of the range and
which has, for each key of the range, exactly one occupied slot with that key; the
count of that entry is the number of lines with the key, its sum is the sum of their
values in tenths, its min and max are the least and the greatest of those values. -/
theorem process_chunk_correct (pre post : List Nat) (lines : List Line)
    (hwf : ∀ l ∈ lines, l.wf) (hcard : (lines.map Line.key).dedup.length ≤ MAX_STATIONS)
    (hlen : lines.length < 2 ^ 31) :
    ∃ fuel ht, process_chunk fuel (pre ++ (encode lines ++ post)) pre.length
        (pre.length + (encode lines).length) = some (ht, pre.length + (encode lines).length) ∧
      (∀ i, i < HASH_TABLE_SIZE → occupied ht i → (ht.stations i).name ∈ lines.map Line.key) ∧
      (∀ k ∈ lines.map Line.key, ∃ i, i < HASH_TABLE_SIZE ∧ occupied ht i ∧
        (ht.stations i).name = k ∧
        (∀ j, j < HASH_TABLE_SIZE → occupied ht j → (ht.stations j).name = k → j = i) ∧
        (ht.stations i).count = ((temps_of k lines).length : Int) ∧
        (ht.stations i).sum = (temps_of k lines).sum ∧
        (ht.stations i).min ∈ temps_of k lines ∧
        (∀ t ∈ temps_of k lines, (ht.stations i).min ≤ t) ∧
        (ht.stations i).max ∈ temps_of k lines ∧
        (∀ t ∈ temps_of k lines, t ≤ (ht.stations i).max)) := by
  obtain ⟨ht, hrun, hR⟩ := process_chunk_represents pre post lines hwf hcard
    (lines.length + HASH_TABLE_SIZE + 1) (le_refl _)
  obtain ⟨hs1, hs2⟩ := represents_slots hR
  refine ⟨_, ht, hrun, ?_, ?_⟩
  · intro i hi ho
    have := hs1 i hi ho
    rw [aggregate_entry] at this
    by_contra hc
    rw [if_neg hc] at this
    exact absurd this (by simp)
  · intro k hk
    have hm := aggregate_entry k lines
    rw [if_pos hk] at hm
    obtain ⟨i, hi, ho, hs, huniq⟩ := hs2 k _ hm
    have hne : temps_of k lines ≠ [] := fun e => temps_of_eq_nil.1 e hk
    have hb := temps_of_bound (k := k) hwf
    have hl := temps_of_length_le k lines
    have hsum := sum_bound _ hb
    have hl2 : ((temps_of k lines).length : Int) < 2 ^ 31 := by
      have : (temps_of k lines).length < 2 ^ 31 := lt_of_le_of_lt hl hlen
      exact_mod_cast this
    have hl0 : (0 : Int) ≤ ((temps_of k lines).length : Int) := Int.natCast_nonneg _
    refine ⟨i, hi, ho, by rw [hs], huniq, ?_, ?_, ?_, ?_, ?_, ?_⟩
    · rw [hs]; exact wrap32_of_range (by omega) hl2
    · rw [hs]; exact wrap64_of_range (by omega) (by omega)
    · rw [hs]; exact (foldl_min_sentinel hne (fun t ht => (hb t ht).2)).1
    · rw [hs]; exact (foldl_min_sentinel hne (fun t ht => (hb t ht).2)).2
    · rw [hs]; exact (foldl_max_sentinel hne (fun t ht => (hb t ht).1)).1
    · rw [hs]; exact (foldl_max_sentinel hne (fun t ht => (hb t ht).1)).2

/-! ### Fuel -/

theorem find_or_create_loop_mono (ht : HashTable) (name : List Nat) :
    ∀ (fuel idx : Nat) (r : HashTable × Nat), find_or_create_loop ht name fuel idx = some r →
      find_or_create_loop ht name (fuel + 1) idx = some r := by
  intro fuel
  induction fuel with
  | zero => intro idx r h; simp [find_or_create_loop] at h
  | succ f ih =>
    intro idx r h
    rw [find_or_create_loop] at h ⊢
    split_ifs at h ⊢ with h1 h2
    · exact h
    · exact h
    · exact ih _ r h

theorem find_or_create_mono (ht : HashTable) (name : List Nat) (fuel : Nat)
    (r : HashTable × Nat) (h : find_or_create fuel ht name = some r) :
    find_or_create (fuel + 1) ht name = some r :=
  find_or_create_loop_mono ht name fuel _ r h

theorem process_chunk_loop_mono (data : List Nat) (end_ : Nat) :
    ∀ (fuel p : Nat) (ht : HashTable) (r : HashTable × Nat),
      process_chunk_loop data end_ fuel p ht = some r →
      process_chunk_loop data end_ (fuel + 1) p ht = some r := by
  intro fuel
  induction fuel with
  | zero => intro p ht r h; simp [process_chunk_loop] at h
  | succ f ih =>
    intro p ht r h
    rw [process_chunk_loop] at h ⊢
    by_cases hp : p < end_
    · rw [if_pos hp] at h ⊢
      cases hs : scan data 59 p with
      | none => rw [hs] at h; simp at h
      | some q =>
        rw [hs] at h
        simp only [Option.bind_eq_bind, Option.some_bind] at h ⊢
        cases hpt : parse_temp data (q + 1) with
        | none => rw [hpt] at h; simp at h
        | some x =>
          rw [hpt] at h
          simp only [Option.some_bind] at h ⊢
          cases hfc : find_or_create f ht ((data.drop p).take (q - p)) with
          | none => rw [hfc] at h; simp at h
          | some y =>
            rw [hfc] at h
            rw [find_or_create_mono _ _ _ _ hfc]
            simp only [Option.some_bind] at h ⊢
            exact ih _ _ r h
    · rw [if_neg hp] at h ⊢
      exact h

theorem process_chunk_mono (data : List Nat) (start end_ : Nat) (r : HashTable × Nat) :
    ∀ (fuel fuel2 : Nat), fuel ≤ fuel2 → process_chunk fuel data start end_ = some r →
      process_chunk fuel2 data start end_ = some r := by
  intro fuel fuel2 hle h
  induction fuel2 with
  | zero =>
    have : fuel = 0 := by omega
    rw [this] at h; exact h
  | succ f ih =>
    by_cases e : fuel = f + 1
    · rw [← e]; exact h
    · exact process_chunk_loop_mono _ _ _ _ _ r (ih (by omega))

/-- C1 on the three lines of the end-to-end example, as the whole buffer. -/
theorem process_chunk_correct_witness :
    (∀ l ∈ example_lines, l.wf) ∧ (example_lines.map Line.key).dedup.length ≤ MAX_STATIONS ∧
    example_lines.length < 2 ^ 31 ∧
    ∃ fuel ht, process_chunk fuel ([] ++ (encode example_lines ++ [])) ([] : List Nat).length
        (([] : List Nat).length + (encode example_lines).length)
          = some (ht, ([] : List Nat).length + (encode example_lines).length) ∧
      (∀ i, i < HASH_TABLE_SIZE → occupied ht i →
        (ht.stations i).name ∈ example_lines.map Line.key) ∧
      (∀ k ∈ example_lines.map Line.key, ∃ i, i < HASH_TABLE_SIZE ∧ occupied ht i ∧
        (ht.stations i).name = k ∧
        (∀ j, j < HASH_TABLE_SIZE → occupied ht j → (ht.stations j).name = k → j = i) ∧
        (ht.stations i).count = ((temps_of k example_lines).length : Int) ∧
        (ht.stations i).sum = (temps_of k example_lines).sum ∧
        (ht.stations i).min ∈ temps_of k example_lines ∧
        (∀ t ∈ temps_of k example_lines, (ht.stations i).min ≤ t) ∧
        (ht.stations i).max ∈ temps_of k example_lines ∧
        (∀ t ∈ temps_of k example_lines, t ≤ (ht.stations i).max)) :=
  ⟨by decide, by decide, by decide,
    process_chunk_correct [] [] example_lines (by decide) (by decide) (by decide)⟩

theorem temps_of_replicate (l : Line) (n : Nat) :
    temps_of l.key (List.replicate n l) = List.replicate n l.value.tenths := by
  induction n with
  | zero => rfl
  | succ n ih => rw [List.replicate_succ, temps_of_cons, if_pos rfl, ih, List.replicate_succ]

theorem keys_replicate_dedup (l : Line) (n : Nat) :
    ((List.replicate n l).map Line.key).dedup.length ≤ 1 := by
  rw [List.map_replicate, ← List.card_toFinset]
  by_cases h : n = 0
  · subst h; simp
  · rw [List.toFinset_replicate_of_ne_zero h]; simp

/-- The count that any run of `process_chunk` leaves for the key of a well-formed line
repeated `n` times (`n ≥ 1`) is `n` reduced to 32 bits. -/
theorem process_chunk_replicate_count (l : Line) (hl : l.wf) (n : Nat) (hn : 1 ≤ n)
    (fuel : Nat) (ht : HashTable) (e : Nat)
    (hrun : process_chunk fuel (encode (List.replicate n l)) 0
      (encode (List.replicate n l)).length = some (ht, e))
    (i : Nat) (hi : i < HASH_TABLE_SIZE) (ho : occupied ht i) (hname : (ht.stations i).name = l.key) :
    (ht.stations i).count = wrap32 n := by
  have hwf : ∀ x ∈ List.replicate n l, x.wf := by
    intro x hx
    rw [List.eq_of_mem_replicate hx]; exact hl
  have hcard : ((List.replicate n l).map Line.key).dedup.length ≤ MAX_STATIONS :=
    le_trans (keys_replicate_dedup l n) (by decide)
  obtain ⟨ht2, hrun2, hR⟩ := process_chunk_represents [] [] (List.replicate n l) hwf hcard
    (Nat.max fuel ((List.replicate n l).length + HASH_TABLE_SIZE + 1)) (Nat.le_max_right _ _)
  simp only [List.nil_append, List.append_nil, List.length_nil, Nat.zero_add] at hrun2
  have := process_chunk_mono _ _ _ _ fuel
    (Nat.max fuel ((List.replicate n l).length + HASH_TABLE_SIZE + 1)) (Nat.le_max_left _ _) hrun
  rw [this] at hrun2
  simp only [Option.some.injEq, Prod.mk.injEq] at hrun2
  obtain ⟨rfl, _⟩ := hrun2
  have hm := (represents_slots hR).1 i hi ho
  rw [aggregate_entry, hname] at hm
  have hk : l.key ∈ (List.replicate n l).map Line.key := by
    rw [List.map_replicate]
    exact List.mem_replicate.2 ⟨by omega, rfl⟩
  rw [if_pos hk] at hm
  simp only [Option.some.injEq] at hm
  rw [← hm, temps_of_replicate, List.length_replicate]

/-- C1 as stated fails on the buffer of 2^31 copies of the line `a;0.0`: no run of
`process_chunk` over it leaves an entry for `a` whose count is the number of lines. -/
theorem process_chunk_count_overflow :
    ¬ ∃ fuel ht, process_chunk fuel (encode (List.replicate 2147483648 zero_line)) 0
        (encode (List.replicate 2147483648 zero_line)).length
          = some (ht, (encode (List.replicate 2147483648 zero_line)).length) ∧
      ∃ i, i < HASH_TABLE_SIZE ∧ occupied ht i ∧ (ht.stations i).name = zero_line.key ∧
        (ht.stations i).count = 2147483648 := by
  rintro ⟨fuel, ht, hrun, i, hi, ho, hname, hcount⟩
  have := process_chunk_replicate_count zero_line (by decide) 2147483648 (by omega) fuel ht _
    hrun i hi ho hname
  rw [this] at hcount
  unfold wrap32 at hcount
  norm_num at hcount

/-! ### `merge_tables` -/

theorem combine_station_name (gs ls : Station) : (combine_station gs ls).name = gs.name := by
  unfold combine_station
  simp only
  split_ifs <;> rfl

theorem combine_station_eq (gs ls : Station) :
    combine_station gs ls =
      { name := gs.name, sum := wrap64 (gs.sum + ls.sum), count := wrap32 (gs.count + ls.count),
        min := Min.min gs.min ls.min, max := Max.max gs.max ls.max } := by
  unfold combine_station
  simp only
  by_cases h1 : ls.min < gs.min <;> by_cases h2 : ls.max > gs.max <;>
    simp [h1, h2, min_def, max_def] <;> omega

theorem mem_table_entries {ht : HashTable} {s : Station} :
    s ∈ table_entries ht ↔ HasEntry ht s := by
  unfold table_entries HasEntry
  simp only [List.mem_map, List.mem_filter, List.mem_range, decide_eq_true_eq]
  constructor
  · rintro ⟨i, ⟨hi, ho⟩, e⟩; exact ⟨i, hi, ho, e⟩
  · rintro ⟨i, hi, ho, e⟩; exact ⟨i, ⟨hi, ho⟩, e⟩

theorem entries_range (ht : HashTable) (i n : Nat) :
    ((List.range' i (n + 1)).filter (fun j => occupied ht j)).map ht.stations =
      (if occupied ht i then [ht.stations i] else []) ++
        ((List.range' (i + 1) n).filter (fun j => occupied ht j)).map ht.stations := by
  rw [List.range'_succ, List.filter_cons]
  by_cases h : occupied ht i <;> simp [h]

theorem merge_step_dom (ks : List (List Nat)) (m : List Nat → Option Station) (ls : Station)
    (hks : ∀ k, m k ≠ none → k ∈ ks) (hl : ls.name ∈ ks) :
    ∀ k, merge_step m ls k ≠ none → k ∈ ks := by
  intro k hk
  unfold merge_step at hk
  by_cases e : k = ls.name
  · rw [e]; exact hl
  · rw [Function.update_noteq e] at hk
    exact hks k hk

/-- The loop of `merge_tables`: with fuel for one full probing cycle it folds the
entries of the worker table, in slot order, into the global table. -/
theorem merge_tables_loop_spec (ks : List (List Nat)) (hcard : ks.dedup.length < HASH_TABLE_SIZE)
    (fuel : Nat) (hf : HASH_TABLE_SIZE ≤ fuel) (loc : HashTable) :
    ∀ (n i : Nat) (global : HashTable) (mg : List Nat → Option Station),
      (∀ j, i ≤ j → j < i + n → occupied loc j → (loc.stations j).name ∈ ks) →
      Represents global mg → (∀ k, mg k ≠ none → k ∈ ks) →
      ∃ g2, merge_tables_loop fuel loc n i global = some g2 ∧
        Represents g2
          ((((List.range' i n).filter (fun j => occupied loc j)).map loc.stations).foldl
            merge_step mg) ∧
        (∀ k, (((List.range' i n).filter (fun j => occupied loc j)).map loc.stations).foldl
            merge_step mg k ≠ none → k ∈ ks) := by
  intro n
  induction n with
  | zero =>
    intro i global mg _ hR hdom
    exact ⟨global, rfl, by simpa using hR, by simpa using hdom⟩
  | succ n ih =>
    intro i global mg hnames hR hdom
    rw [entries_range, merge_tables_loop]
    by_cases ho : occupied loc i
    · have ho2 : ¬ (loc.stations i).name_len = 0 := ho
      rw [if_neg ho2, if_pos ho]
      have hkey : (loc.stations i).name ≠ [] := (occupied_iff_name _ _).1 ho
      have hin := hnames i (le_refl _) (by omega) ho
      obtain ⟨g1, idx, hfind, hR1⟩ := find_update_represents hR hkey
        (Or.inr (represents_room hR ks hdom hcard))
        (fun s => combine_station s (loc.stations i)) (fun s => combine_station_name s _)
      obtain ⟨g2, hrun, hR2, hdom2⟩ := ih (i + 1) _ _
        (fun j hj hj2 => hnames j (by omega) (by omega)) hR1
        (merge_step_dom ks mg (loc.stations i) hdom hin)
      refine ⟨g2, ?_, ?_, ?_⟩
      · simp only [hfind fuel hf, Option.bind_eq_bind, Option.some_bind]
        exact hrun
      · simpa [merge_step] using hR2
      · simpa [merge_step] using hdom2
    · have ho2 : (loc.stations i).name_len = 0 := by
        unfold occupied at ho; simpa using ho
      rw [if_pos ho2, if_neg ho]
      obtain ⟨g2, hrun, hR2, hdom2⟩ := ih (i + 1) global mg
        (fun j hj hj2 => hnames j (by omega) (by omega)) hR hdom
      exact ⟨g2, hrun, by simpa using hR2, by simpa using hdom2⟩

theorem merge_tables_spec (ks : List (List Nat)) (hcard : ks.dedup.length < HASH_TABLE_SIZE)
    (fuel : Nat) (hf : HASH_TABLE_SIZE ≤ fuel) (loc global : HashTable)
    (mg : List Nat → Option Station)
    (hnames : ∀ s ∈ table_entries loc, s.name ∈ ks)
    (hR : Represents global mg) (hdom : ∀ k, mg k ≠ none → k ∈ ks) :
    ∃ g2, merge_tables fuel global loc = some g2 ∧
      Represents g2 ((table_entries loc).foldl merge_step mg) ∧
      (∀ k, (table_entries loc).foldl merge_step mg k ≠ none → k ∈ ks) := by
  have := merge_tables_loop_spec ks hcard fuel hf loc HASH_TABLE_SIZE 0 global mg
    (fun j _ hj ho => hnames _ (mem_table_entries.2 ⟨j, by omega, ho, rfl⟩)) hR hdom
  rw [← List.range_eq_range'] at this
  exact this

/-- The merge loop of `main`: it folds all worker entries, table by table, into the
global table. -/
theorem merge_all_spec (ks : List (List Nat)) (hcard : ks.dedup.length < HASH_TABLE_SIZE)
    (fuel : Nat) (hf : HASH_TABLE_SIZE ≤ fuel) :
    ∀ (ts : List HashTable) (global : HashTable) (mg : List Nat → Option Station),
      (∀ t ∈ ts, ∀ s ∈ table_entries t, s.name ∈ ks) →
      Represents global mg → (∀ k, mg k ≠ none → k ∈ ks) →
      ∃ g2, merge_all fuel ts global = some g2 ∧
        Represents g2 (((ts.map table_entries).flatten).foldl merge_step mg) := by
  intro ts
  induction ts with
  | nil =>
    intro global mg _ hR _
    exact ⟨global, rfl, by simpa using hR⟩
  | cons t ts ih =>
    intro global mg hnames hR hdom
    obtain ⟨g1, hrun1, hR1, hdom1⟩ := merge_tables_spec ks hcard fuel hf t global mg
      (hnames t (List.mem_cons_self _ _)) hR hdom
    obtain ⟨g2, hrun2, hR2⟩ := ih g1 _ (fun x hx => hnames x (List.mem_cons_of_mem _ hx)) hR1 hdom1
    refine ⟨g2, ?_, ?_⟩
    · simp only [merge_all, hrun1, Option.bind_eq_bind, Option.some_bind]
      exact hrun2
    · simpa [List.foldl_append] using hR2

/-- Merging any worker tables with at most `MAX_STATIONS` distinct names in total
into a zeroed table ends, with a table that represents the reference merge. -/
theorem merge_all_represents (ts : List HashTable)
    (hcard : (table_names ts).dedup.length ≤ MAX_STATIONS)
    (fuel : Nat) (hf : HASH_TABLE_SIZE ≤ fuel) :
    ∃ g, merge_all fuel ts zero_table = some g ∧ Represents g (merged ts) := by
  have hc : (table_names ts).dedup.length < HASH_TABLE_SIZE := lt_of_le_of_lt hcard (by decide)
  apply merge_all_spec (table_names ts) hc fuel hf ts zero_table _ _ represents_zero
    (fun k hk => absurd rfl hk)
  intro t ht s hs
  unfold table_names
  simp only [List.mem_map, List.mem_flatten]
  exact ⟨s, ⟨_, ⟨t, ht, rfl⟩, hs⟩, rfl⟩

/-! ### C5: the merge does not depend on the order of the worker tables -/

theorem combine_station_comm (s x y : Station) :
    combine_station (combine_station s x) y = combine_station (combine_station s y) x := by
  simp only [combine_station_eq, wrap64_wrap64_add, wrap32_wrap32_add]
  congr 1
  · congr 1; ring
  · congr 1; ring
  · rw [min_assoc, min_assoc, min_comm x.min]
  · rw [max_assoc, max_assoc, max_comm x.max]

theorem merge_step_comm (m : List Nat → Option Station) (x y : Station) :
    merge_step (merge_step m x) y = merge_step (merge_step m y) x := by
  unfold merge_step
  by_cases h : x.name = y.name
  · rw [h]
    simp only [Function.update_same, Option.getD_some, Function.update_idem]
    rw [combine_station_comm]
  · have h2 : y.name ≠ x.name := fun e => h e.symm
    rw [Function.update_noteq h2, Function.update_noteq h, Function.update_comm h]

theorem merged_perm {ts ts2 : List HashTable} (hp : ts2.Perm ts) : merged ts2 = merged ts := by
  unfold merged
  exact List.Perm.foldl_eq' ((hp.map table_entries).flatten)
    (fun x _ y _ z => merge_step_comm z x y) _

theorem names_bound_of_cover (ts : List HashTable) (ks : List (List Nat))
    (hks : ∀ t ∈ ts, ∀ i, i < HASH_TABLE_SIZE → occupied t i → (t.stations i).name ∈ ks)
    (hcard : ks.dedup.length ≤ MAX_STATIONS) :
    (table_names ts).dedup.length ≤ MAX_STATIONS := by
  refine le_trans ?_ hcard
  rw [← List.card_toFinset, ← List.card_toFinset]
  apply Finset.card_le_card
  intro k hk
  simp only [List.mem_toFinset, table_names, List.mem_map, List.mem_flatten] at hk ⊢
  obtain ⟨s, ⟨_, ⟨t, ht, rfl⟩, hs⟩, rfl⟩ := hk
  obtain ⟨i, hi, ho, rfl⟩ := mem_table_entries.1 hs
  exact hks t ht i hi ho

/-- C5: for every list of worker tables whose keys all lie in a list `ks` with at most
10000 distinct keys, and every permutation of the list, merging the permuted list
with `merge_tables` into a zeroed table and merging the original list both end
(whenever the fuel covers one probing cycle) and give global tables with the same set
of entries (name, sum, count, min, max). -/
theorem merge_all_perm (ts ts2 : List HashTable) (hp : ts2.Perm ts) (ks : List (List Nat))
    (hks : ∀ t ∈ ts, ∀ i, i < HASH_TABLE_SIZE → occupied t i → (t.stations i).name ∈ ks)
    (hcard : ks.dedup.length ≤ MAX_STATIONS) (fuel : Nat) (hf : HASH_TABLE_SIZE ≤ fuel) :
    ∃ g g2, merge_all fuel ts zero_table = some g ∧ merge_all fuel ts2 zero_table = some g2 ∧
      ∀ s, HasEntry g s ↔ HasEntry g2 s := by
  have hks2 : ∀ t ∈ ts2, ∀ i, i < HASH_TABLE_SIZE → occupied t i → (t.stations i).name ∈ ks :=
    fun t ht => hks t (hp.mem_iff.1 ht)
  obtain ⟨g, hrun, hR⟩ := merge_all_represents ts (names_bound_of_cover ts ks hks hcard) fuel hf
  obtain ⟨g2, hrun2, hR2⟩ := merge_all_represents ts2 (names_bound_of_cover ts2 ks hks2 hcard) fuel hf
  refine ⟨g, g2, hrun, hrun2, fun s => ?_⟩
  rw [hR.entries, hR2.entries, merged_perm hp]

/-! ### The reference merge, key by key -/

theorem filter_eq_find_toList {α : Type} (p : α → Bool) : ∀ (l : List α),
    l.Pairwise (fun a b => ¬ (p a = true ∧ p b = true)) → l.filter p = (l.find? p).toList := by
  intro l
  induction l with
  | nil => intro _; rfl
  | cons a l ih =>
    intro h
    rw [List.pairwise_cons] at h
    by_cases ha : p a = true
    · rw [List.filter_cons_of_pos ha, List.find?_cons_of_pos _ ha]
      have : l.filter p = [] := by
        rw [List.filter_eq_nil_iff]
        intro b hb hpb
        exact h.1 b hb ⟨ha, hpb⟩
      rw [this]; rfl
    · rw [List.filter_cons_of_neg ha, List.find?_cons_of_neg _ ha]
      exact ih h.2

theorem table_entries_pairwise {ht : HashTable} (hinv : TableInv ht) :
    (table_entries ht).Pairwise (fun a b => a.name ≠ b.name) := by
  unfold table_entries
  rw [List.pairwise_map]
  have hnd : ((List.range HASH_TABLE_SIZE).filter (fun i => occupied ht i)).Pairwise (· ≠ ·) :=
    (List.nodup_range _).filter _
  refine List.Pairwise.imp_of_mem ?_ hnd
  intro i j hi hj hne e
  simp only [List.mem_filter, List.mem_range, decide_eq_true_eq] at hi hj
  exact hne (hinv.distinct i j hi.1 hj.1 hi.2 e)

theorem filter_name_eq {ht : HashTable} (hinv : TableInv ht) (k : List Nat) :
    (table_entries ht).filter (fun s => s.name = k) = (entry_of ht k).toList := by
  unfold entry_of
  apply filter_eq_find_toList
  refine List.Pairwise.imp ?_ (table_entries_pairwise hinv)
  intro a b hne h
  simp only [decide_eq_true_eq] at h
  exact hne (h.1.trans h.2.symm)

theorem entry_of_represents {ht : HashTable} {m : List Nat → Option Station}
    (hR : Represents ht m) {k : List Nat} (hk : k ≠ []) : entry_of ht k = m k := by
  cases hm : m k with
  | some s =>
    have hn := hR.named k s hm
    have hmem : s ∈ (table_entries ht).filter (fun s => s.name = k) := by
      rw [List.mem_filter, mem_table_entries, hR.entries, hn]
      exact ⟨hm, by simp [hn]⟩
    rw [filter_name_eq hR.inv] at hmem
    cases he : entry_of ht k with
    | none => rw [he] at hmem; simp at hmem
    | some s2 => rw [he] at hmem; simp at hmem; rw [hmem]
  | none =>
    unfold entry_of
    rw [List.find?_eq_none]
    intro s hs hname
    simp only [decide_eq_true_eq] at hname
    have := (hR.entries s).1 (mem_table_entries.1 hs)
    rw [hname, hm] at this
    exact absurd this (by simp)

/-- The reference merge at one key: the fold of the worker entries of that key. -/
theorem merge_key (k : List Nat) : ∀ (sts : List Station) (m : List Nat → Option Station),
    sts.foldl merge_step m k =
      if sts.filter (fun s => s.name = k) = [] then m k
      else some ((sts.filter (fun s => s.name = k)).foldl combine_station
        ((m k).getD (fresh_station k))) := by
  intro sts
  induction sts with
  | nil => intro m; simp
  | cons x rest ih =>
    intro m
    have e : (x :: rest).filter (fun s => s.name = k) =
        if x.name = k then x :: rest.filter (fun s => s.name = k)
        else rest.filter (fun s => s.name = k) := by
      by_cases h : x.name = k <;> simp [List.filter_cons, h]
    rw [List.foldl_cons, ih, e]
    by_cases h : x.name = k
    · rw [if_pos h]
      subst h
      simp only [merge_step, Function.update_same, Option.getD_some, List.foldl_cons]
      by_cases h2 : rest.filter (fun s => s.name = x.name) = []
      · simp [h2]
      · simp [h2]
    · have h2 : k ≠ x.name := fun e => h e.symm
      rw [if_neg h]
      simp only [merge_step, Function.update_noteq h2]

/-- Folding worker entries into a station whose sum and count are in range, in closed form. -/
theorem foldl_combine_station (sts : List Station) : ∀ (s : Station),
    wrap64 s.sum = s.sum → wrap32 s.count = s.count →
    sts.foldl combine_station s =
      { name := s.name, sum := wrap64 (s.sum + (sts.map Station.sum).sum),
        count := wrap32 (s.count + (sts.map Station.count).sum),
        min := (sts.map Station.min).foldl Min.min s.min,
        max := (sts.map Station.max).foldl Max.max s.max } := by
  induction sts with
  | nil =>
    intro s hs hc
    simp [hs, hc]
  | cons x sts ih =>
    intro s hs hc
    rw [List.foldl_cons, ih _ (by rw [combine_station_eq]; exact wrap64_idem _)
      (by rw [combine_station_eq]; exact wrap32_idem _), combine_station_eq]
    simp only [List.map_cons, List.sum_cons, List.foldl_cons]
    rw [wrap64_wrap64_add, wrap32_wrap32_add]
    congr 2 <;> ring

theorem flatten_toList_eq_filterMap {α β : Type} (f : α → Option β) (l : List α) :
    (l.map (fun a => (f a).toList)).flatten = l.filterMap f := by
  induction l with
  | nil => rfl
  | cons a l ih =>
    rw [List.map_cons, List.flatten_cons, ih, List.filterMap_cons]
    cases f a <;> rfl

/-- The entries of key `k` over all worker tables are the workers' entries for `k`. -/
theorem filter_entries_eq_worker_entries (ts : List HashTable) (hinv : ∀ t ∈ ts, TableInv t)
    (k : List Nat) :
    ((ts.map table_entries).flatten).filter (fun s => s.name = k) = worker_entries ts k := by
  induction ts with
  | nil => rfl
  | cons t ts ih =>
    have ih2 := ih (fun x hx => hinv x (List.mem_cons_of_mem _ hx))
    rw [List.map_cons, List.flatten_cons, List.filter_append, ih2,
      filter_name_eq (hinv t (List.mem_cons_self _ _))]
    unfold worker_entries
    rw [List.filterMap_cons]
    cases entry_of t k <;> rfl

/-- The entry of key `k` in the reference merge of tables that satisfy the invariant. -/
theorem merged_entry (ts : List HashTable) (hinv : ∀ t ∈ ts, TableInv t) (k : List Nat) :
    merged ts k =
      if worker_entries ts k = [] then none
      else some { name := k, sum := wrap64 ((worker_entries ts k).map Station.sum).sum,
                  count := wrap32 ((worker_entries ts k).map Station.count).sum,
                  min := ((worker_entries ts k).map Station.min).foldl Min.min 9999,
                  max := ((worker_entries ts k).map Station.max).foldl Max.max (-9999) } := by
  unfold merged
  rw [merge_key, filter_entries_eq_worker_entries ts hinv]
  by_cases h : worker_entries ts k = []
  · rw [if_pos h, if_pos h]
  · rw [if_neg h, if_neg h, Option.getD_none, foldl_combine_station _ _ rfl rfl]
    simp [fresh_station]

/-! ### C4: merging tables produced by `process_chunk` -/

/-- Any run of `process_chunk` that ends on a range of well-formed lines leaves a table
that represents the reference aggregation of the lines. -/
theorem process_chunk_any_fuel {pre post : List Nat} {lines : List Line}
    (hwf : ∀ l ∈ lines, l.wf) (hcard : (lines.map Line.key).dedup.length ≤ MAX_STATIONS)
    {fuel : Nat} {t : HashTable} {e : Nat}
    (hrun : process_chunk fuel (pre ++ (encode lines ++ post)) pre.length
      (pre.length + (encode lines).length) = some (t, e)) :
    Represents t (aggregate (fun _ => none) lines) := by
  obtain ⟨ht2, hrun2, hR⟩ := process_chunk_represents pre post lines hwf hcard
    (Nat.max fuel (lines.length + HASH_TABLE_SIZE + 1)) (Nat.le_max_right _ _)
  have := process_chunk_mono _ _ _ _ fuel
    (Nat.max fuel (lines.length + HASH_TABLE_SIZE + 1)) (Nat.le_max_left _ _) hrun
  rw [this] at hrun2
  simp only [Option.some.injEq, Prod.mk.injEq] at hrun2
  obtain ⟨rfl, _⟩ := hrun2
  exact hR

theorem dedup_length_mono {ks ks2 : List (List Nat)} (h : ∀ k ∈ ks, k ∈ ks2) :
    ks.dedup.length ≤ ks2.dedup.length := by
  rw [← List.card_toFinset, ← List.card_toFinset]
  apply Finset.card_le_card
  intro k hk
  simp only [List.mem_toFinset] at hk ⊢
  exact h k hk

theorem temps_of_append (k : List Nat) (a b : List Line) :
    temps_of k (a ++ b) = temps_of k a ++ temps_of k b := by
  unfold temps_of
  rw [List.filter_append, List.map_append]

theorem worker_entries_eq (k : List Nat) (hk : k ≠ []) :
    ∀ (chunks : List (List Line)) (ts : List HashTable),
      List.Forall₂ (fun lines t => Represents t (aggregate (fun _ => none) lines)) chunks ts →
      worker_entries ts k = chunks.filterMap (fun c => aggregate (fun _ => none) c k) := by
  intro chunks ts h
  induction h with
  | nil => rfl
  | cons hR _ ih =>
    unfold worker_entries at ih ⊢
    rw [List.filterMap_cons, List.filterMap_cons, entry_of_represents hR hk, ih]

/-- The entry of a key in the aggregation of fewer than 2^31 well-formed lines. -/
theorem aggregate_entry_cases (k : List Nat) (c : List Line) (hwfc : ∀ l ∈ c, l.wf)
    (hlen : c.length < 2 ^ 31) :
    (aggregate (fun _ => none) c k = none ∧ temps_of k c = []) ∨
    ∃ s, aggregate (fun _ => none) c k = some s ∧
      s.count = ((temps_of k c).length : Int) ∧ s.sum = (temps_of k c).sum ∧
      -999 ≤ s.min ∧ s.min ≤ 999 ∧ -999 ≤ s.max ∧ s.max ≤ 999 := by
  rw [aggregate_entry]
  by_cases hk : k ∈ c.map Line.key
  · right
    have hne : temps_of k c ≠ [] := fun e => temps_of_eq_nil.1 e hk
    have hb := temps_of_bound (k := k) hwfc
    have hl := temps_of_length_le k c
    have hsum := sum_bound _ hb
    have hl2 : ((temps_of k c).length : Int) < 2 ^ 31 := by
      have : (temps_of k c).length < 2 ^ 31 := lt_of_le_of_lt hl hlen
      exact_mod_cast this
    have hl0 : (0 : Int) ≤ ((temps_of k c).length : Int) := Int.natCast_nonneg _
    have hmin := foldl_min_sentinel hne (fun t ht => (hb t ht).2)
    have hmax := foldl_max_sentinel hne (fun t ht => (hb t ht).1)
    rw [if_pos hk]
    exact ⟨_, rfl, wrap32_of_range (by omega) hl2, wrap64_of_range (by omega) (by omega),
      (hb _ hmin.1).1, (hb _ hmin.1).2, (hb _ hmax.1).1, (hb _ hmax.1).2⟩
  · left
    rw [if_neg hk]
    exact ⟨rfl, temps_of_eq_nil.2 hk⟩

/-- The worker entries of a key, summed up over the chunks. -/
theorem chunk_entries_totals (k : List Nat) : ∀ (chunks : List (List Line)),
    (∀ l ∈ chunks.flatten, l.wf) → chunks.flatten.length < 2 ^ 31 →
    ((chunks.filterMap (fun c => aggregate (fun _ => none) c k)).map Station.count).sum
        = ((temps_of k chunks.flatten).length : Int) ∧
    ((chunks.filterMap (fun c => aggregate (fun _ => none) c k)).map Station.sum).sum
        = (temps_of k chunks.flatten).sum ∧
    (∀ s ∈ chunks.filterMap (fun c => aggregate (fun _ => none) c k),
        -999 ≤ s.min ∧ s.min ≤ 999 ∧ -999 ≤ s.max ∧ s.max ≤ 999) := by
  intro chunks
  induction chunks with
  | nil => intro _ _; exact ⟨rfl, rfl, fun s hs => absurd hs (List.not_mem_nil _)⟩
  | cons c chunks ih =>
    intro hwf hlen
    rw [List.flatten_cons] at hwf hlen
    rw [List.length_append] at hlen
    have hwfc : ∀ l ∈ c, l.wf := fun l hl => hwf l (List.mem_append_left _ hl)
    have hlc : c.length < 2 ^ 31 := lt_of_le_of_lt (Nat.le_add_right _ _) hlen
    have hlr : chunks.flatten.length < 2 ^ 31 := lt_of_le_of_lt (Nat.le_add_left _ _) hlen
    obtain ⟨ih1, ih2, ih3⟩ := ih (fun l hl => hwf l (List.mem_append_right _ hl)) hlr
    rw [List.flatten_cons, temps_of_append, List.filterMap_cons]
    rcases aggregate_entry_cases k c hwfc hlc with ⟨hagg, he⟩ | ⟨s, hagg, hc, hs, hb⟩
    · rw [hagg, he, List.nil_append]
      exact ⟨ih1, ih2, ih3⟩
    · rw [hagg]
      refine ⟨?_, ?_, ?_⟩
      · rw [List.map_cons, List.sum_cons, ih1, hc, List.length_append, Nat.cast_add]
      · rw [List.map_cons, List.sum_cons, ih2, hs, List.sum_append]
      · intro x hx
        rcases List.mem_cons.1 hx with rfl | hx
        · exact hb
        · exact ih3 x hx

/-- C4 (amended): for worker tables produced by `process_chunk` from chunks of
well-formed lines, with at most 10000 distinct keys and fewer than 2^31 lines in
total, folding them with `merge_tables` into a zeroed global table ends with a table
whose occupied keys are exactly the keys of the worker tables, each in exactly one
slot, where the entry of a key has sum and count equal to the sums of that key's
per-worker sums and counts, its min is the least per-worker min and its max the
greatest per-worker max. -/
theorem merge_all_correct (chunks : List (List Line)) (ts : List HashTable)
    (hts : List.Forall₂ (fun lines t => ∃ fuel pre post,
      process_chunk fuel (pre ++ (encode lines ++ post)) pre.length
        (pre.length + (encode lines).length) = some (t, pre.length + (encode lines).length))
      chunks ts)
    (hwf : ∀ l ∈ chunks.flatten, l.wf)
    (hcard : (chunks.flatten.map Line.key).dedup.length ≤ MAX_STATIONS)
    (hlen : chunks.flatten.length < 2 ^ 31) :
    ∃ fuel g, merge_all fuel ts zero_table = some g ∧
      (∀ i, i < HASH_TABLE_SIZE → occupied g i →
        ∃ t ∈ ts, ∃ j, j < HASH_TABLE_SIZE ∧ occupied t j ∧
          (t.stations j).name = (g.stations i).name) ∧
      (∀ t ∈ ts, ∀ j, j < HASH_TABLE_SIZE → occupied t j →
        ∃ i, i < HASH_TABLE_SIZE ∧ occupied g i ∧ (g.stations i).name = (t.stations j).name ∧
          (∀ i2, i2 < HASH_TABLE_SIZE → occupied g i2 →
            (g.stations i2).name = (t.stations j).name → i2 = i) ∧
          (g.stations i).sum = ((worker_entries ts (t.stations j).name).map Station.sum).sum ∧
          (g.stations i).count = ((worker_entries ts (t.stations j).name).map Station.count).sum ∧
          (g.stations i).min ∈ (worker_entries ts (t.stations j).name).map Station.min ∧
          (∀ x ∈ (worker_entries ts (t.stations j).name).map Station.min, (g.stations i).min ≤ x) ∧
          (g.stations i).max ∈ (worker_entries ts (t.stations j).name).map Station.max ∧
          (∀ x ∈ (worker_entries ts (t.stations j).name).map Station.max,
            x ≤ (g.stations i).max)) := by
  -- every worker table represents the aggregation of its chunk
  have hrep : List.Forall₂ (fun lines t => Represents t (aggregate (fun _ => none) lines))
      chunks ts := by
    have hmem : ∀ c ∈ chunks, ∀ l ∈ c, l ∈ chunks.flatten :=
      fun c hc l hl => List.mem_flatten.2 ⟨c, hc, hl⟩
    clear hlen
    induction hts with
    | nil => exact List.Forall₂.nil
    | @cons c t cs ts2 h _ ih =>
      obtain ⟨fuel, pre, post, hrun⟩ := h
      have hwfc : ∀ l ∈ c, l.wf := fun l hl => hwf l (hmem c (List.mem_cons_self _ _) l hl)
      have hcc : (c.map Line.key).dedup.length ≤ MAX_STATIONS := by
        refine le_trans (dedup_length_mono ?_) hcard
        intro k hk
        obtain ⟨l, hl, rfl⟩ := List.mem_map.1 hk
        exact List.mem_map_of_mem _ (hmem c (List.mem_cons_self _ _) l hl)
      refine List.Forall₂.cons (process_chunk_any_fuel hwfc hcc hrun) (ih ?_ ?_ ?_)
      · intro l hl
        apply hwf
        rw [List.flatten_cons]; exact List.mem_append_right _ hl
      · refine le_trans (dedup_length_mono ?_) hcard
        intro k hk
        obtain ⟨l, hl, rfl⟩ := List.mem_map.1 hk
        apply List.mem_map_of_mem
        rw [List.flatten_cons]; exact List.mem_append_right _ hl
      · intro c2 hc2 l hl
        exact List.mem_flatten.2 ⟨c2, hc2, hl⟩
  have hreps : ∀ t ∈ ts, ∃ c ∈ chunks, Represents t (aggregate (fun _ => none) c) := by
    clear hts hwf hcard hlen
    induction hrep with
    | nil => intro t ht; simp at ht
    | @cons c t cs ts2 h _ ih =>
      intro t2 ht2
      rcases List.mem_cons.1 ht2 with rfl | ht2
      · exact ⟨c, List.mem_cons_self _ _, h⟩
      · obtain ⟨c2, hc2, h2⟩ := ih t2 ht2
        exact ⟨c2, List.mem_cons_of_mem _ hc2, h2⟩
  have hinv : ∀ t ∈ ts, TableInv t := fun t ht => by
    obtain ⟨c, _, hR⟩ := hreps t ht
    exact hR.inv
  -- the keys of all worker tables are keys of the input
  have hks : ∀ t ∈ ts, ∀ i, i < HASH_TABLE_SIZE → occupied t i →
      (t.stations i).name ∈ chunks.flatten.map Line.key := by
    intro t ht i hi ho
    obtain ⟨c, hc, hR⟩ := hreps t ht
    have := (represents_slots hR).1 i hi ho
    rw [aggregate_entry] at this
    by_cases hk : (t.stations i).name ∈ c.map Line.key
    · obtain ⟨l, hl, e⟩ := List.mem_map.1 hk
      rw [← e]
      exact List.mem_map_of_mem _ (List.mem_flatten.2 ⟨c, hc, hl⟩)
    · rw [if_neg hk] at this
      exact absurd this (by simp)
  obtain ⟨g, hrun, hR⟩ := merge_all_represents ts
    (names_bound_of_cover ts _ hks hcard) HASH_TABLE_SIZE (le_refl _)
  obtain ⟨hs1, hs2⟩ := represents_slots hR
  refine ⟨_, g, hrun, ?_, ?_⟩
  · intro i hi ho
    have hm := hs1 i hi ho
    rw [merged_entry ts hinv] at hm
    by_cases hne : worker_entries ts (g.stations i).name = []
    · rw [if_pos hne] at hm
      exact absurd hm (by simp)
    · obtain ⟨s, hs⟩ := List.exists_mem_of_ne_nil _ hne
      unfold worker_entries at hs
      obtain ⟨t, ht, he⟩ := List.mem_filterMap.1 hs
      have hmem := List.mem_of_find?_eq_some he
      have hname := List.find?_some he
      simp only [decide_eq_true_eq] at hname
      obtain ⟨j, hj, hoj, hsj⟩ := mem_table_entries.1 hmem
      exact ⟨t, ht, j, hj, hoj, by rw [hsj, hname]⟩
  · intro t ht j hj hoj
    have hkey : (t.stations j).name ≠ [] := (occupied_iff_name _ _).1 hoj
    obtain ⟨c, hc, hRt⟩ := hreps t ht
    have het : entry_of t (t.stations j).name = some (t.stations j) := by
      rw [entry_of_represents hRt hkey]
      exact (represents_slots hRt).1 j hj hoj
    have hne : worker_entries ts (t.stations j).name ≠ [] := by
      intro e
      have : t.stations j ∈ worker_entries ts (t.stations j).name :=
        List.mem_filterMap.2 ⟨t, ht, het⟩
      rw [e] at this
      simp at this
    have hm := merged_entry ts hinv (t.stations j).name
    rw [if_neg hne] at hm
    obtain ⟨i, hi, ho, hs, huniq⟩ := hs2 _ _ hm
    have hwe := worker_entries_eq _ hkey chunks ts hrep
    obtain ⟨hcount, hsum, hbnd⟩ := chunk_entries_totals (t.stations j).name chunks hwf hlen
    rw [← hwe] at hcount hsum hbnd
    have hb := temps_of_bound (k := (t.stations j).name) hwf
    have hl := temps_of_length_le (t.stations j).name chunks.flatten
    have hsb := sum_bound _ hb
    have hl2 : ((temps_of (t.stations j).name chunks.flatten).length : Int) < 2 ^ 31 := by
      have : (temps_of (t.stations j).name chunks.flatten).length < 2 ^ 31 := by omega
      exact_mod_cast this
    have hl0 : (0 : Int) ≤ ((temps_of (t.stations j).name chunks.flatten).length : Int) :=
      Int.natCast_nonneg _
    have hmne : (worker_entries ts (t.stations j).name).map Station.min ≠ [] := by
      simpa using hne
    have hxne : (worker_entries ts (t.stations j).name).map Station.max ≠ [] := by
      simpa using hne
    have hmin := foldl_min_sentinel hmne (by
      intro x hx
      obtain ⟨s, hs, rfl⟩ := List.mem_map.1 hx
      exact (hbnd s hs).2.1)
    have hmax := foldl_max_sentinel hxne (by
      intro x hx
      obtain ⟨s, hs, rfl⟩ := List.mem_map.1 hx
      exact (hbnd s hs).2.2.1)
    refine ⟨i, hi, ho, by rw [hs], ?_, ?_, ?_, ?_, ?_, ?_, ?_⟩
    · intro i2 hi2 ho2 e
      exact huniq i2 hi2 ho2 e
    · rw [hs]
      simp only
      rw [hsum]
      exact wrap64_of_range (by omega) (by omega)
    · rw [hs]
      simp only
      rw [hcount]
      exact wrap32_of_range (by omega) hl2
    · rw [hs]; exact hmin.1
    · rw [hs]; exact hmin.2
    · rw [hs]; exact hmax.1
    · rw [hs]; exact hmax.2

theorem find_or_create_mono_le (ht : HashTable) (name : List Nat) (r : HashTable × Nat) :
    ∀ (fuel fuel2 : Nat), fuel ≤ fuel2 → find_or_create fuel ht name = some r →
      find_or_create fuel2 ht name = some r := by
  intro fuel fuel2 hle h
  induction fuel2 with
  | zero =>
    have : fuel = 0 := by omega
    rw [this] at h; exact h
  | succ f ih =>
    by_cases e : fuel = f + 1
    · rw [← e]; exact h
    · exact find_or_create_mono _ _ _ r (ih (by omega))

theorem merge_tables_loop_mono (loc : HashTable) (fuel fuel2 : Nat) (hle : fuel ≤ fuel2) :
    ∀ (n i : Nat) (global r : HashTable), merge_tables_loop fuel loc n i global = some r →
      merge_tables_loop fuel2 loc n i global = some r := by
  intro n
  induction n with
  | zero => intro i global r h; exact h
  | succ n ih =>
    intro i global r h
    rw [merge_tables_loop] at h ⊢
    simp only at h ⊢
    by_cases ho : (loc.stations i).name_len = 0
    · rw [if_pos ho] at h ⊢
      exact ih _ _ r h
    · rw [if_neg ho] at h ⊢
      cases hfc : find_or_create fuel global (loc.stations i).name with
      | none => rw [hfc] at h; simp at h
      | some y =>
        rw [hfc] at h
        rw [find_or_create_mono_le _ _ _ fuel fuel2 hle hfc]
        simp only [Option.bind_eq_bind, Option.some_bind] at h ⊢
        exact ih _ _ r h

theorem merge_all_mono (fuel fuel2 : Nat) (hle : fuel ≤ fuel2) :
    ∀ (ts : List HashTable) (global r : HashTable), merge_all fuel ts global = some r →
      merge_all fuel2 ts global = some r := by
  intro ts
  induction ts with
  | nil => intro global r h; exact h
  | cons t ts ih =>
    intro global r h
    rw [merge_all] at h ⊢
    cases hm : merge_tables fuel global t with
    | none => rw [hm] at h; simp at h
    | some g1 =>
      rw [hm] at h
      have := merge_tables_loop_mono t fuel fuel2 hle _ _ _ _ hm
      unfold merge_tables
      rw [this]
      simp only [Option.bind_eq_bind, Option.some_bind] at h ⊢
      exact ih _ r h

/-- Any run of the merge loop that ends, on tables with at most `MAX_STATIONS`
distinct names, leaves a table that represents the reference merge. -/
theorem merge_all_any_fuel {ts : List HashTable}
    (hcard : (table_names ts).dedup.length ≤ MAX_STATIONS) {fuel : Nat} {g : HashTable}
    (hrun : merge_all fuel ts zero_table = some g) : Represents g (merged ts) := by
  obtain ⟨g2, hrun2, hR⟩ := merge_all_represents ts hcard (Nat.max fuel HASH_TABLE_SIZE)
    (Nat.le_max_right _ _)
  have := merge_all_mono fuel (Nat.max fuel HASH_TABLE_SIZE) (Nat.le_max_left _ _) _ _ _ hrun
  rw [this] at hrun2
  simp only [Option.some.injEq] at hrun2
  rw [hrun2]; exact hR

/-- The table of a worker run alone on well-formed lines is produced by `process_chunk`. -/
theorem worker_table_run (lines : List Line) (hwf : ∀ l ∈ lines, l.wf)
    (hcard : (lines.map Line.key).dedup.length ≤ MAX_STATIONS) :
    process_chunk (lines.length + HASH_TABLE_SIZE + 1) ([] ++ (encode lines ++ []))
      ([] : List Nat).length (([] : List Nat).length + (encode lines).length)
      = some (worker_table lines, ([] : List Nat).length + (encode lines).length) := by
  obtain ⟨ht, hrun, _⟩ := process_chunk_represents [] [] lines hwf hcard _ (le_refl _)
  have e : worker_table lines = ht := by
    unfold worker_table
    simp only [List.nil_append, List.append_nil, List.length_nil, Nat.zero_add] at hrun
    rw [hrun]
  rw [e]; exact hrun

/-- C4 for two workers: the lines of the end-to-end example and the line `a;0.0`. -/
theorem merge_all_correct_witness :
    List.Forall₂ (fun lines t => ∃ fuel pre post,
      process_chunk fuel (pre ++ (encode lines ++ post)) pre.length
        (pre.length + (encode lines).length) = some (t, pre.length + (encode lines).length))
      [example_lines, [zero_line]] [worker_table example_lines, worker_table [zero_line]] ∧
    (∀ l ∈ [example_lines, [zero_line]].flatten, l.wf) ∧
    ([example_lines, [zero_line]].flatten.map Line.key).dedup.length ≤ MAX_STATIONS ∧
    [example_lines, [zero_line]].flatten.length < 2 ^ 31 ∧
    ∃ fuel g, merge_all fuel [worker_table example_lines, worker_table [zero_line]] zero_table
        = some g ∧
      (∀ i, i < HASH_TABLE_SIZE → occupied g i →
        ∃ t ∈ [worker_table example_lines, worker_table [zero_line]],
          ∃ j, j < HASH_TABLE_SIZE ∧ occupied t j ∧
            (t.stations j).name = (g.stations i).name) ∧
      (∀ t ∈ [worker_table example_lines, worker_table [zero_line]],
        ∀ j, j < HASH_TABLE_SIZE → occupied t j →
        ∃ i, i < HASH_TABLE_SIZE ∧ occupied g i ∧ (g.stations i).name = (t.stations j).name ∧
          (∀ i2, i2 < HASH_TABLE_SIZE → occupied g i2 →
            (g.stations i2).name = (t.stations j).name → i2 = i) ∧
          (g.stations i).sum = ((worker_entries
            [worker_table example_lines, worker_table [zero_line]]
            (t.stations j).name).map Station.sum).sum ∧
          (g.stations i).count = ((worker_entries
            [worker_table example_lines, worker_table [zero_line]]
            (t.stations j).name).map Station.count).sum ∧
          (g.stations i).min ∈ (worker_entries
            [worker_table example_lines, worker_table [zero_line]]
            (t.stations j).name).map Station.min ∧
          (∀ x ∈ (worker_entries [worker_table example_lines, worker_table [zero_line]]
            (t.stations j).name).map Station.min, (g.stations i).min ≤ x) ∧
          (g.stations i).max ∈ (worker_entries
            [worker_table example_lines, worker_table [zero_line]]
            (t.stations j).name).map Station.max ∧
          (∀ x ∈ (worker_entries [worker_table example_lines, worker_table [zero_line]]
            (t.stations j).name).map Station.max, x ≤ (g.stations i).max)) :=
  ⟨List.Forall₂.cons ⟨_, [], [], worker_table_run example_lines (by decide) (by decide)⟩
      (List.Forall₂.cons ⟨_, [], [], worker_table_run [zero_line] (by decide) (by decide)⟩
        List.Forall₂.nil),
    by decide, by decide, by decide,
    merge_all_correct [example_lines, [zero_line]]
      [worker_table example_lines, worker_table [zero_line]]
      (List.Forall₂.cons ⟨_, [], [], worker_table_run example_lines (by decide) (by decide)⟩
        (List.Forall₂.cons ⟨_, [], [], worker_table_run [zero_line] (by decide) (by decide)⟩
          List.Forall₂.nil))
      (by decide) (by decide) (by decide)⟩

/-- The entry that a worker run on `n` copies of one well-formed line (`1 ≤ n < 2^31`)
holds for the key of the line has count `n`. -/
theorem replicate_entry (l : Line) (hl : l.wf) (n : Nat) (hn : 1 ≤ n) (hn2 : n < 2 ^ 31)
    {t : HashTable} (hR : Represents t (aggregate (fun _ => none) (List.replicate n l))) :
    ∃ s, entry_of t l.key = some s ∧ s.count = n := by
  have hkey : l.key ≠ [] := by
    intro e
    have := hl.1
    rw [e] at this; simp at this
  rw [entry_of_represents hR hkey, aggregate_entry]
  have hk : l.key ∈ (List.replicate n l).map Line.key := by
    rw [List.map_replicate]
    exact List.mem_replicate.2 ⟨by omega, rfl⟩
  rw [if_pos hk]
  refine ⟨_, rfl, ?_⟩
  simp only [temps_of_replicate, List.length_replicate]
  apply wrap32_of_range
  · have : (0 : Int) ≤ (n : Int) := Int.natCast_nonneg _
    omega
  · exact_mod_cast hn2

/-- C4 as stated fails for two workers that each scanned 2^30 copies of the line
`a;0.0`: the per-worker counts are 2^30 each, and no run of the merge leaves an entry
for `a` whose count is their sum. -/
theorem merge_all_count_overflow :
    ¬ ∃ ts, List.Forall₂ (fun lines t => ∃ fuel pre post,
        process_chunk fuel (pre ++ (encode lines ++ post)) pre.length
          (pre.length + (encode lines).length) = some (t, pre.length + (encode lines).length))
        [List.replicate 1073741824 zero_line, List.replicate 1073741824 zero_line] ts ∧
      ∃ fuel g, merge_all fuel ts zero_table = some g ∧
        ∃ i, i < HASH_TABLE_SIZE ∧ occupied g i ∧ (g.stations i).name = zero_line.key ∧
          (g.stations i).count = ((worker_entries ts zero_line.key).map Station.count).sum := by
  rintro ⟨ts, hts, fuel, g, hrun, i, hi, ho, hname, hcount⟩
  have hwfz : zero_line.wf := by decide
  have hwf : ∀ x ∈ List.replicate 1073741824 zero_line, x.wf := by
    intro x hx
    rw [List.eq_of_mem_replicate hx]; exact hwfz
  have hcard : ((List.replicate 1073741824 zero_line).map Line.key).dedup.length ≤ MAX_STATIONS :=
    le_trans (keys_replicate_dedup _ _) (by decide)
  -- the two worker tables
  rcases hts with _ | ⟨⟨f1, pre1, post1, h1⟩, hts2⟩
  rcases hts2 with _ | ⟨⟨f2, pre2, post2, h2⟩, hts3⟩
  cases hts3
  rename_i t1 t2
  have hR1 := process_chunk_any_fuel hwf hcard h1
  have hR2 := process_chunk_any_fuel hwf hcard h2
  obtain ⟨s1, he1, hc1⟩ := replicate_entry zero_line hwfz 1073741824 (by omega) (by norm_num) hR1
  obtain ⟨s2, he2, hc2⟩ := replicate_entry zero_line hwfz 1073741824 (by omega) (by norm_num) hR2
  have hwe : worker_entries [t1, t2] zero_line.key = [s1, s2] := by
    simp [worker_entries, he1, he2]
  have hks : ∀ t ∈ [t1, t2], ∀ j, j < HASH_TABLE_SIZE → occupied t j →
      (t.stations j).name ∈ [zero_line.key] := by
    intro t ht j hj hoj
    have hRt : Represents t (aggregate (fun _ => none) (List.replicate 1073741824 zero_line)) := by
      rcases List.mem_cons.1 ht with rfl | ht
      · exact hR1
      · rw [List.mem_singleton.1 ht]; exact hR2
    have := (represents_slots hRt).1 j hj hoj
    rw [aggregate_entry] at this
    by_cases hk : (t.stations j).name ∈ (List.replicate 1073741824 zero_line).map Line.key
    · rw [List.map_replicate] at hk
      rw [List.eq_of_mem_replicate hk]
      exact List.mem_singleton_self _
    · rw [if_neg hk] at this
      exact absurd this (by simp)
  have hR := merge_all_any_fuel (names_bound_of_cover _ _ hks (by decide)) hrun
  have hinv : ∀ t ∈ [t1, t2], TableInv t := by
    intro t ht
    rcases List.mem_cons.1 ht with rfl | ht
    · exact hR1.inv
    · rw [List.mem_singleton.1 ht]; exact hR2.inv
  have hm := (represents_slots hR).1 i hi ho
  rw [hname, merged_entry _ hinv, hwe, if_neg (by simp)] at hm
  simp only [Option.some.injEq] at hm
  rw [hwe, ← hm] at hcount
  simp only [List.map_cons, List.map_nil, List.sum_cons, List.sum_nil, hc1, hc2] at hcount
  unfold wrap32 at hcount
  norm_num at hcount

/-- C5 for the two worker tables of the example lines and of the line `a;0.0`, swapped. -/
theorem merge_all_perm_witness :
    [worker_table [zero_line], worker_table example_lines].Perm
      [worker_table example_lines, worker_table [zero_line]] ∧
    (∀ t ∈ [worker_table example_lines, worker_table [zero_line]],
      ∀ i, i < HASH_TABLE_SIZE → occupied t i →
        (t.stations i).name ∈ (example_lines ++ [zero_line]).map Line.key) ∧
    ((example_lines ++ [zero_line]).map Line.key).dedup.length ≤ MAX_STATIONS ∧
    HASH_TABLE_SIZE ≤ HASH_TABLE_SIZE ∧
    ∃ g g2, merge_all HASH_TABLE_SIZE [worker_table example_lines, worker_table [zero_line]]
        zero_table = some g ∧
      merge_all HASH_TABLE_SIZE [worker_table [zero_line], worker_table example_lines]
        zero_table = some g2 ∧
      ∀ s, HasEntry g s ↔ HasEntry g2 s :=
  have hks : ∀ t ∈ [worker_table example_lines, worker_table [zero_line]],
      ∀ i, i < HASH_TABLE_SIZE → occupied t i →
        (t.stations i).name ∈ (example_lines ++ [zero_line]).map Line.key := by
    intro t ht i hi ho
    have hR : ∃ c, (∀ l ∈ c, l ∈ example_lines ++ [zero_line]) ∧
        Represents t (aggregate (fun _ => none) c) := by
      rcases List.mem_cons.1 ht with rfl | ht
      · exact ⟨example_lines, fun l hl => List.mem_append_left _ hl,
          process_chunk_any_fuel (by decide) (by decide)
            (worker_table_run example_lines (by decide) (by decide))⟩
      · rw [List.mem_singleton.1 ht]
        exact ⟨[zero_line], fun l hl => List.mem_append_right _ hl,
          process_chunk_any_fuel (by decide) (by decide)
            (worker_table_run [zero_line] (by decide) (by decide))⟩
    obtain ⟨c, hc, hR⟩ := hR
    have := (represents_slots hR).1 i hi ho
    rw [aggregate_entry] at this
    by_cases hk : (t.stations i).name ∈ c.map Line.key
    · obtain ⟨l, hl, e⟩ := List.mem_map.1 hk
      rw [← e]
      exact List.mem_map_of_mem _ (hc l hl)
    · rw [if_neg hk] at this
      exact absurd this (by simp)
  ⟨List.Perm.swap _ _ _, hks, by decide, le_refl _,
    merge_all_perm [worker_table example_lines, worker_table [zero_line]]
      [worker_table [zero_line], worker_table example_lines] (List.Perm.swap _ _ _)
      ((example_lines ++ [zero_line]).map Line.key) hks (by decide) HASH_TABLE_SIZE (le_refl _)⟩

/-! ### C10: `find_or_create` on a full table -/

/-- C10 (amended): when `find_or_create` is called with a key that is absent from a
table in which every slot is occupied, the probing loop never ends: whatever bound
is put on the number of probes, the call uses it up without returning.  It reports
no fatal condition; no entry is overwritten and no slot is written. -/
theorem find_or_create_full (ht : HashTable) (name : List Nat)
    (hfull : ∀ i, i < HASH_TABLE_SIZE → occupied ht i)
    (habs : ∀ i, i < HASH_TABLE_SIZE → (ht.stations i).name ≠ name) :
    ∀ fuel, find_or_create fuel ht name = none :=
  fun fuel => find_or_create_loop_diverges ht name (fun i hi => ⟨hfull i hi, habs i hi⟩) fuel _
    (home_lt name)

theorem full_table_occupied : ∀ i, i < HASH_TABLE_SIZE → occupied full_table i := by
  intro i _
  rw [occupied_iff_name]
  simp [full_table]

theorem full_table_absent : ∀ i, i < HASH_TABLE_SIZE → (full_table.stations i).name ≠ [97] := by
  intro i _
  simp [full_table]

/-- C10 on the table whose slot `i` holds the two-byte key `[1 + i % 255, 1 + i / 255]`
and the key `a`. -/
theorem find_or_create_full_witness :
    (∀ i, i < HASH_TABLE_SIZE → occupied full_table i) ∧
    (∀ i, i < HASH_TABLE_SIZE → (full_table.stations i).name ≠ [97]) ∧
    ∀ fuel, find_or_create fuel full_table [97] = none :=
  ⟨full_table_occupied, full_table_absent,
    find_or_create_full full_table [97] full_table_occupied full_table_absent⟩

/-- C10 as stated fails: with every slot occupied by another key, no bound on the
number of probes lets `find_or_create` return for the key `a`, neither with a
slot nor with a report of a fatal condition. -/
theorem find_or_create_full_never_returns :
    ¬ ∃ fuel r, find_or_create fuel full_table [97] = some r := by
  rintro ⟨fuel, r, h⟩
  have := find_or_create_loop_diverges full_table [97]
    (fun i hi => ⟨full_table_occupied i hi, full_table_absent i hi⟩) fuel _ (home_lt [97])
  unfold find_or_create at h
  rw [show hash_name [97] &&& (HASH_TABLE_SIZE - 1) = home [97] from rfl, this] at h
  exact absurd h (by simp)

/-! ### C7: the reporter prints the entries in ascending key order -/

theorem collect_loop_eq (g : HashTable) : ∀ (n i : Nat) (result : List Station),
    result.length + (((List.range' i n).filter (fun j => occupied g j)).map g.stations).length
      ≤ MAX_STATIONS →
    collect_loop g n i result =
      some (result ++ ((List.range' i n).filter (fun j => occupied g j)).map g.stations) := by
  intro n
  induction n with
  | zero => intro i result _; simp [collect_loop]
  | succ n ih =>
    intro i result h
    rw [entries_range] at h ⊢
    rw [collect_loop]
    by_cases ho : occupied g i
    · have ho2 : (g.stations i).name_len > 0 := Nat.pos_of_ne_zero ho
      rw [if_pos ho] at h ⊢
      rw [List.length_append, List.length_singleton] at h
      have h1 : result.length < MAX_STATIONS := by omega
      have h2 : (result ++ [g.stations i]).length +
          (((List.range' (i + 1) n).filter (fun j => occupied g j)).map g.stations).length
            ≤ MAX_STATIONS := by
        rw [List.length_append, List.length_singleton]; omega
      rw [if_pos ho2, if_pos h1, ih _ _ h2, List.append_assoc]
    · have ho2 : ¬ (g.stations i).name_len > 0 := by
        unfold occupied at ho; omega
      rw [if_neg ho] at h ⊢
      rw [List.nil_append] at h ⊢
      rw [if_neg ho2, ih _ _ h]

/-- With at most `MAX_STATIONS` entries the collection loop returns the entries in
slot order. -/
theorem collect_eq (g : HashTable) (h : (table_entries g).length ≤ MAX_STATIONS) :
    collect g = some (table_entries g) := by
  unfold collect table_entries at *
  rw [List.range_eq_range'] at h ⊢
  rw [collect_loop_eq g _ _ [] (by simpa using h)]
  simp

theorem strcmp_eq_zero : ∀ (a b : List Nat), (∀ x ∈ a, x ≠ 0) → (∀ x ∈ b, x ≠ 0) →
    (strcmp a b = 0 ↔ a = b) := by
  intro a
  induction a with
  | nil =>
    intro b _ hb
    cases b with
    | nil => simp [strcmp]
    | cons y bs =>
      have := hb y (List.mem_cons_self _ _)
      simp [strcmp]; omega
  | cons x as ih =>
    intro b ha hb
    cases b with
    | nil =>
      have := ha x (List.mem_cons_self _ _)
      simp [strcmp]; omega
    | cons y bs =>
      simp only [strcmp]
      by_cases hxy : x = y
      · subst hxy
        simp only [if_true, List.cons.injEq, true_and]
        exact ih bs (fun z hz => ha z (List.mem_cons_of_mem _ hz))
          (fun z hz => hb z (List.mem_cons_of_mem _ hz))
      · simp only [hxy, if_false, List.cons.injEq, false_and, iff_false]
        omega

theorem strcmp_neg : ∀ (a b : List Nat), (∀ x ∈ a, x ≠ 0) → (∀ x ∈ b, x ≠ 0) →
    (strcmp a b < 0 ↔ List.Lex (fun x y : Nat => x < y) a b) := by
  intro a
  induction a with
  | nil =>
    intro b _ hb
    cases b with
    | nil =>
      simp only [strcmp, lt_irrefl, false_iff]
      intro h; cases h
    | cons y bs =>
      have := hb y (List.mem_cons_self _ _)
      simp only [strcmp]
      constructor
      · intro _; exact List.Lex.nil
      · intro _; omega
  | cons x as ih =>
    intro b ha hb
    cases b with
    | nil =>
      simp only [strcmp]
      constructor
      · intro h; omega
      · intro h; cases h
    | cons y bs =>
      simp only [strcmp]
      by_cases hxy : x = y
      · subst hxy
        simp only [if_true]
        rw [ih bs (fun z hz => ha z (List.mem_cons_of_mem _ hz))
          (fun z hz => hb z (List.mem_cons_of_mem _ hz))]
        constructor
        · intro h; exact List.Lex.cons h
        · intro h
          cases h with
          | cons h => exact h
          | rel h => exact absurd h (lt_irrefl _)
      · simp only [hxy, if_false]
        constructor
        · intro h; exact List.Lex.rel (by omega)
        · intro h
          cases h with
          | cons h => exact absurd rfl hxy
          | rel h => omega

theorem c_string_of_no_nul {name : List Nat} (h : 0 ∉ name) : c_string name = name := by
  unfold c_string
  rw [List.takeWhile_eq_self_iff]
  intro x hx
  simp only [ne_eq, decide_not, Bool.not_eq_true', decide_eq_false_iff_not]
  rintro rfl
  exact h hx

theorem table_entries_nodup {g : HashTable} (hinv : TableInv g) : (table_entries g).Nodup := by
  refine List.Pairwise.imp ?_ (table_entries_pairwise hinv)
  intro a b hne e
  exact hne (by rw [e])

theorem table_names_nodup {g : HashTable} (hinv : TableInv g) :
    ((table_entries g).map Station.name).Nodup :=
  List.pairwise_map.2 (table_entries_pairwise hinv)

theorem table_entries_length_le {g : HashTable} (hinv : TableInv g) (ks : List (List Nat))
    (hks : ∀ i, i < HASH_TABLE_SIZE → occupied g i → (g.stations i).name ∈ ks) :
    (table_entries g).length ≤ ks.dedup.length := by
  rw [← List.length_map (table_entries g) Station.name,
    ← List.toFinset_card_of_nodup (table_names_nodup hinv), ← List.card_toFinset]
  apply Finset.card_le_card
  intro k hk
  simp only [List.mem_toFinset, List.mem_map] at hk ⊢
  obtain ⟨s, hs, rfl⟩ := hk
  obtain ⟨i, hi, ho, rfl⟩ := mem_table_entries.1 hs
  exact hks i hi ho

theorem count_table_entries {g : HashTable} (hinv : TableInv g) {i : Nat}
    (hi : i < HASH_TABLE_SIZE) (ho : occupied g i) :
    (table_entries g).count (g.stations i) = 1 :=
  List.count_eq_one_of_mem (table_entries_nodup hinv) (mem_table_entries.2 ⟨i, hi, ho, rfl⟩)

theorem c_string_no_nul (name : List Nat) : ∀ x ∈ c_string name, x ≠ 0 := by
  intro x hx
  have := List.mem_takeWhile_imp hx
  simpa using this

theorem strcmp_le_iff (a b : List Nat) (ha : ∀ x ∈ a, x ≠ 0) (hb : ∀ x ∈ b, x ≠ 0) :
    strcmp a b ≤ 0 ↔ List.Lex (fun x y : Nat => x < y) a b ∨ a = b := by
  rw [← strcmp_neg a b ha hb, ← strcmp_eq_zero a b ha hb]
  omega

theorem lex_total (a b : List Nat) :
    List.Lex (fun x y : Nat => x < y) a b ∨ a = b ∨ List.Lex (fun x y : Nat => x < y) b a :=
  (List.Lex.isTrichotomous (fun x y : Nat => x < y)).trichotomous a b

theorem lex_trans {a b c : List Nat} (h1 : List.Lex (fun x y : Nat => x < y) a b)
    (h2 : List.Lex (fun x y : Nat => x < y) b c) : List.Lex (fun x y : Nat => x < y) a c :=
  (List.Lex.isStrictTotalOrder (fun x y : Nat => x < y)).trans a b c h1 h2

/-- The model of `qsort` returns a permutation of its input in which no element
compares greater than a later one. -/
theorem qsort_spec (l : List Station) :
    (qsort l).Perm l ∧ (qsort l).Pairwise (fun a b => compare_stations a b ≤ 0) := by
  refine ⟨List.perm_insertionSort _ l, ?_⟩
  haveI : IsTotal Station (fun a b => compare_stations a b ≤ 0) := ⟨by
    intro a b
    simp only [compare_stations]
    rw [strcmp_le_iff _ _ (c_string_no_nul _) (c_string_no_nul _),
      strcmp_le_iff _ _ (c_string_no_nul _) (c_string_no_nul _)]
    rcases lex_total (c_string a.name) (c_string b.name) with h | h | h
    · exact Or.inl (Or.inl h)
    · exact Or.inl (Or.inr h)
    · exact Or.inr (Or.inl h)⟩
  haveI : IsTrans Station (fun a b => compare_stations a b ≤ 0) := ⟨by
    intro a b c
    simp only [compare_stations]
    rw [strcmp_le_iff _ _ (c_string_no_nul _) (c_string_no_nul _),
      strcmp_le_iff _ _ (c_string_no_nul _) (c_string_no_nul _),
      strcmp_le_iff _ _ (c_string_no_nul _) (c_string_no_nul _)]
    rintro (h1 | h1) (h2 | h2)
    · exact Or.inl (lex_trans h1 h2)
    · rw [← h2]; exact Or.inl h1
    · rw [h1]; exact Or.inl h2
    · rw [h1, h2]; exact Or.inr rfl⟩
  exact List.sorted_insertionSort (fun a b => compare_stations a b ≤ 0) l

/-- C7 (amended): for every global table that satisfies the table invariant, has
all its keys in a list of at most 10000 distinct keys, and whose keys contain no NUL
byte, the collection loop returns every occupied entry exactly once, and in every
arrangement of these entries that is ordered by `compare_stations`, as `qsort` leaves
them, the printed keys are the keys of the table in strictly ascending byte-wise
lexicographic order (bytes compared as unsigned values, a proper prefix before its
extensions). -/
theorem reporter_sorted (g : HashTable) (hinv : TableInv g) (ks : List (List Nat))
    (hks : ∀ i, i < HASH_TABLE_SIZE → occupied g i → (g.stations i).name ∈ ks)
    (hcard : ks.dedup.length ≤ MAX_STATIONS)
    (hnul : ∀ i, i < HASH_TABLE_SIZE → occupied g i → 0 ∉ (g.stations i).name) :
    ∃ result, collect g = some result ∧
      (qsort result).Perm result ∧
      (qsort result).Pairwise (fun a b => compare_stations a b ≤ 0) ∧
      ∀ out : List Station, out.Perm result →
        out.Pairwise (fun a b => compare_stations a b ≤ 0) →
        (∀ i, i < HASH_TABLE_SIZE → occupied g i → out.count (g.stations i) = 1) ∧
        (∀ s ∈ out, HasEntry g s) ∧
        rendered_keys out = out.map Station.name ∧
        (rendered_keys out).Pairwise (List.Lex (fun x y : Nat => x < y)) := by
  have hlen := le_trans (table_entries_length_le hinv ks hks) hcard
  refine ⟨table_entries g, collect_eq g hlen, (qsort_spec _).1, (qsort_spec _).2, ?_⟩
  intro out hperm hsorted
  have hmem : ∀ s ∈ out, HasEntry g s := fun s hs => mem_table_entries.1 (hperm.mem_iff.1 hs)
  have hnn : ∀ s ∈ out, 0 ∉ s.name := by
    intro s hs
    obtain ⟨i, hi, ho, rfl⟩ := hmem s hs
    exact hnul i hi ho
  have hkeys : rendered_keys out = out.map Station.name := by
    unfold rendered_keys
    apply List.map_congr_left
    intro s hs
    exact c_string_of_no_nul (hnn s hs)
  refine ⟨?_, hmem, hkeys, ?_⟩
  · intro i hi ho
    rw [hperm.count_eq]
    exact count_table_entries hinv hi ho
  · rw [hkeys, List.pairwise_map]
    have hdist : out.Pairwise (fun a b => a.name ≠ b.name) :=
      (hperm.pairwise_iff (fun {a b} (h : a.name ≠ b.name) => fun e => h e.symm)).2
        (table_entries_pairwise hinv)
    have hboth := hsorted.and hdist
    refine List.Pairwise.imp_of_mem ?_ hboth
    intro a b ha hb h
    have ha0 : ∀ x ∈ a.name, x ≠ 0 := fun x hx e => hnn a ha (e ▸ hx)
    have hb0 : ∀ x ∈ b.name, x ≠ 0 := fun x hx e => hnn b hb (e ▸ hx)
    have hc : compare_stations a b ≤ 0 := h.1
    unfold compare_stations at hc
    rw [c_string_of_no_nul (hnn a ha), c_string_of_no_nul (hnn b hb)] at hc
    rw [← strcmp_neg _ _ ha0 hb0]
    have hne : strcmp a.name b.name ≠ 0 := fun e => h.2 ((strcmp_eq_zero _ _ ha0 hb0).1 e)
    omega

theorem worker_table_represents (lines : List Line) (hwf : ∀ l ∈ lines, l.wf)
    (hcard : (lines.map Line.key).dedup.length ≤ MAX_STATIONS) :
    Represents (worker_table lines) (aggregate (fun _ => none) lines) :=
  process_chunk_any_fuel hwf hcard (worker_table_run lines hwf hcard)

theorem aggregate_names {t : HashTable} {lines : List Line}
    (hR : Represents t (aggregate (fun _ => none) lines)) :
    ∀ i, i < HASH_TABLE_SIZE → occupied t i → (t.stations i).name ∈ lines.map Line.key := by
  intro i hi ho
  have := (represents_slots hR).1 i hi ho
  rw [aggregate_entry] at this
  by_contra hk
  rw [if_neg hk] at this
  exact absurd this (by simp)

/-- C7 on the table that a worker builds from the lines of the end-to-end example. -/
theorem reporter_sorted_witness :
    TableInv (worker_table example_lines) ∧
    (∀ i, i < HASH_TABLE_SIZE → occupied (worker_table example_lines) i →
      ((worker_table example_lines).stations i).name ∈ example_lines.map Line.key) ∧
    (example_lines.map Line.key).dedup.length ≤ MAX_STATIONS ∧
    (∀ i, i < HASH_TABLE_SIZE → occupied (worker_table example_lines) i →
      0 ∉ ((worker_table example_lines).stations i).name) ∧
    ∃ result, collect (worker_table example_lines) = some result ∧
      (qsort result).Perm result ∧
      (qsort result).Pairwise (fun a b => compare_stations a b ≤ 0) ∧
      ∀ out : List Station, out.Perm result →
        out.Pairwise (fun a b => compare_stations a b ≤ 0) →
        (∀ i, i < HASH_TABLE_SIZE → occupied (worker_table example_lines) i →
          out.count ((worker_table example_lines).stations i) = 1) ∧
        (∀ s ∈ out, HasEntry (worker_table example_lines) s) ∧
        rendered_keys out = out.map Station.name ∧
        (rendered_keys out).Pairwise (List.Lex (fun x y : Nat => x < y)) :=
  have hR := worker_table_represents example_lines (by decide) (by decide)
  have hnul : ∀ i, i < HASH_TABLE_SIZE → occupied (worker_table example_lines) i →
      0 ∉ ((worker_table example_lines).stations i).name := by
    intro i hi ho
    have hall : ∀ k ∈ example_lines.map Line.key, 0 ∉ k := by decide
    exact hall _ (aggregate_names hR i hi ho)
  ⟨hR.inv, aggregate_names hR, by decide, hnul,
    reporter_sorted (worker_table example_lines) hR.inv (example_lines.map Line.key)
      (aggregate_names hR) (by decide) hnul⟩

/-- C7 as stated fails on the table built from the lines `a\0b;1.0` and `a\0c;2.0`:
its keys have at most 100 bytes and contain no `;` and no newline, the collection
loop returns its entries, and in no arrangement of them are the printed keys in
strictly ascending order (both entries are printed with the key `a`). -/
theorem reporter_nul_keys :
    (∀ i, i < HASH_TABLE_SIZE → occupied (worker_table nul_lines) i →
      ((worker_table nul_lines).stations i).name.length ≤ MAX_NAME_LEN ∧
      59 ∉ ((worker_table nul_lines).stations i).name ∧
      10 ∉ ((worker_table nul_lines).stations i).name) ∧
    ∃ result, collect (worker_table nul_lines) = some result ∧
      ∀ out : List Station, out.Perm result →
        ¬ (rendered_keys out).Pairwise (List.Lex (fun x y : Nat => x < y)) := by
  have hR := worker_table_represents nul_lines (by decide) (by decide)
  have hnames := aggregate_names hR
  refine ⟨?_, table_entries (worker_table nul_lines), ?_, ?_⟩
  · intro i hi ho
    have hall : ∀ k ∈ nul_lines.map Line.key, k.length ≤ MAX_NAME_LEN ∧ 59 ∉ k ∧ 10 ∉ k := by
      decide
    exact hall _ (hnames i hi ho)
  · apply collect_eq
    exact le_trans (table_entries_length_le hR.inv _ hnames) (by decide)
  · intro out hperm hpw
    -- both keys have an entry
    have h1 := aggregate_entry [97, 0, 98] nul_lines
    have h2 := aggregate_entry [97, 0, 99] nul_lines
    rw [if_pos (by decide)] at h1 h2
    obtain ⟨i1, hi1, ho1, hs1, _⟩ := (represents_slots hR).2 _ _ h1
    obtain ⟨i2, hi2, ho2, hs2, _⟩ := (represents_slots hR).2 _ _ h2
    have hm1 : (worker_table nul_lines).stations i1 ∈ out :=
      hperm.mem_iff.2 (mem_table_entries.2 ⟨i1, hi1, ho1, rfl⟩)
    have hm2 : (worker_table nul_lines).stations i2 ∈ out :=
      hperm.mem_iff.2 (mem_table_entries.2 ⟨i2, hi2, ho2, rfl⟩)
    have hnd : (rendered_keys out).Nodup := by
      refine List.Pairwise.imp ?_ hpw
      intro a b hlt e
      rw [e] at hlt
      exact (List.Lex.isStrictTotalOrder (fun x y : Nat => x < y)).irrefl b hlt
    have hinj := List.inj_on_of_nodup_map hnd hm1 hm2
    rw [hs1, hs2] at hinj
    have := hinj (by decide)
    have hname := congrArg Station.name this
    simp at hname

/-! ### Rounding -/

theorem round_half_even_cases (q : ℚ) :
    (round_half_even q = Int.floor q ∧ q - (Int.floor q : ℚ) ≤ 1 / 2) ∨
    (round_half_even q = Int.floor q + 1 ∧ 1 / 2 ≤ q - (Int.floor q : ℚ)) := by
  unfold round_half_even
  simp only
  by_cases h1 : q - (Int.floor q : ℚ) < 1 / 2
  · left; rw [if_pos h1]; exact ⟨rfl, le_of_lt h1⟩
  · rw [if_neg h1]
    by_cases h2 : 1 / 2 < q - (Int.floor q : ℚ)
    · right; rw [if_pos h2]; exact ⟨rfl, le_of_lt h2⟩
    · rw [if_neg h2]
      have e : q - (Int.floor q : ℚ) = 1 / 2 := le_antisymm (not_lt.1 h2) (not_lt.1 h1)
      by_cases h3 : Int.floor q % 2 = 0
      · left; rw [if_pos h3]; exact ⟨rfl, le_of_eq e⟩
      · right; rw [if_neg h3]; exact ⟨rfl, le_of_eq e.symm⟩

/-- An integer below a number is below its rounding. -/
theorem le_round_half_even {N : Int} {q : ℚ} (h : (N : ℚ) ≤ q) : N ≤ round_half_even q := by
  have hf : N ≤ Int.floor q := Int.le_floor.2 h
  rcases round_half_even_cases q with ⟨e, _⟩ | ⟨e, _⟩ <;> omega

/-- An integer above a number is above its rounding. -/
theorem round_half_even_le {N : Int} {q : ℚ} (h : q ≤ (N : ℚ)) : round_half_even q ≤ N := by
  have hf : (Int.floor q : ℚ) ≤ q := Int.floor_le q
  rcases round_half_even_cases q with ⟨e, _⟩ | ⟨e, h2⟩
  · have : ((Int.floor q : Int) : ℚ) ≤ (N : ℚ) := le_trans hf h
    have : Int.floor q ≤ N := by exact_mod_cast this
    omega
  · have : ((Int.floor q : Int) : ℚ) < (N : ℚ) := by linarith
    have : Int.floor q < N := by exact_mod_cast this
    omega

/-- A number within less than one half of an integer rounds to that integer. -/
theorem round_half_even_near {N : Int} {q : ℚ} (h1 : (N : ℚ) - 1 / 2 < q)
    (h2 : q < (N : ℚ) + 1 / 2) : round_half_even q = N := by
  have hf1 : (Int.floor q : ℚ) ≤ q := Int.floor_le q
  have hf2 : q < (Int.floor q : ℚ) + 1 := Int.lt_floor_add_one q
  rcases round_half_even_cases q with ⟨e, h3⟩ | ⟨e, h3⟩
  · have a : ((Int.floor q : Int) : ℚ) < (N : ℚ) + 1 := by linarith
    have b : (N : ℚ) - 1 < ((Int.floor q : Int) : ℚ) := by linarith
    have a2 : Int.floor q < N + 1 := by exact_mod_cast a
    have b2 : N - 1 < Int.floor q := by exact_mod_cast b
    omega
  · have a : ((Int.floor q : Int) : ℚ) < (N : ℚ) := by linarith
    have b : (N : ℚ) - 2 < ((Int.floor q : Int) : ℚ) := by linarith
    have a2 : Int.floor q < N := by exact_mod_cast a
    have b2 : N - 2 < Int.floor q := by exact_mod_cast b
    omega

theorem fl64_zero : fl64 0 = 0 := by simp [fl64]

/-- The unit in the last place of a nonzero number divides `2 ^ (-g)` when the
number is below `2 ^ (53 - g)`. -/
theorem ulp_grid (g : Nat) {q : ℚ} (hq : q ≠ 0) (hb : |q| < (2 : ℚ) ^ ((53 : Int) - g)) :
    ∃ j : Nat, (2 : ℚ) ^ (Int.log 2 |q| - 52) * (2 : ℚ) ^ j = 1 / (2 : ℚ) ^ g := by
  have hpos : 0 < |q| := abs_pos.2 hq
  have h1 : (2 : ℚ) ^ (Int.log 2 |q|) ≤ |q| := Int.zpow_log_le_self (by norm_num) hpos
  have h2 : (2 : ℚ) ^ (Int.log 2 |q|) < (2 : ℚ) ^ ((53 : Int) - g) := lt_of_le_of_lt h1 hb
  have h3 : Int.log 2 |q| < (53 : Int) - g := by
    rwa [zpow_lt_zpow_iff_right₀ (by norm_num : (1 : ℚ) < 2)] at h2
  refine ⟨((52 : Int) - g - Int.log 2 |q|).toNat, ?_⟩
  have e : (((52 : Int) - g - Int.log 2 |q|).toNat : Int) = (52 : Int) - g - Int.log 2 |q| :=
    Int.toNat_of_nonneg (by omega)
  rw [← zpow_natCast, e, ← zpow_add₀ (by norm_num : (2 : ℚ) ≠ 0), one_div, ← zpow_natCast,
    ← zpow_neg]
  congr 1
  ring

/-- Rounding to `double` does not cross a multiple of `2 ^ (-g)`, for numbers below
`2 ^ (53 - g)`. -/
theorem fl64_grid (g : Nat) (m : Int) {q : ℚ} (hb : |q| < (2 : ℚ) ^ ((53 : Int) - g)) :
    ((m : ℚ) / 2 ^ g ≤ q → (m : ℚ) / 2 ^ g ≤ fl64 q) ∧
    (q ≤ (m : ℚ) / 2 ^ g → fl64 q ≤ (m : ℚ) / 2 ^ g) := by
  by_cases hq : q = 0
  · subst hq; rw [fl64_zero]; exact ⟨id, id⟩
  · obtain ⟨j, hj⟩ := ulp_grid g hq hb
    unfold fl64
    rw [if_neg hq]
    simp only
    have hu : (0 : ℚ) < (2 : ℚ) ^ (Int.log 2 |q| - 52) := zpow_pos (by norm_num) _
    generalize (2 : ℚ) ^ (Int.log 2 |q| - 52) = u at hj hu
    have hm : (m : ℚ) / 2 ^ g = ((m * 2 ^ j : Int) : ℚ) * u := by
      push_cast
      rw [div_eq_mul_one_div, ← hj]; ring
    rw [hm]
    constructor
    · intro h
      have : ((m * 2 ^ j : Int) : ℚ) ≤ q / u := by
        rw [le_div_iff₀ hu]; exact h
      have := le_round_half_even this
      have : ((m * 2 ^ j : Int) : ℚ) ≤ (round_half_even (q / u) : ℚ) := by exact_mod_cast this
      exact mul_le_mul_of_nonneg_right this (le_of_lt hu)
    · intro h
      have : q / u ≤ ((m * 2 ^ j : Int) : ℚ) := by
        rw [div_le_iff₀ hu]; exact h
      have := round_half_even_le this
      have : (round_half_even (q / u) : ℚ) ≤ ((m * 2 ^ j : Int) : ℚ) := by exact_mod_cast this
      exact mul_le_mul_of_nonneg_right this (le_of_lt hu)

/-! ### C8: `round_temp` rounds half away from zero -/

/-- Integers below `2 ^ 53` in absolute value are `double`s. -/
theorem fl64_int (n : Int) (h : |(n : ℚ)| < (2 : ℚ) ^ (53 : Int)) : fl64 (n : ℚ) = (n : ℚ) := by
  have hb : |(n : ℚ)| < (2 : ℚ) ^ ((53 : Int) - (0 : Nat)) := by simpa using h
  have := fl64_grid 0 n hb
  simp only [pow_zero, div_one] at this
  exact le_antisymm (this.2 (le_refl _)) (this.1 (le_refl _))

/-- The quotient and the rounding step of `round_temp` for a nonnegative quotient
`s / c` with `c < 2 ^ 31`: the result lies between `k` and `k + 1 - 2 ^ (-32)`, where
`k` is the quotient rounded half up. -/
theorem round_step (s c k : ℚ) (K : Int) (hK : (K : ℚ) = k) (hc : 0 < c) (hc2 : c ≤ 2 ^ 31)
    (hs : 0 ≤ s) (hb : s / c ≤ 999)
    (h1 : 2 * c * k ≤ 2 * s + c) (h2 : 2 * s + c ≤ 2 * c * k + 2 * c - 1) :
    (k - 1 / 2 ≤ s / c ∧ s / c ≤ k + 1 / 2 - 1 / 2 ^ 32) ∧
    (∀ q : ℚ, k - 1 / 2 ≤ q → q ≤ k + 1 / 2 - 1 / 2 ^ 32 →
      k - 1 / 2 ≤ fl64 q ∧ fl64 q ≤ k + 1 / 2 - 1 / 2 ^ 32) ∧
    (∀ q : ℚ, k ≤ q → q ≤ k + 1 - 1 / 2 ^ 32 → k ≤ fl64 q ∧ fl64 q ≤ k + 1 - 1 / 2 ^ 32) ∧
    (∀ q : ℚ, -(k + 1 - 1 / 2 ^ 32) ≤ q → q ≤ -k →
      -(k + 1 - 1 / 2 ^ 32) ≤ fl64 q ∧ fl64 q ≤ -k) ∧
    (∀ q : ℚ, -(k + 1 / 2 - 1 / 2 ^ 32) ≤ q → q ≤ -(k - 1 / 2) →
      -(k + 1 / 2 - 1 / 2 ^ 32) ≤ fl64 q ∧ fl64 q ≤ -(k - 1 / 2)) ∧ 0 ≤ k ∧ k ≤ 1000 := by
  have hlo : k - 1 / 2 ≤ s / c := by
    rw [le_div_iff₀ hc]; nlinarith
  have hhi : s / c ≤ k + 1 / 2 - 1 / 2 ^ 32 := by
    rw [div_le_iff₀ hc]
    have : c / 2 ^ 31 ≤ 1 := by
      rw [div_le_one (by norm_num)]; exact hc2
    nlinarith
  have hk0 : 0 ≤ k := by
    by_contra hneg
    push_neg at hneg
    have : (K : ℚ) < 0 := by rw [hK]; exact hneg
    have : K < 0 := by exact_mod_cast this
    have : K ≤ -1 := by omega
    have : (K : ℚ) ≤ -1 := by exact_mod_cast this
    rw [hK] at this
    nlinarith
  have hk1 : k ≤ 1000 := by
    have : k - 1 / 2 ≤ 999 := le_trans hlo hb
    have : (K : ℚ) < 1000 := by rw [hK]; linarith
    have : K < 1000 := by exact_mod_cast this
    have : K ≤ 999 := by omega
    have : (K : ℚ) ≤ 999 := by exact_mod_cast this
    rw [hK] at this
    linarith
  have hbound : ∀ q : ℚ, -(k + 1) ≤ q → q ≤ k + 1 → |q| < (2 : ℚ) ^ ((53 : Int) - (32 : Nat)) := by
    intro q h1 h2
    rw [abs_lt]
    norm_num
    constructor <;> linarith
  have e1 : k - 1 / 2 = (((2 * K - 1) * 2 ^ 31 : Int) : ℚ) / 2 ^ 32 := by
    push_cast; rw [hK]; ring
  have e2 : k + 1 / 2 - 1 / 2 ^ 32 = ((((2 * K + 1) * 2 ^ 31 - 1 : Int)) : ℚ) / 2 ^ 32 := by
    push_cast; rw [hK]; ring
  have e3 : k = (((K * 2 ^ 32 : Int)) : ℚ) / 2 ^ 32 := by
    push_cast; rw [hK]; ring
  have e4 : k + 1 - 1 / 2 ^ 32 = (((((K + 1) * 2 ^ 32 - 1 : Int))) : ℚ) / 2 ^ 32 := by
    push_cast; rw [hK]; ring
  have e5 : -(k + 1 - 1 / 2 ^ 32) = ((((-((K + 1) * 2 ^ 32 - 1) : Int))) : ℚ) / 2 ^ 32 := by
    push_cast; rw [hK]; ring
  have e6 : -k = (((-(K * 2 ^ 32) : Int)) : ℚ) / 2 ^ 32 := by
    push_cast; rw [hK]; ring
  have e7 : -(k + 1 / 2 - 1 / 2 ^ 32) = ((((-((2 * K + 1) * 2 ^ 31 - 1) : Int))) : ℚ) / 2 ^ 32 := by
    push_cast; rw [hK]; ring
  have e8 : -(k - 1 / 2) = (((-((2 * K - 1) * 2 ^ 31) : Int)) : ℚ) / 2 ^ 32 := by
    push_cast; rw [hK]; ring
  refine ⟨⟨hlo, hhi⟩, ?_, ?_, ?_, ?_, hk0, hk1⟩
  · intro q ha hb2
    have hq := hbound q (by linarith) (by linarith)
    constructor
    · rw [e1] at ha ⊢; exact (fl64_grid 32 _ hq).1 ha
    · rw [e2] at hb2 ⊢; exact (fl64_grid 32 _ hq).2 hb2
  · intro q ha hb2
    have hq := hbound q (by linarith) (by linarith)
    constructor
    · rw [e3] at ha ⊢; exact (fl64_grid 32 _ hq).1 ha
    · rw [e4] at hb2 ⊢; exact (fl64_grid 32 _ hq).2 hb2
  · intro q ha hb2
    have hq := hbound q (by linarith) (by linarith)
    constructor
    · rw [e5] at ha ⊢; exact (fl64_grid 32 _ hq).1 ha
    · rw [e6] at hb2 ⊢; exact (fl64_grid 32 _ hq).2 hb2
  · intro q ha hb2
    have hq := hbound q (by linarith) (by linarith)
    constructor
    · rw [e7] at ha ⊢; exact (fl64_grid 32 _ hq).1 ha
    · rw [e8] at hb2 ⊢; exact (fl64_grid 32 _ hq).2 hb2

/-- The value of `rounded` in `round_temp`, for `1 ≤ count < 2 ^ 31` and a mean of at
most 999 in absolute value. -/
theorem round_temp_rounded_eq (sum count : Int) (hc1 : 1 ≤ count) (hc2 : count < 2 ^ 31)
    (habs : |(sum : ℚ) / (count : ℚ)| ≤ 999) :
    round_temp_rounded sum count
      = some (Int.sign sum * ((2 * |sum| + count) / (2 * count))) := by
  have hcq : (0 : ℚ) < (count : ℚ) := by exact_mod_cast (by omega : (0 : Int) < count)
  have hcq2 : (count : ℚ) ≤ 2 ^ 31 := by
    have : count ≤ 2 ^ 31 := by omega
    exact_mod_cast this
  have hc0 : count ≠ 0 := by omega
  -- the integer quotient
  have hd := Int.ediv_add_emod (2 * |sum| + count) (2 * count)
  have hm1 := Int.emod_nonneg (2 * |sum| + count) (by omega : 2 * count ≠ 0)
  have hm2 := Int.emod_lt_of_pos (2 * |sum| + count) (by omega : 0 < 2 * count)
  generalize hK : (2 * |sum| + count) / (2 * count) = K at hd ⊢
  generalize (2 * |sum| + count) % (2 * count) = R at hd hm1 hm2
  have hsq : ((|sum| : Int) : ℚ) = |(sum : ℚ)| := by push_cast; rfl
  have hs0 : (0 : ℚ) ≤ |(sum : ℚ)| := abs_nonneg _
  have habs2 : |(sum : ℚ)| / (count : ℚ) ≤ 999 := by
    rw [abs_div, abs_of_pos hcq] at habs; exact habs
  have h1 : 2 * (count : ℚ) * (K : ℚ) ≤ 2 * |(sum : ℚ)| + (count : ℚ) := by
    have : 2 * count * K ≤ 2 * |sum| + count := by omega
    rw [← hsq]; exact_mod_cast this
  have h2 : 2 * |(sum : ℚ)| + (count : ℚ) ≤ 2 * (count : ℚ) * (K : ℚ) + 2 * (count : ℚ) - 1 := by
    have : 2 * |sum| + count ≤ 2 * count * K + 2 * count - 1 := by omega
    rw [← hsq]; exact_mod_cast this
  obtain ⟨⟨hlo, hhi⟩, g1, g2, g3, g4, hk0, hk1⟩ :=
    round_step |(sum : ℚ)| (count : ℚ) (K : ℚ) K rfl hcq hcq2 hs0 habs2 h1 h2
  have hK0 : 0 ≤ K := by exact_mod_cast hk0
  have hK1 : K ≤ 1000 := by exact_mod_cast hk1
  -- the sum is a double
  have hsum : fl64 (sum : ℚ) = (sum : ℚ) := by
    apply fl64_int
    have : |(sum : ℚ)| ≤ 999 * (count : ℚ) := by
      rw [div_le_iff₀ hcq] at habs2; exact habs2
    have : |(sum : ℚ)| < 2 ^ 53 := by nlinarith
    exact_mod_cast this
  unfold round_temp_rounded
  rw [if_neg hc0]
  simp only
  rw [hsum]
  by_cases hpos : 0 ≤ sum
  · have hsa : |(sum : ℚ)| = (sum : ℚ) := abs_of_nonneg (by exact_mod_cast hpos)
    rw [hsa] at hlo hhi
    obtain ⟨a1, a2⟩ := g1 _ hlo hhi
    have havg : fl64 ((sum : ℚ) / (count : ℚ)) ≥ 0 := by
      have hb : |(sum : ℚ) / (count : ℚ)| < (2 : ℚ) ^ ((53 : Int) - (32 : Nat)) := by
        refine lt_of_le_of_lt habs ?_
        norm_num
      have := (fl64_grid 32 0 hb).1 (by
        simp only [Int.cast_zero, zero_div]
        exact div_nonneg (by exact_mod_cast hpos) (le_of_lt hcq))
      simpa using this
    rw [if_pos havg]
    obtain ⟨b1, b2⟩ := g2 (fl64 ((sum : ℚ) / (count : ℚ)) + 1 / 2) (by linarith) (by linarith)
    have hfloor : Int.floor (fl64 (fl64 ((sum : ℚ) / (count : ℚ)) + 1 / 2)) = K := by
      rw [Int.floor_eq_iff]
      constructor
      · exact b1
      · have : (0 : ℚ) < 1 / 2 ^ 32 := by norm_num
        linarith
    have hsign : Int.sign sum * K = K := by
      rcases lt_or_eq_of_le hpos with h | h
      · rw [Int.sign_eq_one_of_pos h, one_mul]
      · rw [← h] at hsa h1 ⊢
        have : (K : ℚ) ≤ 1 / 2 := by
          simp only [Int.cast_zero, abs_zero, mul_zero, zero_add] at h1
          nlinarith
        have : (K : ℚ) < 1 := by linarith
        have : K < 1 := by exact_mod_cast this
        have : K = 0 := by omega
        rw [this]; simp
    unfold to_int
    simp only
    rw [if_pos (le_trans hk0 b1), hfloor, if_pos ⟨by omega, by omega⟩, hsign]
  · have hneg : sum < 0 := by omega
    have hsa : |(sum : ℚ)| = -(sum : ℚ) := abs_of_neg (by exact_mod_cast hneg)
    have hq : (sum : ℚ) / (count : ℚ) = -(|(sum : ℚ)| / (count : ℚ)) := by
      rw [hsa]; ring
    obtain ⟨a1, a2⟩ := g4 ((sum : ℚ) / (count : ℚ)) (by rw [hq]; linarith) (by rw [hq]; linarith)
    have havg : ¬ fl64 ((sum : ℚ) / (count : ℚ)) ≥ 0 := by
      have hb : |(sum : ℚ) / (count : ℚ)| < (2 : ℚ) ^ ((53 : Int) - (32 : Nat)) := by
        refine lt_of_le_of_lt habs ?_
        norm_num
      have hs1 : (1 : ℚ) ≤ |(sum : ℚ)| := by
        rw [hsa]
        have : (1 : Int) ≤ -sum := by omega
        exact_mod_cast this
      have hle : (sum : ℚ) / (count : ℚ) ≤ ((-2 : Int) : ℚ) / 2 ^ 32 := by
        rw [hq, neg_le]
        rw [le_div_iff₀ hcq]
        push_cast
        nlinarith
      have := (fl64_grid 32 (-2) hb).2 hle
      have h3 : ((-2 : Int) : ℚ) / 2 ^ 32 < 0 := by norm_num
      intro h
      linarith
    rw [if_neg havg]
    obtain ⟨b1, b2⟩ := g3 (fl64 ((sum : ℚ) / (count : ℚ)) - 1 / 2) (by linarith) (by linarith)
    have hsign : Int.sign sum * K = -K := by
      rw [Int.sign_eq_neg_one_of_neg hneg]; ring
    unfold to_int
    simp only
    by_cases ht : 0 ≤ fl64 (fl64 ((sum : ℚ) / (count : ℚ)) - 1 / 2)
    · have hkz : (K : ℚ) = 0 := by linarith
      have hKz : K = 0 := by exact_mod_cast hkz
      have htz : fl64 (fl64 ((sum : ℚ) / (count : ℚ)) - 1 / 2) = 0 := by linarith
      rw [if_pos ht, htz, hsign, hKz]
      simp
    · have hceil : Int.ceil (fl64 (fl64 ((sum : ℚ) / (count : ℚ)) - 1 / 2)) = -K := by
        rw [Int.ceil_eq_iff]
        constructor
        · have : (0 : ℚ) < 1 / 2 ^ 32 := by norm_num
          push_cast
          linarith
        · push_cast; exact b2
      rw [if_neg ht, hceil, if_pos ⟨by omega, by omega⟩, hsign]

/-- C8: for every sum and every count with `1 ≤ count` (an `int`, so below 2^31)
and `|sum / count| ≤ 999`, the integer `rounded` that `round_temp` computes is
`sign(sum) * floor((2*|sum| + count) / (2*count))`, and that is the rational
`sum / count` rounded to the nearest integer with ties away from zero: it differs
from `sum / count` by at most one half, and when by exactly one half it is the one
larger in absolute value. -/
theorem round_temp_rounded_correct (sum count : Int) (hc1 : 1 ≤ count) (hc2 : count < 2 ^ 31)
    (habs : |(sum : ℚ) / (count : ℚ)| ≤ 999) :
    ∃ r : Int, round_temp_rounded sum count = some r ∧
      r = Int.sign sum * ((2 * |sum| + count) / (2 * count)) ∧
      |(r : ℚ) - (sum : ℚ) / (count : ℚ)| ≤ 1 / 2 ∧
      (|(r : ℚ) - (sum : ℚ) / (count : ℚ)| = 1 / 2 → |(sum : ℚ) / (count : ℚ)| < |(r : ℚ)|) := by
  refine ⟨_, round_temp_rounded_eq sum count hc1 hc2 habs, rfl, ?_⟩
  have hcq : (0 : ℚ) < (count : ℚ) := by exact_mod_cast (by omega : (0 : Int) < count)
  have hd := Int.ediv_add_emod (2 * |sum| + count) (2 * count)
  have hm1 := Int.emod_nonneg (2 * |sum| + count) (by omega : 2 * count ≠ 0)
  have hm2 := Int.emod_lt_of_pos (2 * |sum| + count) (by omega : 0 < 2 * count)
  generalize (2 * |sum| + count) / (2 * count) = K at hd ⊢
  generalize (2 * |sum| + count) % (2 * count) = R at hd hm1 hm2
  have hsq : ((|sum| : Int) : ℚ) = |(sum : ℚ)| := by push_cast; rfl
  have h1 : 2 * (count : ℚ) * (K : ℚ) ≤ 2 * |(sum : ℚ)| + (count : ℚ) := by
    have : 2 * count * K ≤ 2 * |sum| + count := by omega
    rw [← hsq]; exact_mod_cast this
  have h2 : 2 * |(sum : ℚ)| + (count : ℚ) < 2 * (count : ℚ) * (K : ℚ) + 2 * (count : ℚ) := by
    have : 2 * |sum| + count < 2 * count * K + 2 * count := by omega
    rw [← hsq]; exact_mod_cast this
  have hlo : (K : ℚ) - 1 / 2 ≤ |(sum : ℚ)| / (count : ℚ) := by
    rw [le_div_iff₀ hcq]; nlinarith
  have hhi : |(sum : ℚ)| / (count : ℚ) < (K : ℚ) + 1 / 2 := by
    rw [div_lt_iff₀ hcq]; nlinarith
  rcases lt_trichotomy sum 0 with hs | hs | hs
  · have hsa : |(sum : ℚ)| = -(sum : ℚ) := abs_of_neg (by exact_mod_cast hs)
    have hq : (sum : ℚ) / (count : ℚ) = -(|(sum : ℚ)| / (count : ℚ)) := by rw [hsa]; ring
    have hqa : |(sum : ℚ) / (count : ℚ)| = |(sum : ℚ)| / (count : ℚ) := by
      rw [abs_div, abs_of_pos hcq]
    rw [Int.sign_eq_neg_one_of_neg hs, hqa, hq]
    push_cast
    have e : -1 * (K : ℚ) - -(|(sum : ℚ)| / (count : ℚ)) = -((K : ℚ) - |(sum : ℚ)| / (count : ℚ)) := by
      ring
    rw [e, abs_neg, neg_one_mul, abs_neg]
    constructor
    · rw [abs_le]; constructor <;> linarith
    · intro h
      have hk : (K : ℚ) - |(sum : ℚ)| / (count : ℚ) = 1 / 2 := by
        rcases abs_eq (by norm_num : (0 : ℚ) ≤ 1 / 2) |>.1 h with h3 | h3
        · exact h3
        · linarith
      have : |(K : ℚ)| = (K : ℚ) := abs_of_nonneg (by
        have := div_nonneg (abs_nonneg (sum : ℚ)) (le_of_lt hcq)
        linarith)
      rw [this]; linarith
  · subst hs
    simp
  · have hsa : |(sum : ℚ)| = (sum : ℚ) := abs_of_pos (by exact_mod_cast hs)
    have hqa : |(sum : ℚ) / (count : ℚ)| = |(sum : ℚ)| / (count : ℚ) := by
      rw [abs_div, abs_of_pos hcq]
    rw [Int.sign_eq_one_of_pos hs, hqa]
    rw [hsa] at hlo hhi ⊢
    push_cast
    rw [one_mul]
    constructor
    · rw [abs_le]; constructor <;> linarith
    · intro h
      have hk : (K : ℚ) - (sum : ℚ) / (count : ℚ) = 1 / 2 := by
        rcases abs_eq (by norm_num : (0 : ℚ) ≤ 1 / 2) |>.1 h with h3 | h3
        · exact h3
        · linarith
      have : |(K : ℚ)| = (K : ℚ) := abs_of_nonneg (by
        have := div_nonneg (le_of_lt (by exact_mod_cast hs : (0 : ℚ) < (sum : ℚ))) (le_of_lt hcq)
        linarith)
      rw [this]; linarith

/-- C8 at `sum = -5`, `count = 2`: the mean -2.5 tenths rounds to -3. -/
theorem round_temp_rounded_correct_witness :
    (1 : Int) ≤ 2 ∧ (2 : Int) < 2 ^ 31 ∧ |((-5 : Int) : ℚ) / ((2 : Int) : ℚ)| ≤ 999 ∧
    ∃ r : Int, round_temp_rounded (-5) 2 = some r ∧
      r = Int.sign (-5) * ((2 * |(-5 : Int)| + 2) / (2 * 2)) ∧
      |(r : ℚ) - ((-5 : Int) : ℚ) / ((2 : Int) : ℚ)| ≤ 1 / 2 ∧
      (|(r : ℚ) - ((-5 : Int) : ℚ) / ((2 : Int) : ℚ)| = 1 / 2 →
        |((-5 : Int) : ℚ) / ((2 : Int) : ℚ)| < |(r : ℚ)|) :=
  ⟨by decide, by decide, by norm_num [abs_le],
    round_temp_rounded_correct (-5) 2 (by decide) (by decide) (by norm_num [abs_le])⟩

/-! ### Formatted output of values in tenths -/

theorem dec_digits_loop_length : ∀ (fuel n : Nat) (acc : List Nat), 0 < fuel →
    acc.length + 1 ≤ (dec_digits_loop fuel n acc).length := by
  intro fuel
  induction fuel with
  | zero => intro n acc h; omega
  | succ f ih =>
    intro n acc _
    rw [dec_digits_loop]
    by_cases hn : n < 10
    · rw [if_pos hn]; simp
    · rw [if_neg hn]
      by_cases hf : f = 0
      · subst hf; simp [dec_digits_loop]
      · have := ih (n / 10) ((48 + n % 10) :: acc) (by omega)
        simp only [List.length_cons] at this
        omega

theorem dec_digits_small {n : Nat} (h : n < 10) : dec_digits n = [48 + n] := by
  simp [dec_digits, dec_digits_loop, h]

theorem dec_digits_two {n : Nat} (h1 : 10 ≤ n) (h2 : n < 100) :
    dec_digits n = [48 + n / 10, 48 + n % 10] := by
  have h3 : ¬ n < 10 := by omega
  have h4 : n / 10 < 10 := by omega
  obtain ⟨m, rfl⟩ : ∃ m, n = m + 1 := ⟨n - 1, by omega⟩
  simp only [dec_digits, dec_digits_loop, h3, if_false, h4, if_true]

theorem dec_digits_length_two {n : Nat} (h : 10 ≤ n) : 2 ≤ (dec_digits n).length := by
  have h3 : ¬ n < 10 := by omega
  unfold dec_digits
  rw [dec_digits_loop, if_neg h3]
  have := dec_digits_loop_length n (n / 10) [48 + n % 10] (by omega)
  simpa using this

theorem dec_digits_head (n : Nat) : ∃ d rest, dec_digits n = d :: rest ∧ 48 ≤ d := by
  by_cases h : n < 10
  · exact ⟨48 + n, [], dec_digits_small h, by omega⟩
  · have hgen : ∀ (fuel m : Nat) (acc : List Nat), m < fuel →
        ∃ d rest, dec_digits_loop fuel m acc = d :: rest ∧ 48 ≤ d := by
      intro fuel
      induction fuel with
      | zero => intro m acc hm; omega
      | succ f ih =>
        intro m acc hm
        rw [dec_digits_loop]
        by_cases hm10 : m < 10
        · rw [if_pos hm10]; exact ⟨48 + m, acc, rfl, by omega⟩
        · rw [if_neg hm10]
          exact ih (m / 10) _ (by omega)
    exact hgen (n + 1) n [] (by omega)

/-- The display form of a value in tenths is never `-0.0`. -/
theorem render_tenths_ne_neg_zero (r : Int) : render_tenths r ≠ [45, 48, 46, 48] := by
  unfold render_tenths
  by_cases hr : r < 0
  · rw [if_pos hr]
    intro h
    simp only [List.singleton_append, List.cons_append, List.cons.injEq, true_and] at h
    by_cases h10 : r.natAbs / 10 < 10
    · rw [dec_digits_small h10] at h
      simp only [List.singleton_append, List.cons.injEq, List.cons_append, List.nil_append,
        and_true, true_and] at h
      omega
    · have hl := dec_digits_length_two (n := r.natAbs / 10) (by omega)
      have := congrArg List.length h
      simp only [List.length_append, List.length_cons, List.length_nil] at this
      omega
  · rw [if_neg hr]
    obtain ⟨d, rest, hd, h48⟩ := dec_digits_head (r.natAbs / 10)
    rw [hd]
    intro h
    simp only [List.nil_append, List.cons_append, List.cons.injEq] at h
    omega

theorem round_half_even_int (N : Int) : round_half_even (N : ℚ) = N :=
  round_half_even_near (by linarith) (by linarith)

theorem fl64_add_zero (q : ℚ) : fl64 (q + 0) = fl64 q := by rw [add_zero]

/-- What the reporter prints for a min or max field: the quotient by `10.0`, the
addition of `0.0`, and `%.1f` give the display form of the value in tenths. -/
theorem printf_tenths (r : Int) (hr : |r| ≤ 2 ^ 31) :
    printf_1f (fl64 (fl64 ((r : ℚ) / 10) + 0)) = render_tenths r := by
  by_cases h0 : r = 0
  · subst h0
    have e : (round_half_even 0).natAbs = 0 := by
      have := round_half_even_int 0
      simp only [Int.cast_zero] at this
      rw [this]; rfl
    simp [printf_1f, render_tenths, fl64_zero, e]
  · -- a grid of 1/256 around r / 10
    have hd := Int.ediv_add_emod (256 * r) 10
    have hm1 := Int.emod_nonneg (256 * r) (by norm_num : (10 : Int) ≠ 0)
    have hm2 := Int.emod_lt_of_pos (256 * r) (by norm_num : (0 : Int) < 10)
    generalize (256 * r) / 10 = N at hd
    generalize (256 * r) % 10 = R at hd hm1 hm2
    have hrq : |(r : ℚ)| ≤ 2 ^ 31 := by
      have : ((|r| : Int) : ℚ) ≤ ((2 ^ 31 : Int) : ℚ) := by exact_mod_cast hr
      push_cast at this
      exact this
    have hlo : ((N : Int) : ℚ) / 2 ^ 8 ≤ (r : ℚ) / 10 := by
      have : 10 * N ≤ 256 * r := by omega
      have : (10 : ℚ) * (N : ℚ) ≤ 256 * (r : ℚ) := by exact_mod_cast this
      rw [div_le_div_iff₀ (by norm_num) (by norm_num)]
      norm_num
      linarith
    have hhi : (r : ℚ) / 10 ≤ ((N + 1 : Int) : ℚ) / 2 ^ 8 := by
      have : 256 * r ≤ 10 * (N + 1) := by omega
      have : (256 : ℚ) * (r : ℚ) ≤ 10 * ((N : ℚ) + 1) := by exact_mod_cast this
      rw [div_le_div_iff₀ (by norm_num) (by norm_num)]
      push_cast
      norm_num
      linarith
    have hgap : ((N + 1 : Int) : ℚ) / 2 ^ 8 - ((N : Int) : ℚ) / 2 ^ 8 = 1 / 256 := by
      push_cast; norm_num; ring
    have hbnd : ∀ q : ℚ, ((N : Int) : ℚ) / 2 ^ 8 ≤ q → q ≤ ((N + 1 : Int) : ℚ) / 2 ^ 8 →
        |q| < (2 : ℚ) ^ ((53 : Int) - (8 : Nat)) := by
      intro q h1 h2
      have ha := abs_le.1 hrq
      rw [abs_lt]
      norm_num
      constructor <;> linarith [ha.1, ha.2]
    have hx1a := (fl64_grid 8 N (hbnd _ hlo hhi)).1 hlo
    have hx1b := (fl64_grid 8 (N + 1) (hbnd _ hlo hhi)).2 hhi
    rw [add_zero]
    have hx2a := (fl64_grid 8 N (hbnd _ hx1a hx1b)).1 hx1a
    have hx2b := (fl64_grid 8 (N + 1) (hbnd _ hx1a hx1b)).2 hx1b
    generalize fl64 (fl64 ((r : ℚ) / 10)) = x at hx2a hx2b
    have hnear1 : (r : ℚ) - 10 / 256 ≤ x * 10 := by linarith
    have hnear2 : x * 10 ≤ (r : ℚ) + 10 / 256 := by linarith
    unfold printf_1f render_tenths
    simp only
    rcases lt_or_gt_of_ne h0 with hneg | hpos
    · have hrq1 : (r : ℚ) ≤ -1 := by
        have : r ≤ -1 := by omega
        exact_mod_cast this
      have hx : x < 0 := by linarith
      have hn : round_half_even (|x| * 10) = -r := by
        apply round_half_even_near
        · rw [abs_of_neg hx]; push_cast; linarith
        · rw [abs_of_neg hx]; push_cast; linarith
      rw [hn, if_pos hx, if_pos hneg, Int.natAbs_neg]
    · have hrq1 : (1 : ℚ) ≤ (r : ℚ) := by
        have : 1 ≤ r := by omega
        exact_mod_cast this
      have hx : 0 < x := by linarith
      have hn : round_half_even (|x| * 10) = r := by
        apply round_half_even_near
        · rw [abs_of_pos hx]; linarith
        · rw [abs_of_pos hx]; linarith
      rw [hn, if_neg (not_lt.2 (le_of_lt hx)), if_neg (not_lt.2 (le_of_lt hpos))]

/-! ### C9: no field is printed as `-0.0` -/

theorem printf_zero : printf_1f (fl64 ((0 : ℚ) + 0)) = [48, 46, 48] := by
  have := printf_tenths 0 (by norm_num)
  simp only [Int.cast_zero, zero_div, fl64_zero] at this
  rw [this]
  decide

theorem to_int_range {q : ℚ} {r : Int} (h : to_int q = some r) : |r| ≤ 2 ^ 31 := by
  unfold to_int at h
  simp only at h
  split_ifs at h with h1
  all_goals
    simp only [Option.some.injEq] at h
    rw [← h, abs_le]
    omega

theorem round_temp_rounded_range {sum count r : Int}
    (h : round_temp_rounded sum count = some r) : |r| ≤ 2 ^ 31 := by
  unfold round_temp_rounded at h
  split_ifs at h with h1
  exact to_int_range h

/-- C9: for every entry with `1 ≤ count` (an `int`) and `int` min and max: if the
mean rounds to zero tenths, `round_temp` returns 0 and the mean field is printed as
`0.0`; a negative sum with `|sum / count| < 1/2` does round to zero; and neither the
min field, nor the max field, nor the mean field (whenever `round_temp` is defined)
is printed as `-0.0`. -/
theorem render_no_negative_zero (s : Station) (hc1 : 1 ≤ s.count) (hc2 : s.count < 2 ^ 31)
    (hmin : |s.min| ≤ 2 ^ 31) (hmax : |s.max| ≤ 2 ^ 31) :
    (round_temp_rounded s.sum s.count = some 0 →
      round_temp s.sum s.count = some 0 ∧ printf_1f (fl64 ((0 : ℚ) + 0)) = [48, 46, 48]) ∧
    (s.sum < 0 → 2 * |s.sum| < s.count → round_temp_rounded s.sum s.count = some 0) ∧
    printf_1f (fl64 (fl64 ((s.min : ℚ) / 10) + 0)) ≠ [45, 48, 46, 48] ∧
    printf_1f (fl64 (fl64 ((s.max : ℚ) / 10) + 0)) ≠ [45, 48, 46, 48] ∧
    ∀ m, round_temp s.sum s.count = some m → printf_1f (fl64 (m + 0)) ≠ [45, 48, 46, 48] := by
  refine ⟨?_, ?_, ?_, ?_, ?_⟩
  · intro h
    refine ⟨?_, printf_zero⟩
    simp [round_temp, h]
  · intro hneg hsmall
    have hcq : (0 : ℚ) < (s.count : ℚ) := by exact_mod_cast (by omega : (0 : Int) < s.count)
    have habs : |(s.sum : ℚ) / (s.count : ℚ)| ≤ 999 := by
      rw [abs_div, abs_of_pos hcq, div_le_iff₀ hcq]
      have : 2 * |s.sum| ≤ s.count := le_of_lt hsmall
      have : ((2 * |s.sum| : Int) : ℚ) ≤ (s.count : ℚ) := by exact_mod_cast this
      push_cast at this
      nlinarith [abs_nonneg (s.sum : ℚ)]
    rw [round_temp_rounded_eq s.sum s.count hc1 hc2 habs]
    have : (2 * |s.sum| + s.count) / (2 * s.count) = 0 :=
      Int.ediv_eq_zero_of_lt (by positivity) (by omega)
    rw [this, mul_zero]
  · rw [printf_tenths _ hmin]; exact render_tenths_ne_neg_zero _
  · rw [printf_tenths _ hmax]; exact render_tenths_ne_neg_zero _
  · intro m hm
    unfold round_temp at hm
    cases hr : round_temp_rounded s.sum s.count with
    | none => rw [hr] at hm; simp at hm
    | some r =>
      rw [hr] at hm
      simp only [Option.bind_eq_bind, Option.some_bind] at hm
      by_cases h0 : r = 0
      · rw [if_pos h0] at hm
        simp only [Option.some.injEq] at hm
        rw [← hm, printf_zero]
        decide
      · rw [if_neg h0] at hm
        simp only [Option.some.injEq] at hm
        rw [← hm, printf_tenths _ (round_temp_rounded_range hr)]
        exact render_tenths_ne_neg_zero _

/-- C9 at the entry with sum -1, count 3, min -5, max 4. -/
theorem render_no_negative_zero_witness :
    (1 : Int) ≤ (⟨[97], -1, 3, -5, 4⟩ : Station).count ∧
    (⟨[97], -1, 3, -5, 4⟩ : Station).count < 2 ^ 31 ∧
    |(⟨[97], -1, 3, -5, 4⟩ : Station).min| ≤ 2 ^ 31 ∧
    |(⟨[97], -1, 3, -5, 4⟩ : Station).max| ≤ 2 ^ 31 ∧
    ((round_temp_rounded (⟨[97], -1, 3, -5, 4⟩ : Station).sum (⟨[97], -1, 3, -5, 4⟩ : Station).count
        = some 0 →
      round_temp (⟨[97], -1, 3, -5, 4⟩ : Station).sum (⟨[97], -1, 3, -5, 4⟩ : Station).count = some 0 ∧
        printf_1f (fl64 ((0 : ℚ) + 0)) = [48, 46, 48]) ∧
    ((⟨[97], -1, 3, -5, 4⟩ : Station).sum < 0 →
      2 * |(⟨[97], -1, 3, -5, 4⟩ : Station).sum| < (⟨[97], -1, 3, -5, 4⟩ : Station).count →
      round_temp_rounded (⟨[97], -1, 3, -5, 4⟩ : Station).sum (⟨[97], -1, 3, -5, 4⟩ : Station).count
        = some 0) ∧
    printf_1f (fl64 (fl64 (((⟨[97], -1, 3, -5, 4⟩ : Station).min : ℚ) / 10) + 0))
      ≠ [45, 48, 46, 48] ∧
    printf_1f (fl64 (fl64 (((⟨[97], -1, 3, -5, 4⟩ : Station).max : ℚ) / 10) + 0))
      ≠ [45, 48, 46, 48] ∧
    ∀ m, round_temp (⟨[97], -1, 3, -5, 4⟩ : Station).sum (⟨[97], -1, 3, -5, 4⟩ : Station).count
      = some m → printf_1f (fl64 (m + 0)) ≠ [45, 48, 46, 48]) :=
  ⟨by decide, by decide, by decide, by decide,
    render_no_negative_zero ⟨[97], -1, 3, -5, 4⟩ (by decide) (by decide) (by decide) (by decide)⟩

/-! ### C13: display form and `parse_temp` -/

/-- The display form of a value in `[-999, 999]` is a value text of the grammar with
that value. -/
theorem render_tenths_value_text (v : Int) (h1 : -999 ≤ v) (h2 : v ≤ 999) :
    ∃ t : ValueText, t.wf ∧ t.bytes = render_tenths v ∧ t.tenths = v := by
  have ha : v.natAbs ≤ 999 := by omega
  by_cases h10 : v.natAbs / 10 < 10
  · refine ⟨⟨decide (v < 0), none, v.natAbs / 10, v.natAbs % 10⟩, ?_, ?_, ?_⟩
    · refine ⟨fun t ht => by simp at ht, ?_, ?_⟩ <;> simp only <;> omega
    · unfold ValueText.bytes render_tenths
      rw [dec_digits_small h10]
      by_cases hv : v < 0 <;> simp [hv]
    · unfold ValueText.tenths
      by_cases hv : v < 0
      · simp only [hv, decide_True, if_true, Option.getD_none]
        omega
      · simp only [hv, decide_False, Bool.false_eq_true, if_false, Option.getD_none]
        omega
  · refine ⟨⟨decide (v < 0), some (v.natAbs / 10 / 10), v.natAbs / 10 % 10, v.natAbs % 10⟩,
      ?_, ?_, ?_⟩
    · refine ⟨fun t ht => ?_, ?_, ?_⟩
      · simp only [Option.some.injEq] at ht
        omega
      · simp only; omega
      · simp only; omega
    · unfold ValueText.bytes render_tenths
      rw [dec_digits_two (by omega) (by omega)]
      by_cases hv : v < 0 <;> simp [hv]
    · unfold ValueText.tenths
      by_cases hv : v < 0
      · simp only [hv, decide_True, if_true, Option.getD_some]
        omega
      · simp only [hv, decide_False, Bool.false_eq_true, if_false, Option.getD_some]
        omega

/-- C13: for every integer `v` in `[-999, 999]`, what the reporter prints for a min
or max of `v` tenths is the display form of `v`, and `parse_temp` on that text
followed by a newline, anywhere in a buffer, returns `v` and the position after the
newline; parsing `23.4` gives 234, parsing `-5.0` gives -50, and 234 is printed as
`23.4`. -/
theorem render_parse_roundtrip (v : Int) (h1 : -999 ≤ v) (h2 : v ≤ 999) (pre post : List Nat) :
    printf_1f (fl64 (fl64 ((v : ℚ) / 10) + 0)) = render_tenths v ∧
    parse_temp (pre ++ (render_tenths v ++ 10 :: post)) pre.length
      = some (v, pre.length + (render_tenths v).length + 1) ∧
    parse_temp (ascii "23.4" ++ [10]) 0 = some (234, 5) ∧
    parse_temp (ascii "-5.0" ++ [10]) 0 = some (-50, 5) ∧
    printf_1f (fl64 (fl64 (((234 : Int) : ℚ) / 10) + 0)) = ascii "23.4" := by
  refine ⟨printf_tenths v (by rw [abs_le]; omega), ?_, by decide, by decide, ?_⟩
  · obtain ⟨t, hwf, hb, ht⟩ := render_tenths_value_text v h1 h2
    rw [← hb, ← ht]
    exact parse_temp_bytes t hwf pre post
  · rw [printf_tenths 234 (by norm_num)]
    decide

/-- C13 at `v = -34` inside the buffer `a;-3.4\nb`. -/
theorem render_parse_roundtrip_witness :
    (-999 : Int) ≤ -34 ∧ (-34 : Int) ≤ 999 ∧
    printf_1f (fl64 (fl64 (((-34 : Int) : ℚ) / 10) + 0)) = render_tenths (-34) ∧
    parse_temp ([97, 59] ++ (render_tenths (-34) ++ 10 :: [98])) [97, 59].length
      = some (-34, [97, 59].length + (render_tenths (-34)).length + 1) ∧
    parse_temp (ascii "23.4" ++ [10]) 0 = some (234, 5) ∧
    parse_temp (ascii "-5.0" ++ [10]) 0 = some (-50, 5) ∧
    printf_1f (fl64 (fl64 (((234 : Int) : ℚ) / 10) + 0)) = ascii "23.4" :=
  ⟨by decide, by decide, render_parse_roundtrip (-34) (by decide) (by decide) [97, 59] [98]⟩

/-! ### C15: the combine step is associative and commutative -/

theorem combine_eq (a b : Acc) :
    combine a b =
      { sum := wrap64 (a.sum + b.sum), count := wrap32 (a.count + b.count),
        min := Min.min a.min b.min, max := Max.max a.max b.max } := by
  unfold combine
  simp only
  by_cases h1 : b.min < a.min <;> by_cases h2 : b.max > a.max <;>
    simp [h1, h2, min_def, max_def] <;> omega

/-- C15: the combine step of `merge_tables`, as an operation on accumulators (sum,
count, min, max), is what `merge_tables` does to the fields of the global entry, and
it is associative and commutative. -/
theorem combine_assoc_comm :
    (∀ gs ls : Station, (combine_station gs ls).acc = combine gs.acc ls.acc) ∧
    (∀ a b c : Acc, combine (combine a b) c = combine a (combine b c)) ∧
    (∀ a b : Acc, combine a b = combine b a) := by
  refine ⟨?_, ?_, ?_⟩
  · intro gs ls
    rw [combine_station_eq, combine_eq]
    rfl
  · intro a b c
    simp only [combine_eq, wrap64_wrap64_add, wrap32_wrap32_add, wrap64_add_wrap64,
      wrap32_add_wrap32, min_assoc, max_assoc, add_assoc]
  · intro a b
    simp only [combine_eq]
    rw [add_comm a.sum, add_comm a.count, min_comm, max_comm]

/-! ### C11: `process_chunk` does not depend on the order of the lines -/

theorem min_right_comm (a b c : Int) : Min.min (Min.min a b) c = Min.min (Min.min a c) b := by
  rw [min_assoc, min_comm b c, ← min_assoc]

theorem max_right_comm (a b c : Int) : Max.max (Max.max a b) c = Max.max (Max.max a c) b := by
  rw [max_assoc, max_comm b c, ← max_assoc]

theorem foldl_min_perm {l l2 : List Int} (hp : l2.Perm l) (a : Int) :
    l2.foldl Min.min a = l.foldl Min.min a :=
  List.Perm.foldl_eq' hp (fun x _ y _ z => min_right_comm z x y) a

theorem foldl_max_perm {l l2 : List Int} (hp : l2.Perm l) (a : Int) :
    l2.foldl Max.max a = l.foldl Max.max a :=
  List.Perm.foldl_eq' hp (fun x _ y _ z => max_right_comm z x y) a

/-- The reference aggregation does not depend on the order of the lines. -/
theorem aggregate_perm {lines lines2 : List Line} (hp : lines2.Perm lines) :
    aggregate (fun _ => none) lines2 = aggregate (fun _ => none) lines := by
  funext k
  have ht : (temps_of k lines2).Perm (temps_of k lines) := by
    unfold temps_of
    exact (hp.filter _).map _
  have hk : k ∈ lines2.map Line.key ↔ k ∈ lines.map Line.key := (hp.map _).mem_iff
  rw [aggregate_entry, aggregate_entry, ht.sum_eq, ht.length_eq, foldl_min_perm ht,
    foldl_max_perm ht]
  by_cases h : k ∈ lines.map Line.key
  · rw [if_pos h, if_pos (hk.2 h)]
  · rw [if_neg h, if_neg (fun h2 => h (hk.1 h2))]

/-- C11: for every list of well-formed lines with at most 10000 distinct keys and
every permutation of it, `process_chunk` on the permuted lines and on the original
lines both end, and the two tables hold the same entries: for each key the same sum,
count, min and max. -/
theorem process_chunk_perm (lines lines2 : List Line) (hp : lines2.Perm lines)
    (hwf : ∀ l ∈ lines, l.wf) (hcard : (lines.map Line.key).dedup.length ≤ MAX_STATIONS)
    (pre post pre2 post2 : List Nat) :
    ∃ fuel ht ht2,
      process_chunk fuel (pre ++ (encode lines ++ post)) pre.length
        (pre.length + (encode lines).length) = some (ht, pre.length + (encode lines).length) ∧
      process_chunk fuel (pre2 ++ (encode lines2 ++ post2)) pre2.length
        (pre2.length + (encode lines2).length)
          = some (ht2, pre2.length + (encode lines2).length) ∧
      ∀ s, HasEntry ht s ↔ HasEntry ht2 s := by
  have hwf2 : ∀ l ∈ lines2, l.wf := fun l hl => hwf l (hp.mem_iff.1 hl)
  have hcard2 : (lines2.map Line.key).dedup.length ≤ MAX_STATIONS := by
    refine le_trans (dedup_length_mono ?_) hcard
    intro k hk
    exact ((hp.map _).mem_iff).1 hk
  have hl : lines2.length = lines.length := hp.length_eq
  obtain ⟨ht, hrun, hR⟩ := process_chunk_represents pre post lines hwf hcard
    (lines.length + HASH_TABLE_SIZE + 1) (le_refl _)
  obtain ⟨ht2, hrun2, hR2⟩ := process_chunk_represents pre2 post2 lines2 hwf2 hcard2
    (lines.length + HASH_TABLE_SIZE + 1) (by omega)
  refine ⟨_, ht, ht2, hrun, hrun2, fun s => ?_⟩
  rw [hR.entries, hR2.entries, aggregate_perm hp]

/-- C11 on the lines of the end-to-end example and their reversal. -/
theorem process_chunk_perm_witness :
    example_lines.reverse.Perm example_lines ∧ (∀ l ∈ example_lines, l.wf) ∧
    (example_lines.map Line.key).dedup.length ≤ MAX_STATIONS ∧
    ∃ fuel ht ht2,
      process_chunk fuel ([] ++ (encode example_lines ++ [])) ([] : List Nat).length
        (([] : List Nat).length + (encode example_lines).length)
          = some (ht, ([] : List Nat).length + (encode example_lines).length) ∧
      process_chunk fuel ([] ++ (encode example_lines.reverse ++ [])) ([] : List Nat).length
        (([] : List Nat).length + (encode example_lines.reverse).length)
          = some (ht2, ([] : List Nat).length + (encode example_lines.reverse).length) ∧
      ∀ s, HasEntry ht s ↔ HasEntry ht2 s :=
  ⟨List.reverse_perm _, by decide, by decide,
    process_chunk_perm example_lines example_lines.reverse (List.reverse_perm _) (by decide)
      (by decide) [] [] [] []⟩

/-! ### C16 and C17: `find_or_create`, slot by slot -/

/-- On a table with an empty slot the probing for a key that no occupied slot holds
stops at an empty slot, which receives the fresh entry. -/
theorem find_or_create_absent_run {ht : HashTable} {key : List Nat}
    (habs : ∀ i, i < HASH_TABLE_SIZE → occupied ht i → (ht.stations i).name ≠ key)
    (hroom : ∃ e, e < HASH_TABLE_SIZE ∧ ¬ occupied ht e) :
    ∃ j, j < HASH_TABLE_SIZE ∧ ¬ occupied ht j ∧
      ∀ fuel, HASH_TABLE_SIZE ≤ fuel →
        find_or_create fuel ht key =
          some ({ stations := Function.update ht.stations j (fresh_station key),
                  count := wrap32 (ht.count + 1) }, j) := by
  classical
  obtain ⟨e, he, hoe⟩ := hroom
  obtain ⟨de, hde, hdee⟩ := probe_slot_surj (h := home key) he
  have hex : ∃ d, d < HASH_TABLE_SIZE ∧ ¬ occupied ht (probe_slot (home key) d) :=
    ⟨de, hde, by rw [hdee]; exact hoe⟩
  have hd0 := Nat.find_spec hex
  have hmin : ∀ d2, d2 < Nat.find hex → occupied ht (probe_slot (home key) d2) := by
    intro d2 hd2
    by_contra hc
    exact Nat.find_min hex hd2 ⟨by omega, hc⟩
  refine ⟨probe_slot (home key) (Nat.find hex), probe_slot_lt _ _, hd0.2, ?_⟩
  intro fuel hf
  have hrun := find_or_create_loop_run ht key (Nat.find hex) (home key) fuel (home_lt _)
    (by omega) (fun d2 hd2 => ⟨hmin d2 hd2, habs _ (probe_slot_lt _ _) (hmin d2 hd2)⟩)
    (Or.inl hd0.2)
  unfold find_or_create
  rw [show hash_name key &&& (HASH_TABLE_SIZE - 1) = home key from rfl, hrun, if_neg hd0.2]

/-- For a name that fits the array `name` of an entry, the checked probing loop is the
probing loop. -/
theorem find_or_create_in_bounds_loop_eq (ht : HashTable) (name : List Nat)
    (hlen : name.length ≤ MAX_NAME_LEN) : ∀ (fuel idx : Nat),
    find_or_create_in_bounds_loop ht name fuel idx = find_or_create_loop ht name fuel idx := by
  intro fuel
  induction fuel with
  | zero => intro idx; rfl
  | succ f ih =>
    intro idx
    rw [find_or_create_in_bounds_loop, find_or_create_loop]
    simp only [if_pos hlen]
    rw [ih]

theorem find_or_create_in_bounds_eq (fuel : Nat) (ht : HashTable) (name : List Nat)
    (hlen : name.length ≤ MAX_NAME_LEN) :
    find_or_create_in_bounds fuel ht name = find_or_create fuel ht name :=
  find_or_create_in_bounds_loop_eq ht name hlen fuel _

/-- A name that does not fit the array `name` of an entry is never created: when the
probing loop creates an entry for it, the checked loop has no result. -/
theorem find_or_create_in_bounds_loop_long (ht : HashTable) (name : List Nat)
    (hlen : MAX_NAME_LEN < name.length) : ∀ (fuel idx : Nat) (ht1 : HashTable) (i : Nat),
    find_or_create_loop ht name fuel idx = some (ht1, i) → ¬ occupied ht i →
    find_or_create_in_bounds_loop ht name fuel idx = none := by
  intro fuel
  induction fuel with
  | zero => intro idx ht1 i h; simp [find_or_create_loop] at h
  | succ f ih =>
    intro idx ht1 i h hno
    rw [find_or_create_loop] at h
    rw [find_or_create_in_bounds_loop]
    by_cases h0 : (ht.stations idx).name_len = 0
    · rw [if_pos h0, if_neg (by omega)]
    · rw [if_neg h0] at h ⊢
      by_cases h1 : (ht.stations idx).name_len = name.length ∧ (ht.stations idx).name = name
      · rw [if_pos h1] at h
        simp only [Option.some.injEq, Prod.mk.injEq] at h
        exact absurd (h.2 ▸ h0 : ¬ (ht.stations i).name_len = 0) (fun hc => hc (by
          by_contra hne
          exact hno hne))
      · rw [if_neg h1] at h ⊢
        exact ih _ ht1 i h hno

/-- C17 (amended): the table invariant (no two occupied slots hold the same key; every
slot on the probing path from the home slot of an occupied slot's key up to that slot
is occupied) holds of the zeroed table, and every `find_or_create` call with a key of at
most `MAX_NAME_LEN` = 100 bytes on a table that satisfies it and has an empty slot
returns (for every fuel that covers one probing cycle), with every store inside the
array `name` of the entry, and keeps it; no occupied slot becomes empty, no slot other
than the returned one changes, and the names of the table stay within 100 bytes when
they were.  The key may be empty. -/
theorem find_or_create_keeps_invariant (ht : HashTable) (key : List Nat) (hinv : TableInv ht)
    (hroom : ∃ e, e < HASH_TABLE_SIZE ∧ ¬ occupied ht e) (hlen : key.length ≤ MAX_NAME_LEN) :
    TableInv zero_table ∧
    ∃ ht1 idx, idx < HASH_TABLE_SIZE ∧
      (∀ fuel, HASH_TABLE_SIZE ≤ fuel → find_or_create fuel ht key = some (ht1, idx)) ∧
      (∀ fuel, HASH_TABLE_SIZE ≤ fuel → find_or_create_in_bounds fuel ht key = some (ht1, idx)) ∧
      TableInv ht1 ∧ (∀ i, occupied ht i → occupied ht1 i) ∧
      (∀ i, i ≠ idx → ht1.stations i = ht.stations i) ∧
      ((∀ i, (ht.stations i).name.length ≤ MAX_NAME_LEN) →
        ∀ i, (ht1.stations i).name.length ≤ MAX_NAME_LEN) := by
  refine ⟨tableInv_zero, ?_⟩
  by_cases hpres : ∃ i, i < HASH_TABLE_SIZE ∧ occupied ht i ∧ (ht.stations i).name = key
  · obtain ⟨i, hi, ho, hn⟩ := hpres
    have hrun : ∀ fuel, HASH_TABLE_SIZE ≤ fuel → find_or_create fuel ht key = some (ht, i) := by
      intro fuel hf
      have := find_or_create_present hinv hi ho fuel hf
      rwa [hn] at this
    refine ⟨ht, i, hi, hrun, ?_, hinv, fun _ h => h, fun _ _ => rfl, fun h => h⟩
    intro fuel hf
    rw [find_or_create_in_bounds_eq fuel ht key hlen]
    exact hrun fuel hf
  · have habs : ∀ i, i < HASH_TABLE_SIZE → occupied ht i → (ht.stations i).name ≠ key :=
      fun i hi ho hn => hpres ⟨i, hi, ho, hn⟩
    obtain ⟨j, hj, hoj, hfind⟩ := find_or_create_absent_run habs hroom
    have hocc : ∀ i, occupied ht i → occupied (create_entry ht j key) i := by
      intro i h
      have hij : i ≠ j := fun e => hoj (e ▸ h)
      rw [occupied_iff_name] at h ⊢
      simpa [create_entry, Function.update_noteq hij] using h
    refine ⟨create_entry ht j key, j, hj, hfind, ?_, ?_, hocc, ?_, ?_⟩
    · intro fuel hf
      rw [find_or_create_in_bounds_eq fuel ht key hlen]
      exact hfind fuel hf
    · by_cases hkey : key = []
      · apply tableInv_of_names hinv
        intro i
        by_cases hij : i = j
        · subst hij
          have : (ht.stations i).name = [] := by
            by_contra hne
            exact hoj ((occupied_iff_name _ _).2 hne)
          simp [create_entry, fresh_station, hkey, this]
        · simp [create_entry, Function.update_noteq hij]
      · obtain ⟨j2, hj2, hoj2, hinv2, hfind2⟩ := find_or_create_absent hinv hkey habs hroom
        have e := (hfind HASH_TABLE_SIZE (le_refl _)).symm.trans (hfind2 HASH_TABLE_SIZE (le_refl _))
        simp only [Option.some.injEq, Prod.mk.injEq] at e
        rw [← e.2] at hinv2
        exact hinv2
    · intro i hij
      simp [create_entry, Function.update_noteq hij]
    · intro hall i
      by_cases hij : i = j
      · subst hij
        simpa [create_entry, fresh_station] using hlen
      · simpa [create_entry, Function.update_noteq hij] using hall i

/-- C17 on the zeroed table and the key `a`. -/
theorem find_or_create_keeps_invariant_witness :
    TableInv zero_table ∧ (∃ e, e < HASH_TABLE_SIZE ∧ ¬ occupied zero_table e) ∧
    [97].length ≤ MAX_NAME_LEN ∧
    TableInv zero_table ∧
    ∃ ht1 idx, idx < HASH_TABLE_SIZE ∧
      (∀ fuel, HASH_TABLE_SIZE ≤ fuel → find_or_create fuel zero_table [97] = some (ht1, idx)) ∧
      (∀ fuel, HASH_TABLE_SIZE ≤ fuel →
        find_or_create_in_bounds fuel zero_table [97] = some (ht1, idx)) ∧
      TableInv ht1 ∧ (∀ i, occupied zero_table i → occupied ht1 i) ∧
      (∀ i, i ≠ idx → ht1.stations i = zero_table.stations i) ∧
      ((∀ i, (zero_table.stations i).name.length ≤ MAX_NAME_LEN) →
        ∀ i, (ht1.stations i).name.length ≤ MAX_NAME_LEN) :=
  ⟨tableInv_zero, ⟨0, by decide, by decide⟩, by decide,
    find_or_create_keeps_invariant zero_table [97] tableInv_zero ⟨0, by decide, by decide⟩
      (by decide)⟩

/-- C17 as stated fails for the key of 137 bytes `aa...a` on the zeroed table, which
satisfies the invariant and has an empty slot: the call creates the entry, storing 138
bytes through `s->name`, an array of 101 bytes inside an entry of 136 bytes, so that
stores land outside the array and in the next slot; with the stores checked the call
has no result, for any fuel. -/
theorem find_or_create_long_key :
    TableInv zero_table ∧ (∃ e, e < HASH_TABLE_SIZE ∧ ¬ occupied zero_table e) ∧
    MAX_NAME_LEN < (List.replicate 137 97).length ∧
    (∃ ht1 idx, ∀ fuel, HASH_TABLE_SIZE ≤ fuel →
      find_or_create fuel zero_table (List.replicate 137 97) = some (ht1, idx) ∧
      ¬ occupied zero_table idx ∧ (ht1.stations idx).name = List.replicate 137 97) ∧
    ∀ fuel, find_or_create_in_bounds fuel zero_table (List.replicate 137 97) = none := by
  have hroom : ∃ e, e < HASH_TABLE_SIZE ∧ ¬ occupied zero_table e := ⟨0, by decide, by decide⟩
  have hlen : MAX_NAME_LEN < (List.replicate 137 97).length := by
    rw [List.length_replicate]; decide
  have hno : ∀ i, ¬ occupied zero_table i := fun i h => h rfl
  refine ⟨tableInv_zero, hroom, hlen, ?_, ?_⟩
  · have habs : ∀ i, i < HASH_TABLE_SIZE → occupied zero_table i →
        (zero_table.stations i).name ≠ List.replicate 137 97 :=
      fun i _ ho => absurd ho (hno i)
    obtain ⟨j, hj, hoj, hfind⟩ := find_or_create_absent_run habs hroom
    refine ⟨_, j, fun fuel hf => ⟨hfind fuel hf, hoj, ?_⟩⟩
    simp only [Function.update_same, fresh_station]
  · intro fuel
    cases fuel with
    | zero => rfl
    | succ f =>
      unfold find_or_create_in_bounds
      rw [find_or_create_in_bounds_loop, if_pos (by rfl), if_neg (not_le.2 hlen)]

/-! ### The merge of worker tables is the aggregation of all lines -/

theorem foldl_min_min (l : List Int) : ∀ (a b : Int),
    l.foldl Min.min (Min.min a b) = Min.min a (l.foldl Min.min b) := by
  induction l with
  | nil => intro a b; rfl
  | cons x l ih =>
    intro a b
    rw [List.foldl_cons, List.foldl_cons, min_assoc, ih]

theorem foldl_max_max (l : List Int) : ∀ (a b : Int),
    l.foldl Max.max (Max.max a b) = Max.max a (l.foldl Max.max b) := by
  induction l with
  | nil => intro a b; rfl
  | cons x l ih =>
    intro a b
    rw [List.foldl_cons, List.foldl_cons, max_assoc, ih]

theorem foldl_min_sentinel_eq (l : List Int) {a : Int} (ha : a ≤ 9999) :
    Min.min a (l.foldl Min.min 9999) = l.foldl Min.min a := by
  rw [← foldl_min_min, min_eq_left ha]

theorem foldl_max_sentinel_eq (l : List Int) {a : Int} (ha : -9999 ≤ a) :
    Max.max a (l.foldl Max.max (-9999)) = l.foldl Max.max a := by
  rw [← foldl_max_max, max_eq_left ha]

/-- The entry of a key in the aggregation of some lines, by cases. -/
theorem aggregate_entry_shape (k : List Nat) (c : List Line) :
    (aggregate (fun _ => none) c k = none ∧ temps_of k c = [] ∧ k ∉ c.map Line.key) ∨
    ∃ s, aggregate (fun _ => none) c k = some s ∧ k ∈ c.map Line.key ∧ s.name = k ∧
      s.sum = wrap64 (temps_of k c).sum ∧ s.count = wrap32 (temps_of k c).length ∧
      s.min = (temps_of k c).foldl Min.min 9999 ∧
      s.max = (temps_of k c).foldl Max.max (-9999) := by
  rw [aggregate_entry]
  by_cases hk : k ∈ c.map Line.key
  · right
    rw [if_pos hk]
    exact ⟨_, rfl, hk, rfl, rfl, rfl, rfl, rfl⟩
  · left
    rw [if_neg hk]
    exact ⟨rfl, temps_of_eq_nil.2 hk, hk⟩

theorem chunk_entries_fold (k : List Nat) : ∀ (chunks : List (List Line)),
    ((chunks.filterMap (fun c => aggregate (fun _ => none) c k) = [] ↔
        k ∉ chunks.flatten.map Line.key) ∧
      wrap64 ((chunks.filterMap (fun c => aggregate (fun _ => none) c k)).map Station.sum).sum
        = wrap64 (temps_of k chunks.flatten).sum ∧
      wrap32 ((chunks.filterMap (fun c => aggregate (fun _ => none) c k)).map Station.count).sum
        = wrap32 (temps_of k chunks.flatten).length ∧
      (∀ a : Int, a ≤ 9999 →
        ((chunks.filterMap (fun c => aggregate (fun _ => none) c k)).map Station.min).foldl
          Min.min a = (temps_of k chunks.flatten).foldl Min.min a) ∧
      (∀ a : Int, -9999 ≤ a →
        ((chunks.filterMap (fun c => aggregate (fun _ => none) c k)).map Station.max).foldl
          Max.max a = (temps_of k chunks.flatten).foldl Max.max a)) := by
  intro chunks
  induction chunks with
  | nil => exact ⟨by simp, rfl, rfl, fun _ _ => rfl, fun _ _ => rfl⟩
  | cons c chunks ih =>
    obtain ⟨ih0, ih1, ih2, ih3, ih4⟩ := ih
    rw [List.flatten_cons, temps_of_append, List.filterMap_cons]
    have hkeys : k ∉ (c ++ chunks.flatten).map Line.key ↔
        (k ∉ c.map Line.key ∧ k ∉ chunks.flatten.map Line.key) := by
      rw [List.map_append, List.mem_append, not_or]
    rcases aggregate_entry_shape k c with ⟨hagg, he, hk⟩ | ⟨s, hagg, hk, _, hs, hc, hmin, hmax⟩
    · rw [hagg, he, List.nil_append, hkeys]
      exact ⟨⟨fun h => ⟨hk, ih0.1 h⟩, fun h => ih0.2 h.2⟩, ih1, ih2, ih3, ih4⟩
    · rw [hagg, hkeys]
      refine ⟨⟨fun h => by simp at h, fun h => absurd hk h.1⟩, ?_, ?_, ?_, ?_⟩
      · rw [List.map_cons, List.sum_cons, List.sum_append, hs, wrap64_wrap64_add,
          ← wrap64_add_wrap64, ih1, wrap64_add_wrap64]
      · rw [List.map_cons, List.sum_cons, List.length_append, Nat.cast_add, hc,
          wrap32_wrap32_add, ← wrap32_add_wrap32, ih2, wrap32_add_wrap32]
      · intro a ha
        rw [List.map_cons, List.foldl_cons, List.foldl_append, ih3 _ (le_trans (min_le_left _ _) ha),
          hmin, foldl_min_sentinel_eq _ ha]
      · intro a ha
        rw [List.map_cons, List.foldl_cons, List.foldl_append, ih4 _ (le_trans ha (le_max_left _ _)),
          hmax, foldl_max_sentinel_eq _ ha]

theorem entry_of_nil {t : HashTable} : entry_of t [] = none := by
  unfold entry_of
  rw [List.find?_eq_none]
  intro s hs hname
  simp only [decide_eq_true_eq] at hname
  obtain ⟨i, _, ho, rfl⟩ := mem_table_entries.1 hs
  exact (occupied_iff_name _ _).1 ho hname

theorem forall2_inv {chunks : List (List Line)} {ts : List HashTable}
    (hrep : List.Forall₂ (fun lines t => Represents t (aggregate (fun _ => none) lines)) chunks ts) :
    ∀ t ∈ ts, TableInv t := by
  induction hrep with
  | nil => intro t ht; simp at ht
  | cons h _ ih =>
    intro t ht
    rcases List.mem_cons.1 ht with rfl | ht
    · exact h.inv
    · exact ih t ht

/-- The reference merge of worker tables that represent the aggregations of their
chunks is the aggregation of all lines: the parallel scan and a single scan agree. -/
theorem merged_eq_aggregate (chunks : List (List Line)) (ts : List HashTable)
    (hrep : List.Forall₂ (fun lines t => Represents t (aggregate (fun _ => none) lines)) chunks ts)
    (hne : ∀ l ∈ chunks.flatten, l.key ≠ []) :
    merged ts = aggregate (fun _ => none) chunks.flatten := by
  funext k
  rw [merged_entry ts (forall2_inv hrep)]
  by_cases hk : k = []
  · subst hk
    have hw : worker_entries ts [] = [] := by
      unfold worker_entries
      rw [List.filterMap_eq_nil_iff]
      intro t _
      exact entry_of_nil
    rw [if_pos hw, aggregate_entry, if_neg]
    intro h
    obtain ⟨l, hl, e⟩ := List.mem_map.1 h
    exact hne l hl e
  · rw [worker_entries_eq k hk chunks ts hrep]
    obtain ⟨h0, h1, h2, h3, h4⟩ := chunk_entries_fold k chunks
    rw [aggregate_entry, h1, h2, h3 9999 (le_refl _), h4 (-9999) (le_refl _)]
    by_cases hmem : k ∈ chunks.flatten.map Line.key
    · rw [if_pos hmem, if_neg (fun e => h0.1 e hmem)]
    · rw [if_neg hmem, if_pos (h0.2 hmem)]

/-- The entries of a table that represents the aggregation of fewer than 2^31
well-formed lines: counts are positive and the values of the key lie between min and
max, which lie in `[-999, 999]`. -/
theorem aggregate_entry_bounds {t : HashTable} {lines : List Line}
    (hR : Represents t (aggregate (fun _ => none) lines)) (hwf : ∀ l ∈ lines, l.wf)
    (hlen : lines.length < 2 ^ 31) :
    ∀ i, i < HASH_TABLE_SIZE → occupied t i →
      1 ≤ (t.stations i).count ∧ (t.stations i).min ≤ (t.stations i).max ∧
      -999 ≤ (t.stations i).min ∧ (t.stations i).max ≤ 999 ∧
      ∀ v ∈ temps_of (t.stations i).name lines,
        (t.stations i).min ≤ v ∧ v ≤ (t.stations i).max := by
  intro i hi ho
  have hm := (represents_slots hR).1 i hi ho
  generalize (t.stations i).name = k at hm
  rcases aggregate_entry_shape k lines with ⟨hagg, _, _⟩ | ⟨s, hagg, hk, _, _, hc, hmin, hmax⟩
  · rw [hagg] at hm; exact absurd hm (by simp)
  · rw [hagg] at hm
    simp only [Option.some.injEq] at hm
    rw [← hm]
    have hne : temps_of k lines ≠ [] := fun e => temps_of_eq_nil.1 e hk
    have hb := temps_of_bound (k := k) hwf
    have hl := temps_of_length_le k lines
    have hpos : 0 < (temps_of k lines).length := List.length_pos.2 hne
    have h1 := foldl_min_sentinel hne (fun t ht => (hb t ht).2)
    have h2 := foldl_max_sentinel hne (fun t ht => (hb t ht).1)
    rw [← hmin] at h1
    rw [← hmax] at h2
    have hl2 : ((temps_of k lines).length : Int) < 2 ^ 31 := by
      have : (temps_of k lines).length < 2 ^ 31 := lt_of_le_of_lt hl hlen
      exact_mod_cast this
    have hl1 : (1 : Int) ≤ ((temps_of k lines).length : Int) := by exact_mod_cast hpos
    refine ⟨?_, ?_, (hb _ h1.1).1, (hb _ h2.1).2, fun v hv => ⟨h1.2 v hv, h2.2 v hv⟩⟩
    · rw [hc, wrap32_of_range (by omega) hl2]; exact hl1
    · exact h2.2 _ h1.1

/-! ### Tables with up to `HASH_TABLE_SIZE - 1` keys -/

theorem process_chunk_represents_cap (pre post : List Nat) (lines : List Line)
    (hwf : ∀ l ∈ lines, l.wf) (hc : (lines.map Line.key).dedup.length < HASH_TABLE_SIZE)
    (fuel : Nat) (hf : lines.length + HASH_TABLE_SIZE + 1 ≤ fuel) :
    ∃ ht, process_chunk fuel (pre ++ (encode lines ++ post)) pre.length
        (pre.length + (encode lines).length) = some (ht, pre.length + (encode lines).length) ∧
      Represents ht (aggregate (fun _ => none) lines) :=
  process_chunk_loop_spec (lines.map Line.key) hc post lines pre zero_table _ fuel hwf
    (fun l hl => List.mem_map_of_mem _ hl) represents_zero (fun k hk => absurd rfl hk) hf

theorem process_chunk_any_fuel_cap {pre post : List Nat} {lines : List Line}
    (hwf : ∀ l ∈ lines, l.wf) (hc : (lines.map Line.key).dedup.length < HASH_TABLE_SIZE)
    {fuel : Nat} {t : HashTable} {e : Nat}
    (hrun : process_chunk fuel (pre ++ (encode lines ++ post)) pre.length
      (pre.length + (encode lines).length) = some (t, e)) :
    Represents t (aggregate (fun _ => none) lines) := by
  obtain ⟨ht2, hrun2, hR⟩ := process_chunk_represents_cap pre post lines hwf hc
    (Nat.max fuel (lines.length + HASH_TABLE_SIZE + 1)) (Nat.le_max_right _ _)
  have := process_chunk_mono _ _ _ _ fuel
    (Nat.max fuel (lines.length + HASH_TABLE_SIZE + 1)) (Nat.le_max_left _ _) hrun
  rw [this] at hrun2
  simp only [Option.some.injEq, Prod.mk.injEq] at hrun2
  obtain ⟨rfl, _⟩ := hrun2
  exact hR

theorem names_le_of_cover (ts : List HashTable) (ks : List (List Nat))
    (hks : ∀ t ∈ ts, ∀ i, i < HASH_TABLE_SIZE → occupied t i → (t.stations i).name ∈ ks) :
    (table_names ts).dedup.length ≤ ks.dedup.length := by
  rw [← List.card_toFinset, ← List.card_toFinset]
  apply Finset.card_le_card
  intro k hk
  simp only [List.mem_toFinset, table_names, List.mem_map, List.mem_flatten] at hk ⊢
  obtain ⟨s, ⟨_, ⟨t, ht, rfl⟩, hs⟩, rfl⟩ := hk
  obtain ⟨i, hi, ho, rfl⟩ := mem_table_entries.1 hs
  exact hks t ht i hi ho

theorem merge_all_represents_cap (ts : List HashTable)
    (hc : (table_names ts).dedup.length < HASH_TABLE_SIZE)
    (fuel : Nat) (hf : HASH_TABLE_SIZE ≤ fuel) :
    ∃ g, merge_all fuel ts zero_table = some g ∧ Represents g (merged ts) := by
  apply merge_all_spec (table_names ts) hc fuel hf ts zero_table _ _ represents_zero
    (fun k hk => absurd rfl hk)
  intro t ht s hs
  unfold table_names
  simp only [List.mem_map, List.mem_flatten]
  exact ⟨s, ⟨_, ⟨t, ht, rfl⟩, hs⟩, rfl⟩

theorem merge_all_any_fuel_cap {ts : List HashTable}
    (hc : (table_names ts).dedup.length < HASH_TABLE_SIZE) {fuel : Nat} {g : HashTable}
    (hrun : merge_all fuel ts zero_table = some g) : Represents g (merged ts) := by
  obtain ⟨g2, hrun2, hR⟩ := merge_all_represents_cap ts hc (Nat.max fuel HASH_TABLE_SIZE)
    (Nat.le_max_right _ _)
  have := merge_all_mono fuel (Nat.max fuel HASH_TABLE_SIZE) (Nat.le_max_left _ _) _ _ _ hrun
  rw [this] at hrun2
  simp only [Option.some.injEq] at hrun2
  rw [hrun2]; exact hR

/-! ### C18: occupied entries have a positive count and hold no sentinel -/

theorem produced_represents : ∀ (chunks : List (List Line)) (ts : List HashTable),
    List.Forall₂ (fun lines t => ∃ fuel pre post,
      process_chunk fuel (pre ++ (encode lines ++ post)) pre.length
        (pre.length + (encode lines).length) = some (t, pre.length + (encode lines).length))
      chunks ts →
    (∀ l ∈ chunks.flatten, l.wf) →
    (chunks.flatten.map Line.key).dedup.length < HASH_TABLE_SIZE →
    List.Forall₂ (fun lines t => Represents t (aggregate (fun _ => none) lines)) chunks ts := by
  intro chunks ts hts
  induction hts with
  | nil => intro _ _; exact List.Forall₂.nil
  | @cons c t cs ts2 h _ ih =>
    intro hwf hcard
    obtain ⟨fuel, pre, post, hrun⟩ := h
    rw [List.flatten_cons] at hwf hcard
    have hwfc : ∀ l ∈ c, l.wf := fun l hl => hwf l (List.mem_append_left _ hl)
    have hcc : (c.map Line.key).dedup.length < HASH_TABLE_SIZE := by
      refine lt_of_le_of_lt (dedup_length_mono ?_) hcard
      intro k hk
      rw [List.map_append]; exact List.mem_append_left _ hk
    refine List.Forall₂.cons (process_chunk_any_fuel_cap hwfc hcc hrun) (ih ?_ ?_)
    · intro l hl; exact hwf l (List.mem_append_right _ hl)
    · refine lt_of_le_of_lt (dedup_length_mono ?_) hcard
      intro k hk
      rw [List.map_append]; exact List.mem_append_right _ hk

theorem forall2_bounds : ∀ (chunks : List (List Line)) (ts : List HashTable),
    List.Forall₂ (fun lines t => Represents t (aggregate (fun _ => none) lines)) chunks ts →
    (∀ l ∈ chunks.flatten, l.wf) → chunks.flatten.length < 2 ^ 31 →
    List.Forall₂ (fun lines t => ∀ i, i < HASH_TABLE_SIZE → occupied t i →
      1 ≤ (t.stations i).count ∧ (t.stations i).min ≤ (t.stations i).max ∧
      -999 ≤ (t.stations i).min ∧ (t.stations i).max ≤ 999 ∧
      ∀ v ∈ temps_of (t.stations i).name lines,
        (t.stations i).min ≤ v ∧ v ≤ (t.stations i).max) chunks ts := by
  intro chunks ts hrep
  induction hrep with
  | nil => intro _ _; exact List.Forall₂.nil
  | @cons c t cs ts2 h _ ih =>
    intro hwf hlen
    rw [List.flatten_cons] at hwf hlen
    rw [List.length_append] at hlen
    exact List.Forall₂.cons
      (aggregate_entry_bounds h (fun l hl => hwf l (List.mem_append_left _ hl))
        (lt_of_le_of_lt (Nat.le_add_right _ _) hlen))
      (ih (fun l hl => hwf l (List.mem_append_right _ hl))
        (lt_of_le_of_lt (Nat.le_add_left _ _) hlen))

theorem worker_names_cover {chunks : List (List Line)} {ts : List HashTable}
    (hrep : List.Forall₂ (fun lines t => Represents t (aggregate (fun _ => none) lines)) chunks ts) :
    ∀ t ∈ ts, ∀ i, i < HASH_TABLE_SIZE → occupied t i →
      (t.stations i).name ∈ chunks.flatten.map Line.key := by
  induction hrep with
  | nil => intro t ht; simp at ht
  | @cons c t cs ts2 h _ ih =>
    intro t2 ht2 i hi ho
    rw [List.flatten_cons, List.map_append]
    rcases List.mem_cons.1 ht2 with rfl | ht2
    · exact List.mem_append_left _ (aggregate_names h i hi ho)
    · exact List.mem_append_right _ (ih t2 ht2 i hi ho)

/-- The merge of worker tables that represent the aggregations of their chunks, with
fewer than `HASH_TABLE_SIZE` distinct keys in all: it ends, and every run that ends
leaves a global table that represents the aggregation of all lines. -/
theorem merge_all_aggregate {chunks : List (List Line)} {ts : List HashTable}
    (hrep : List.Forall₂ (fun lines t => Represents t (aggregate (fun _ => none) lines)) chunks ts)
    (hwf : ∀ l ∈ chunks.flatten, l.wf)
    (hcard : (chunks.flatten.map Line.key).dedup.length < HASH_TABLE_SIZE) :
    (∀ fuel, HASH_TABLE_SIZE ≤ fuel → ∃ g, merge_all fuel ts zero_table = some g) ∧
    ∀ fuel g, merge_all fuel ts zero_table = some g →
      Represents g (aggregate (fun _ => none) chunks.flatten) := by
  have hnb := lt_of_le_of_lt (names_le_of_cover ts _ (worker_names_cover hrep)) hcard
  have hne : ∀ l ∈ chunks.flatten, l.key ≠ [] := by
    intro l hl e
    have := (hwf l hl).1
    rw [e] at this; simp at this
  constructor
  · intro fuel hf
    obtain ⟨g, hrun, _⟩ := merge_all_represents_cap ts hnb fuel hf
    exact ⟨g, hrun⟩
  · intro fuel g hrun
    have := merge_all_any_fuel_cap hnb hrun
    rwa [merged_eq_aggregate chunks ts hrep hne] at this

/-- C18 (amended): for worker tables produced by `process_chunk` from chunks of
well-formed lines with fewer distinct keys than table slots and fewer than 2^31 lines
in total, every occupied entry of every worker table, and every occupied entry of the
global table that `merge_tables` folds them into, has `count ≥ 1`, `min ≤ max`,
`-999 ≤ min`, `max ≤ 999`, and `min ≤ v ≤ max` for every value `v` of its key (in the
worker's chunk, respectively in all chunks): no sentinel 9999 or -9999 survives. -/
theorem entries_invariant (chunks : List (List Line)) (ts : List HashTable)
    (hts : List.Forall₂ (fun lines t => ∃ fuel pre post,
      process_chunk fuel (pre ++ (encode lines ++ post)) pre.length
        (pre.length + (encode lines).length) = some (t, pre.length + (encode lines).length))
      chunks ts)
    (hwf : ∀ l ∈ chunks.flatten, l.wf)
    (hcard : (chunks.flatten.map Line.key).dedup.length < HASH_TABLE_SIZE)
    (hlen : chunks.flatten.length < 2 ^ 31) :
    List.Forall₂ (fun lines t => ∀ i, i < HASH_TABLE_SIZE → occupied t i →
      1 ≤ (t.stations i).count ∧ (t.stations i).min ≤ (t.stations i).max ∧
      -999 ≤ (t.stations i).min ∧ (t.stations i).max ≤ 999 ∧
      ∀ v ∈ temps_of (t.stations i).name lines,
        (t.stations i).min ≤ v ∧ v ≤ (t.stations i).max) chunks ts ∧
    ∃ fuel g, merge_all fuel ts zero_table = some g ∧
      ∀ i, i < HASH_TABLE_SIZE → occupied g i →
        1 ≤ (g.stations i).count ∧ (g.stations i).min ≤ (g.stations i).max ∧
        -999 ≤ (g.stations i).min ∧ (g.stations i).max ≤ 999 ∧
        ∀ v ∈ temps_of (g.stations i).name chunks.flatten,
          (g.stations i).min ≤ v ∧ v ≤ (g.stations i).max := by
  have hrep := produced_represents chunks ts hts hwf hcard
  refine ⟨forall2_bounds chunks ts hrep hwf hlen, ?_⟩
  obtain ⟨hex, hall⟩ := merge_all_aggregate hrep hwf hcard
  obtain ⟨g, hrun⟩ := hex HASH_TABLE_SIZE (le_refl _)
  exact ⟨_, g, hrun, aggregate_entry_bounds (hall _ g hrun) hwf hlen⟩

/-- C18 for two workers: the lines of the end-to-end example and the line `a;0.0`. -/
theorem entries_invariant_witness :
    List.Forall₂ (fun lines t => ∃ fuel pre post,
      process_chunk fuel (pre ++ (encode lines ++ post)) pre.length
        (pre.length + (encode lines).length) = some (t, pre.length + (encode lines).length))
      [example_lines, [zero_line]] [worker_table example_lines, worker_table [zero_line]] ∧
    (∀ l ∈ [example_lines, [zero_line]].flatten, l.wf) ∧
    ([example_lines, [zero_line]].flatten.map Line.key).dedup.length < HASH_TABLE_SIZE ∧
    [example_lines, [zero_line]].flatten.length < 2 ^ 31 ∧
    (List.Forall₂ (fun lines t => ∀ i, i < HASH_TABLE_SIZE → occupied t i →
      1 ≤ (t.stations i).count ∧ (t.stations i).min ≤ (t.stations i).max ∧
      -999 ≤ (t.stations i).min ∧ (t.stations i).max ≤ 999 ∧
      ∀ v ∈ temps_of (t.stations i).name lines,
        (t.stations i).min ≤ v ∧ v ≤ (t.stations i).max)
      [example_lines, [zero_line]] [worker_table example_lines, worker_table [zero_line]] ∧
    ∃ fuel g, merge_all fuel [worker_table example_lines, worker_table [zero_line]] zero_table
        = some g ∧
      ∀ i, i < HASH_TABLE_SIZE → occupied g i →
        1 ≤ (g.stations i).count ∧ (g.stations i).min ≤ (g.stations i).max ∧
        -999 ≤ (g.stations i).min ∧ (g.stations i).max ≤ 999 ∧
        ∀ v ∈ temps_of (g.stations i).name [example_lines, [zero_line]].flatten,
          (g.stations i).min ≤ v ∧ v ≤ (g.stations i).max) :=
  ⟨List.Forall₂.cons ⟨_, [], [], worker_table_run example_lines (by decide) (by decide)⟩
      (List.Forall₂.cons ⟨_, [], [], worker_table_run [zero_line] (by decide) (by decide)⟩
        List.Forall₂.nil),
    by decide, by decide, by decide,
    entries_invariant [example_lines, [zero_line]]
      [worker_table example_lines, worker_table [zero_line]]
      (List.Forall₂.cons ⟨_, [], [], worker_table_run example_lines (by decide) (by decide)⟩
        (List.Forall₂.cons ⟨_, [], [], worker_table_run [zero_line] (by decide) (by decide)⟩
          List.Forall₂.nil))
      (by decide) (by decide) (by decide)⟩

/-- Any run of `process_chunk` over `n ≥ 1` copies of a well-formed line leaves an
occupied slot for its key. -/
theorem process_chunk_replicate_slot (l : Line) (hl : l.wf) (n : Nat) (hn : 1 ≤ n)
    (fuel : Nat) (ht : HashTable) (e : Nat)
    (hrun : process_chunk fuel (encode (List.replicate n l)) 0
      (encode (List.replicate n l)).length = some (ht, e)) :
    ∃ i, i < HASH_TABLE_SIZE ∧ occupied ht i ∧ (ht.stations i).name = l.key := by
  have hwf : ∀ x ∈ List.replicate n l, x.wf := by
    intro x hx
    rw [List.eq_of_mem_replicate hx]; exact hl
  have hcard : ((List.replicate n l).map Line.key).dedup.length ≤ MAX_STATIONS :=
    le_trans (keys_replicate_dedup l n) (by decide)
  obtain ⟨ht2, hrun2, hR⟩ := process_chunk_represents [] [] (List.replicate n l) hwf hcard
    (Nat.max fuel ((List.replicate n l).length + HASH_TABLE_SIZE + 1)) (Nat.le_max_right _ _)
  simp only [List.nil_append, List.append_nil, List.length_nil, Nat.zero_add] at hrun2
  have := process_chunk_mono _ _ _ _ fuel
    (Nat.max fuel ((List.replicate n l).length + HASH_TABLE_SIZE + 1)) (Nat.le_max_left _ _) hrun
  rw [this] at hrun2
  simp only [Option.some.injEq, Prod.mk.injEq] at hrun2
  obtain ⟨rfl, _⟩ := hrun2
  have hk : l.key ∈ (List.replicate n l).map Line.key := by
    rw [List.map_replicate]
    exact List.mem_replicate.2 ⟨by omega, rfl⟩
  rcases aggregate_entry_shape l.key (List.replicate n l) with
    ⟨_, _, hk2⟩ | ⟨s, hagg, _, hn2, _, _, _, _⟩
  · exact absurd hk hk2
  · obtain ⟨i, hi, ho, hs, _⟩ := (represents_slots hR).2 _ _ hagg
    exact ⟨i, hi, ho, by rw [hs, hn2]⟩

/-- C18 as stated fails after `process_chunk` has scanned 2^31 copies of the line
`a;0.0`: no run leaves a table all of whose occupied entries have `count ≥ 1` (the
entry of `a` has the count -2^31). -/
theorem entries_count_overflow :
    ¬ ∃ fuel ht, process_chunk fuel (encode (List.replicate 2147483648 zero_line)) 0
        (encode (List.replicate 2147483648 zero_line)).length
          = some (ht, (encode (List.replicate 2147483648 zero_line)).length) ∧
      ∀ i, i < HASH_TABLE_SIZE → occupied ht i → 1 ≤ (ht.stations i).count := by
  rintro ⟨fuel, ht, hrun, hall⟩
  obtain ⟨i, hi, ho, hname⟩ := process_chunk_replicate_slot zero_line (by decide) 2147483648
    (by omega) fuel ht _ hrun
  have h1 := hall i hi ho
  have h2 := process_chunk_replicate_count zero_line (by decide) 2147483648 (by omega) fuel ht _
    hrun i hi ho hname
  rw [h2] at h1
  unfold wrap32 at h1
  norm_num at h1

/-! ### The pipeline of `main`: planning, workers, merge -/

theorem encode_append (a b : List Line) : encode (a ++ b) = encode a ++ encode b := by
  simp [encode]

theorem value_bytes_no_newline (v : ValueText) (hv : v.wf) : 10 ∉ v.bytes := by
  obtain ⟨ht, hu, hf⟩ := hv
  unfold ValueText.bytes
  intro h
  rcases hn : v.neg <;> rcases hT : v.tens with _ | t <;> simp [hn, hT] at h <;> omega

theorem line_bytes_newline (l : Line) (hl : l.wf) :
    ∃ body, l.bytes = body ++ [10] ∧ 10 ∉ body := by
  refine ⟨l.key ++ 59 :: l.value.bytes, by simp [Line.bytes], ?_⟩
  obtain ⟨_, _, _, h10, hv⟩ := hl
  intro h
  rcases List.mem_append.1 h with h | h
  · exact h10 h
  · rcases List.mem_cons.1 h with h | h
    · omega
    · exact value_bytes_no_newline _ hv h

/-- In a buffer of well-formed lines, a position that is 0 or follows a newline is
the start of a line or the end of the buffer. -/
theorem line_boundary : ∀ (lines : List Line), (∀ l ∈ lines, l.wf) → ∀ p,
    p ≤ (encode lines).length → (p = 0 ∨ (encode lines)[p - 1]? = some 10) →
    ∃ n, n ≤ lines.length ∧ (encode (lines.take n)).length = p := by
  intro lines
  induction lines with
  | nil =>
    intro _ p hp _
    refine ⟨0, le_refl _, ?_⟩
    simp [encode] at hp ⊢
    omega
  | cons l rest ih =>
    intro hwf p hp h
    rcases h with h | h
    · exact ⟨0, Nat.zero_le _, by simp [encode, h]⟩
    · by_cases hp0 : p = 0
      · exact ⟨0, Nat.zero_le _, by simp [encode, hp0]⟩
      obtain ⟨body, hb, hno⟩ := line_bytes_newline l (hwf l (List.mem_cons_self _ _))
      rw [encode_cons] at hp h
      have hlen : l.bytes.length = body.length + 1 := by rw [hb]; simp
      by_cases hlt : p - 1 < body.length
      · exfalso
        rw [hb, List.append_assoc, List.getElem?_append_left hlt] at h
        exact hno (List.mem_iff_getElem?.2 ⟨_, h⟩)
      · have hge : l.bytes.length ≤ p := by omega
        rw [List.length_append] at hp
        obtain ⟨n, hn, hn2⟩ := ih (fun x hx => hwf x (List.mem_cons_of_mem _ hx))
          (p - l.bytes.length) (by omega) (by
            by_cases hz : p - l.bytes.length = 0
            · exact Or.inl hz
            · right
              rw [List.getElem?_append_right (by omega)] at h
              rw [← h]
              congr 1
              omega)
        refine ⟨n + 1, by simp; omega, ?_⟩
        rw [List.take_succ_cons, encode_cons, List.length_append, hn2]
        omega

theorem encode_length_pos {ls : List Line} (h : ls ≠ []) : 0 < (encode ls).length := by
  cases ls with
  | nil => exact absurd rfl h
  | cons l rest =>
    rw [encode_cons, List.length_append]
    have : 0 < l.bytes.length := by simp [Line.bytes]
    omega

theorem lines_split (lines : List Line) {a c : Nat} (hac : a ≤ c) :
    lines = lines.take a ++ (line_range lines a c ++ lines.drop c) := by
  unfold line_range
  have h1 : lines.drop c = (lines.drop a).drop (c - a) := by
    rw [List.drop_drop]; congr 1; omega
  rw [h1, List.take_append_drop, List.take_append_drop]

theorem encode_take_mono (lines : List Line) {a c : Nat} (hc : c ≤ lines.length)
    (h : (encode (lines.take a)).length ≤ (encode (lines.take c)).length) (ha : a ≤ lines.length) :
    a ≤ c := by
  by_contra hlt
  have hca : c ≤ a := by omega
  have e : lines.take a = lines.take c ++ line_range lines c a := by
    have := lines_split (lines.take a) hca
    have e1 : (lines.take a).take c = lines.take c := by
      rw [List.take_take]; congr 1; omega
    have e2 : (lines.take a).drop a = [] := by
      rw [List.drop_eq_nil_iff]; simp
    have e3 : line_range (lines.take a) c a = line_range lines c a := by
      unfold line_range
      rw [List.drop_take, List.take_take, Nat.min_self]
    rw [e1, e2, e3, List.append_nil] at this
    exact this
  have hne : line_range lines c a ≠ [] := by
    unfold line_range
    intro h0
    have := congrArg List.length h0
    simp at this
    omega
  rw [e, encode_append, List.length_append] at h
  have := encode_length_pos hne
  omega

theorem line_range_flatten (lines : List Line) (m : Nat → Nat) (hmono : ∀ i, m i ≤ m (i + 1)) :
    ∀ n i, ((List.range' i n).map (fun j => line_range lines (m j) (m (j + 1)))).flatten
      = line_range lines (m i) (m (i + n)) := by
  intro n
  induction n with
  | zero => intro i; simp [line_range]
  | succ n ih =>
    intro i
    have hm : ∀ k, m (i + 1) ≤ m (i + 1 + k) := by
      intro k
      induction k with
      | zero => exact le_refl _
      | succ k ihk => exact le_trans ihk (hmono _)
    rw [List.range'_succ, List.map_cons, List.flatten_cons, ih (i + 1)]
    have e : i + (n + 1) = i + 1 + n := by omega
    rw [e]
    unfold line_range
    have h1 := hmono i
    have h2 := hm n
    have e2 : m (i + 1 + n) - m i = (m (i + 1) - m i) + (m (i + 1 + n) - m (i + 1)) := by omega
    rw [e2, List.take_add, List.drop_drop]
    congr 3
    omega

theorem line_range_subset (lines : List Line) (a c : Nat) : ∀ l ∈ line_range lines a c, l ∈ lines :=
  fun _ hl => List.mem_of_mem_drop (List.mem_of_mem_take hl)

theorem line_range_card (lines : List Line) (a c : Nat)
    (hcard : (lines.map Line.key).dedup.length < HASH_TABLE_SIZE) :
    ((line_range lines a c).map Line.key).dedup.length < HASH_TABLE_SIZE := by
  refine lt_of_le_of_lt (dedup_length_mono ?_) hcard
  intro k hk
  obtain ⟨l, hl, rfl⟩ := List.mem_map.1 hk
  exact List.mem_map_of_mem _ (line_range_subset lines a c l hl)

theorem line_range_length (lines : List Line) (a c : Nat) :
    (line_range lines a c).length ≤ lines.length := by
  unfold line_range
  simp

theorem take_eq_take_append (lines : List Line) {a c : Nat} (hac : a ≤ c) :
    lines.take c = lines.take a ++ line_range lines a c := by
  unfold line_range
  have e : c = a + (c - a) := by omega
  conv_lhs => rw [e, List.take_add]

theorem encode_ends_newline : ∀ (lines : List Line), lines ≠ [] →
    (encode lines).getLast? = some 10 := by
  intro lines
  induction lines with
  | nil => intro h; exact absurd rfl h
  | cons l rest ih =>
    intro _
    rw [encode_cons]
    by_cases hr : rest = []
    · subst hr
      have e : l.bytes ++ encode [] = (l.key ++ 59 :: l.value.bytes) ++ [10] := by
        simp [encode, Line.bytes]
      rw [e]
      exact List.getLast?_concat _
    · have := ih hr
      rw [List.getLast?_append, this]
      rfl

theorem line_range_zero (lines : List Line) : line_range lines 0 lines.length = lines := by
  simp [line_range]

/-- The ranges planned for a buffer of well-formed lines cut it at line starts. -/
theorem plan_lines (lines : List Line) (hne : lines ≠ []) (hwf : ∀ l ∈ lines, l.wf)
    (W : Nat) (hW : 1 ≤ W) :
    ∃ m : Nat → Nat, m 0 = 0 ∧ m W = lines.length ∧ (∀ i, m i ≤ m (i + 1)) ∧
      (∀ i, m i ≤ lines.length) ∧
      plan (encode lines) W = some ((List.range W).map (fun j =>
        ((encode (lines.take (m j))).length, (encode (lines.take (m (j + 1)))).length))) := by
  have hpos := encode_length_pos hne
  have hne2 : encode lines ≠ [] := List.length_pos.1 hpos
  obtain ⟨b, b0, bW, bmono, ble, bnl, hplan⟩ := plan_boundaries (encode lines) W hW hne2
    (Or.inr (encode_ends_newline lines hne))
  choose m hm1 hm2 using fun i => line_boundary lines hwf (b i) (ble i) (bnl i)
  refine ⟨m, ?_, ?_, ?_, hm1, ?_⟩
  · have := encode_take_mono lines (Nat.zero_le _) (a := m 0) (by rw [hm2 0, b0]; exact Nat.zero_le _)
      (hm1 0)
    omega
  · have := encode_take_mono lines (hm1 W) (a := lines.length)
      (by rw [hm2 W, bW, List.take_length]) (le_refl _)
    have := hm1 W
    omega
  · intro i
    exact encode_take_mono lines (hm1 (i + 1)) (by rw [hm2 i, hm2 (i + 1)]; exact bmono i) (hm1 i)
  · rw [hplan]
    congr 2
    funext j
    rw [hm2 j, hm2 (j + 1)]

/-- The worker on the range of the lines `a ≤ .. < c` of a buffer of well-formed lines:
it ends at the range end, and every run that ends represents the aggregation of
those lines. -/
theorem worker_run (lines : List Line) (hwf : ∀ l ∈ lines, l.wf)
    (hcard : (lines.map Line.key).dedup.length < HASH_TABLE_SIZE) {a c : Nat} (hac : a ≤ c)
    (fuel : Nat) :
    (lines.length + HASH_TABLE_SIZE + 1 ≤ fuel →
      ∃ t, process_chunk fuel (encode lines) (encode (lines.take a)).length
        (encode (lines.take c)).length = some (t, (encode (lines.take c)).length)) ∧
    ∀ t e, process_chunk fuel (encode lines) (encode (lines.take a)).length
        (encode (lines.take c)).length = some (t, e) →
      Represents t (aggregate (fun _ => none) (line_range lines a c)) := by
  have hd : encode (lines.take a) ++ (encode (line_range lines a c) ++ encode (lines.drop c))
      = encode lines := by
    rw [← encode_append, ← encode_append, ← lines_split lines hac]
  have he : (encode (lines.take a)).length + (encode (line_range lines a c)).length
      = (encode (lines.take c)).length := by
    rw [take_eq_take_append lines hac, encode_append, List.length_append]
  have hwf2 : ∀ l ∈ line_range lines a c, l.wf := fun l hl => hwf l (line_range_subset _ _ _ l hl)
  have hcard2 := line_range_card lines a c hcard
  constructor
  · intro hf
    obtain ⟨t, hrun, _⟩ := process_chunk_represents_cap (encode (lines.take a)) (encode (lines.drop c))
      (line_range lines a c) hwf2 hcard2 fuel
      (by have := line_range_length lines a c; omega)
    rw [hd, he] at hrun
    exact ⟨t, hrun⟩
  · intro t e hrun
    rw [← hd, ← he] at hrun
    exact process_chunk_any_fuel_cap hwf2 hcard2 hrun

theorem run_workers_spec (lines : List Line) (hwf : ∀ l ∈ lines, l.wf)
    (hcard : (lines.map Line.key).dedup.length < HASH_TABLE_SIZE) (m : Nat → Nat)
    (hmono : ∀ i, m i ≤ m (i + 1)) (fuel : Nat) : ∀ n i,
    (lines.length + HASH_TABLE_SIZE + 1 ≤ fuel →
      ∃ ts, run_workers fuel (encode lines) ((List.range' i n).map (fun j =>
        ((encode (lines.take (m j))).length, (encode (lines.take (m (j + 1)))).length)))
          = some ts) ∧
    ∀ ts, run_workers fuel (encode lines) ((List.range' i n).map (fun j =>
        ((encode (lines.take (m j))).length, (encode (lines.take (m (j + 1)))).length)))
          = some ts →
      List.Forall₂ (fun c t => Represents t (aggregate (fun _ => none) c))
        ((List.range' i n).map (fun j => line_range lines (m j) (m (j + 1)))) ts := by
  intro n
  induction n with
  | zero =>
    intro i
    refine ⟨fun _ => ⟨[], rfl⟩, ?_⟩
    intro ts h
    simp only [List.range'_zero, List.map_nil, run_workers, Option.some.injEq] at h ⊢
    subst h
    exact List.Forall₂.nil
  | succ n ih =>
    intro i
    obtain ⟨hw1, hw2⟩ := worker_run lines hwf hcard (hmono i) fuel
    obtain ⟨ih1, ih2⟩ := ih (i + 1)
    simp only [List.range'_succ, List.map_cons, run_workers]
    constructor
    · intro hf
      obtain ⟨t, ht⟩ := hw1 hf
      obtain ⟨ts, hts⟩ := ih1 hf
      refine ⟨t :: ts, ?_⟩
      rw [ht, hts]
      rfl
    · intro ts h
      cases hp : process_chunk fuel (encode lines) (encode (lines.take (m i))).length
          (encode (lines.take (m (i + 1)))).length with
      | none => rw [hp] at h; simp at h
      | some r =>
        rw [hp] at h
        cases hr : run_workers fuel (encode lines) ((List.range' (i + 1) n).map (fun j =>
            ((encode (lines.take (m j))).length, (encode (lines.take (m (j + 1)))).length))) with
        | none => rw [hr] at h; simp at h
        | some ts2 =>
          rw [hr] at h
          simp only [Option.bind_eq_bind, Option.some_bind, Option.some.injEq] at h
          subst h
          exact List.Forall₂.cons (hw2 r.1 r.2 hp) (ih2 ts2 hr)

/-- The pipeline of `main` up to the merge, on a non-empty buffer of well-formed lines
with fewer than `HASH_TABLE_SIZE` distinct keys: it ends with a global table (for every fuel
that covers the lines and one probing cycle), and whenever it ends the global table
represents the aggregation of all lines. -/
theorem main_table_represents (lines : List Line) (hne : lines ≠ []) (hwf : ∀ l ∈ lines, l.wf)
    (hcard : (lines.map Line.key).dedup.length < HASH_TABLE_SIZE) :
    (∀ fuel, lines.length + HASH_TABLE_SIZE + 1 ≤ fuel →
      ∃ g, main_table fuel (encode lines) = some g) ∧
    ∀ fuel g, main_table fuel (encode lines) = some g →
      Represents g (aggregate (fun _ => none) lines) := by
  obtain ⟨m, m0, mW, mmono, _, hplan⟩ := plan_lines lines hne hwf NUM_THREADS (by decide)
  have hflat : ((List.range' 0 NUM_THREADS).map
      (fun j => line_range lines (m j) (m (j + 1)))).flatten = lines := by
    rw [line_range_flatten lines m mmono, Nat.zero_add, m0, mW, line_range_zero]
  rw [List.range_eq_range'] at hplan
  constructor
  · intro fuel hf
    obtain ⟨ts, hts⟩ := (run_workers_spec lines hwf hcard m mmono fuel NUM_THREADS 0).1 hf
    have hrep := (run_workers_spec lines hwf hcard m mmono fuel NUM_THREADS 0).2 ts hts
    obtain ⟨g, hg⟩ := (merge_all_aggregate hrep (by rw [hflat]; exact hwf)
      (by rw [hflat]; exact hcard)).1 fuel (by omega)
    refine ⟨g, ?_⟩
    unfold main_table
    rw [hplan]
    simp only [Option.bind_eq_bind, Option.some_bind]
    rw [hts]
    exact hg
  · intro fuel g h
    unfold main_table at h
    rw [hplan] at h
    simp only [Option.bind_eq_bind, Option.some_bind] at h
    cases hts : run_workers fuel (encode lines) ((List.range' 0 NUM_THREADS).map (fun j =>
        ((encode (lines.take (m j))).length, (encode (lines.take (m (j + 1)))).length))) with
    | none => rw [hts] at h; simp at h
    | some ts =>
      rw [hts] at h
      simp only [Option.some_bind] at h
      have hrep := (run_workers_spec lines hwf hcard m mmono fuel NUM_THREADS 0).2 ts hts
      have := (merge_all_aggregate hrep (by rw [hflat]; exact hwf)
        (by rw [hflat]; exact hcard)).2 fuel g h
      rwa [hflat] at this

/-! ### C6: the end-to-end example -/

/-- The entries of a table that represents a map are, up to their order, any list
without repetition of the entries of the map. -/
theorem table_entries_perm {g : HashTable} {m : List Nat → Option Station}
    (hR : Represents g m) (es : List Station) (hnd : es.Nodup)
    (hes : ∀ s, s ∈ es ↔ m s.name = some s) : (table_entries g).Perm es :=
  (List.perm_ext_iff_of_nodup (table_entries_nodup hR.inv) hnd).2
    (fun s => (mem_table_entries.trans (hR.entries s)).trans (hes s).symm)

theorem perm_pair {a b : Station} {l : List Station} (h : l.Perm [a, b]) :
    l = [a, b] ∨ l = [b, a] := by
  have hl := h.length_eq
  match l, hl, h with
  | [x, y], _, h =>
    have hx : x ∈ [a, b] := h.mem_iff.1 (List.mem_cons_self _ _)
    have hy : y ∈ [a, b] := h.mem_iff.1 (List.mem_cons_of_mem _ (List.mem_cons_self _ _))
    have ha : a ∈ [x, y] := h.mem_iff.2 (List.mem_cons_self _ _)
    have hb : b ∈ [x, y] := h.mem_iff.2 (List.mem_cons_of_mem _ (List.mem_cons_self _ _))
    simp only [List.mem_cons, List.mem_singleton, List.not_mem_nil, or_false] at hx hy ha hb
    rcases hx with rfl | rfl <;> rcases hy with rfl | rfl
    · rcases hb with rfl | rfl <;> exact Or.inl rfl
    · exact Or.inl rfl
    · exact Or.inr rfl
    · rcases ha with rfl | rfl <;> exact Or.inl rfl

/-- What the output loop prints for an entry whose mean rounds to `r` tenths. -/
theorem render_station_eq (s : Station) (r : Int)
    (hr : round_temp_rounded s.sum s.count = some r)
    (hmin : |s.min| ≤ 2 ^ 31) (hmax : |s.max| ≤ 2 ^ 31) :
    render_station s = some (c_string s.name ++ [61] ++ render_tenths s.min ++ [47] ++
      render_tenths r ++ [47] ++ render_tenths s.max) := by
  have hm : ∀ mean, round_temp s.sum s.count = some mean →
      printf_1f (fl64 (mean + 0)) = render_tenths r := by
    intro mean h
    unfold round_temp at h
    rw [hr] at h
    simp only [Option.bind_eq_bind, Option.some_bind] at h
    by_cases h0 : r = 0
    · rw [if_pos h0] at h
      simp only [Option.some.injEq] at h
      rw [← h, printf_zero, h0]
      decide
    · rw [if_neg h0] at h
      simp only [Option.some.injEq] at h
      rw [← h]
      exact printf_tenths r (round_temp_rounded_range hr)
  have hd : ∃ mean, round_temp s.sum s.count = some mean := by
    unfold round_temp
    rw [hr]
    simp only [Option.bind_eq_bind, Option.some_bind]
    by_cases h0 : r = 0
    · exact ⟨_, by rw [if_pos h0]⟩
    · exact ⟨_, by rw [if_neg h0]⟩
  obtain ⟨mean, hmean⟩ := hd
  unfold render_station
  rw [hmean]
  simp only [Option.bind_eq_bind, Option.some_bind]
  rw [hm mean hmean, printf_tenths s.min hmin, printf_tenths s.max hmax]

theorem example_aggregate (s : Station) :
    s ∈ [(⟨[72, 97, 109, 98, 117, 114, 103], 86, 2, -34, 120⟩ : Station),
      ⟨[66, 101, 114, 108, 105, 110], 105, 1, 105, 105⟩] ↔
    aggregate (fun _ => none) example_lines s.name = some s := by
  have hH : aggregate (fun _ => none) example_lines [72, 97, 109, 98, 117, 114, 103]
      = some ⟨[72, 97, 109, 98, 117, 114, 103], 86, 2, -34, 120⟩ := by decide
  have hB : aggregate (fun _ => none) example_lines [66, 101, 114, 108, 105, 110]
      = some ⟨[66, 101, 114, 108, 105, 110], 105, 1, 105, 105⟩ := by decide
  constructor
  · intro h
    simp only [List.mem_cons, List.mem_singleton, List.not_mem_nil, or_false] at h
    rcases h with rfl | rfl
    · exact hH
    · exact hB
  · intro h
    rcases aggregate_entry_shape s.name example_lines with ⟨h0, _⟩ | ⟨_, _, hk, _⟩
    · rw [h0] at h; exact absurd h (by simp)
    · have hk2 : s.name = [72, 97, 109, 98, 117, 114, 103] ∨ s.name = [66, 101, 114, 108, 105, 110] := by
        simp only [example_lines, List.map_cons, List.map_nil, List.mem_cons, List.mem_singleton,
          List.not_mem_nil, or_false] at hk
        rcases hk with e | e | e
        · exact Or.inl e
        · exact Or.inl e
        · exact Or.inr e
      rcases hk2 with e | e
      · rw [e, hH] at h
        simp only [Option.some.injEq] at h
        rw [← h]; simp
      · rw [e, hB] at h
        simp only [Option.some.injEq] at h
        rw [← h]; simp

theorem example_report (g : HashTable)
    (hR : Represents g (aggregate (fun _ => none) example_lines)) :
    report g = some (ascii "\x7bBerlin=10.5/10.5/10.5, Hamburg=-3.4/4.3/12.0\x7d\n") := by
  have hp := table_entries_perm hR _ (by decide) example_aggregate
  have hc : collect g = some (table_entries g) :=
    collect_eq g (by rw [hp.length_eq]; decide)
  have hq : qsort (table_entries g) =
      [(⟨[66, 101, 114, 108, 105, 110], 105, 1, 105, 105⟩ : Station),
        ⟨[72, 97, 109, 98, 117, 114, 103], 86, 2, -34, 120⟩] := by
    rcases perm_pair hp with e | e <;> rw [e] <;> decide
  have hB : render_station ⟨[66, 101, 114, 108, 105, 110], 105, 1, 105, 105⟩
      = some (ascii "Berlin=10.5/10.5/10.5") := by
    rw [render_station_eq _ 105 (by
      rw [round_temp_rounded_eq _ _ (by decide) (by decide) (by norm_num [abs_le])]
      decide) (by decide) (by decide)]
    decide
  have hH : render_station ⟨[72, 97, 109, 98, 117, 114, 103], 86, 2, -34, 120⟩
      = some (ascii "Hamburg=-3.4/4.3/12.0") := by
    rw [render_station_eq _ 43 (by
      rw [round_temp_rounded_eq _ _ (by decide) (by decide) (by norm_num [abs_le])]
      decide) (by decide) (by decide)]
    decide
  unfold report
  rw [hc]
  simp only [Option.bind_eq_bind, Option.some_bind]
  rw [hq]
  simp only [render_loop, hB, hH, Option.bind_eq_bind, Option.some_bind]
  decide

/-- C6: on the input `Hamburg;12.0\nHamburg;-3.4\nBerlin;10.5\n` the pipeline of
`main` (planning for 48 workers, `process_chunk` on each range, `merge_tables`,
collection, `qsort`, rounding and rendering) ends, for every fuel that covers the
three lines and one probing cycle, with the output
`{Berlin=10.5/10.5/10.5, Hamburg=-3.4/4.3/12.0}` and a newline; no run, with whatever
fuel, ends with another output. -/
theorem main_output_example (fuel : Nat) (hf : 16388 ≤ fuel) :
    main_output fuel (ascii "Hamburg;12.0\nHamburg;-3.4\nBerlin;10.5\n")
      = some (ascii "\x7bBerlin=10.5/10.5/10.5, Hamburg=-3.4/4.3/12.0\x7d\n") ∧
    ∀ fuel2 out, main_output fuel2 (ascii "Hamburg;12.0\nHamburg;-3.4\nBerlin;10.5\n") = some out →
      out = ascii "\x7bBerlin=10.5/10.5/10.5, Hamburg=-3.4/4.3/12.0\x7d\n" := by
  have hin : ascii "Hamburg;12.0\nHamburg;-3.4\nBerlin;10.5\n" = encode example_lines := by decide
  obtain ⟨hex, hall⟩ := main_table_represents example_lines (by decide) (by decide) (by decide)
  rw [hin]
  constructor
  · obtain ⟨g, hg⟩ := hex fuel (by
      have : example_lines.length = 3 := rfl
      have : HASH_TABLE_SIZE = 16384 := rfl
      omega)
    unfold main_output
    rw [hg]
    exact example_report g (hall fuel g hg)
  · intro fuel2 out h
    unfold main_output at h
    cases hg : main_table fuel2 (encode example_lines) with
    | none => rw [hg] at h; simp at h
    | some g =>
      rw [hg] at h
      simp only [Option.bind_eq_bind, Option.some_bind] at h
      rw [example_report g (hall fuel2 g hg)] at h
      simp only [Option.some.injEq] at h
      exact h.symm

/-- C6 with the fuel 16388. -/
theorem main_output_example_witness :
    16388 ≤ 16388 ∧
    main_output 16388 (ascii "Hamburg;12.0\nHamburg;-3.4\nBerlin;10.5\n")
      = some (ascii "\x7bBerlin=10.5/10.5/10.5, Hamburg=-3.4/4.3/12.0\x7d\n") :=
  ⟨by decide, (main_output_example 16388 (by decide)).1⟩

/-! ### C12: a file of one repeated line -/

theorem foldl_min_replicate (v : Int) : ∀ (n : Nat) (a : Int),
    (List.replicate (n + 1) v).foldl Min.min a = Min.min a v := by
  intro n
  induction n with
  | zero => intro a; rfl
  | succ n ih =>
    intro a
    rw [List.replicate_succ, List.foldl_cons, ih, min_assoc, min_self]

theorem foldl_max_replicate (v : Int) : ∀ (n : Nat) (a : Int),
    (List.replicate (n + 1) v).foldl Max.max a = Max.max a v := by
  intro n
  induction n with
  | zero => intro a; rfl
  | succ n ih =>
    intro a
    rw [List.replicate_succ, List.foldl_cons, ih, max_assoc, max_self]

/-- The aggregation of `n ≥ 1` copies of a well-formed line has one entry. -/
theorem aggregate_replicate (l : Line) (hl : l.wf) (n : Nat) (hn : 1 ≤ n) (s : Station) :
    s ∈ [(⟨l.key, wrap64 ((n : Int) * l.value.tenths), wrap32 n, l.value.tenths,
      l.value.tenths⟩ : Station)] ↔
    aggregate (fun _ => none) (List.replicate n l) s.name = some s := by
  obtain ⟨v1, v2⟩ := tenths_bound l.value hl.2.2.2.2
  obtain ⟨n2, rfl⟩ : ∃ n2, n = n2 + 1 := ⟨n - 1, by omega⟩
  have hkey : aggregate (fun _ => none) (List.replicate (n2 + 1) l) l.key
      = some ⟨l.key, wrap64 (((n2 + 1 : Nat) : Int) * l.value.tenths), wrap32 (n2 + 1 : Nat),
          l.value.tenths, l.value.tenths⟩ := by
    rcases aggregate_entry_shape l.key (List.replicate (n2 + 1) l) with
      ⟨_, _, hk⟩ | ⟨s2, hagg, _, h1, h2, h3, h4, h5⟩
    · exfalso
      apply hk
      rw [List.map_replicate]
      exact List.mem_replicate.2 ⟨by omega, rfl⟩
    · rw [hagg]
      rw [temps_of_replicate] at h2 h3 h4 h5
      rw [List.sum_replicate, nsmul_eq_mul] at h2
      rw [List.length_replicate] at h3
      rw [foldl_min_replicate, min_eq_right (by omega)] at h4
      rw [foldl_max_replicate, max_eq_right (by omega)] at h5
      have e : s2 = ⟨s2.name, s2.sum, s2.count, s2.min, s2.max⟩ := rfl
      rw [e, h1, h2, h3, h4, h5, Nat.cast_add, Nat.cast_one]
  constructor
  · intro h
    rw [List.mem_singleton] at h
    rw [h]
    exact hkey
  · intro h
    rcases aggregate_entry_shape s.name (List.replicate (n2 + 1) l) with
      ⟨h0, _⟩ | ⟨_, _, hk, _⟩
    · rw [h0] at h; exact absurd h (by simp)
    · rw [List.map_replicate] at hk
      have e := List.eq_of_mem_replicate hk
      rw [e, hkey] at h
      simp only [Option.some.injEq] at h
      rw [← h]
      exact List.mem_singleton.2 rfl

/-- The pipeline of `main` up to the merge on `n ≥ 1` copies of a well-formed line: it
ends, and whenever it ends the global table holds one entry, with the count `n`
reduced to 32 bits. -/
theorem main_table_replicate (l : Line) (hl : l.wf) (n : Nat) (hn : 1 ≤ n) :
    (∀ fuel, n + HASH_TABLE_SIZE + 1 ≤ fuel →
      ∃ g, main_table fuel (encode (List.replicate n l)) = some g) ∧
    ∀ fuel g, main_table fuel (encode (List.replicate n l)) = some g →
      table_entries g = [(⟨l.key, wrap64 ((n : Int) * l.value.tenths), wrap32 n,
        l.value.tenths, l.value.tenths⟩ : Station)] := by
  have hne : List.replicate n l ≠ [] := by
    intro h
    have := congrArg List.length h
    rw [List.length_replicate] at this
    simp at this
    omega
  have hwf : ∀ x ∈ List.replicate n l, x.wf := by
    intro x hx
    rw [List.eq_of_mem_replicate hx]; exact hl
  have hcard : ((List.replicate n l).map Line.key).dedup.length < HASH_TABLE_SIZE :=
    lt_of_le_of_lt (keys_replicate_dedup l n) (by decide)
  obtain ⟨hex, hall⟩ := main_table_represents (List.replicate n l) hne hwf hcard
  constructor
  · intro fuel hf
    exact hex fuel (by rw [List.length_replicate]; exact hf)
  · intro fuel g hg
    exact List.perm_singleton.1
      (table_entries_perm (hall fuel g hg) _ (List.nodup_singleton _) (aggregate_replicate l hl n hn))

theorem round_temp_rounded_replicate (v : Int) (h1 : -999 ≤ v) (h2 : v ≤ 999) (n : Int)
    (hn : 1 ≤ n) (hn2 : n < 2 ^ 31) : round_temp_rounded (n * v) n = some v := by
  have hnq : (n : ℚ) ≠ 0 := by
    have : n ≠ 0 := by omega
    exact_mod_cast this
  rw [round_temp_rounded_eq (n * v) n hn hn2 (by
    rw [Int.cast_mul, mul_div_cancel_left₀ _ hnq, abs_le]
    constructor
    · exact_mod_cast h1
    · exact_mod_cast h2)]
  congr 1
  have e1 : 2 * |n * v| + n = n + (2 * n) * |v| := by
    rw [abs_mul, abs_of_pos (by omega : (0 : Int) < n)]; ring
  rw [e1, Int.add_mul_ediv_left _ _ (by omega : (2 * n : Int) ≠ 0),
    Int.ediv_eq_zero_of_lt (by omega) (by omega), zero_add, Int.sign_mul,
    Int.sign_eq_one_of_pos (by omega : (0 : Int) < n), one_mul]
  exact Int.sign_mul_abs v

/-- C12 (amended): for every well-formed line (key of 1 to 100 bytes without `;` and
newline, value of the grammar) and every `N` with `1 ≤ N < 2^31`, the pipeline of
`main` (planning, `process_chunk`, `merge_tables`) on the file of `N` copies of the
line ends, and whenever it ends the global table has exactly one entry, for that key,
with count `N` and with min, max and the rounded mean of `round_temp` all equal to
the value of the line in tenths. -/
theorem single_key_convergence (l : Line) (hl : l.wf) (n : Nat) (hn : 1 ≤ n)
    (hn2 : n < 2 ^ 31) :
    (∀ fuel, n + HASH_TABLE_SIZE + 1 ≤ fuel →
      ∃ g, main_table fuel (encode (List.replicate n l)) = some g) ∧
    ∀ fuel g, main_table fuel (encode (List.replicate n l)) = some g →
      ∃ s, table_entries g = [s] ∧ s.name = l.key ∧ s.count = n ∧
        s.min = l.value.tenths ∧ s.max = l.value.tenths ∧
        round_temp_rounded s.sum s.count = some l.value.tenths := by
  obtain ⟨hex, hall⟩ := main_table_replicate l hl n hn
  refine ⟨hex, ?_⟩
  intro fuel g hg
  obtain ⟨v1, v2⟩ := tenths_bound l.value hl.2.2.2.2
  have hc : wrap32 (n : Int) = n := wrap32_of_range (by omega) (by exact_mod_cast hn2)
  have hn3 : (n : Int) < 2 ^ 31 := by exact_mod_cast hn2
  have hn4 : (1 : Int) ≤ n := by exact_mod_cast hn
  have hs : wrap64 ((n : Int) * l.value.tenths) = (n : Int) * l.value.tenths := by
    apply wrap64_of_range <;> nlinarith
  refine ⟨_, hall fuel g hg, rfl, hc, rfl, rfl, ?_⟩
  simp only [hc, hs]
  exact round_temp_rounded_replicate _ v1 v2 _ hn4 hn3

/-- C12 on three copies of the line `Hamburg;-3.4`. -/
theorem single_key_convergence_witness :
    (⟨[72, 97, 109, 98, 117, 114, 103], ⟨true, none, 3, 4⟩⟩ : Line).wf ∧ 1 ≤ 3 ∧ 3 < 2 ^ 31 ∧
    (∀ fuel, 3 + HASH_TABLE_SIZE + 1 ≤ fuel →
      ∃ g, main_table fuel (encode (List.replicate 3
        (⟨[72, 97, 109, 98, 117, 114, 103], ⟨true, none, 3, 4⟩⟩ : Line))) = some g) ∧
    ∀ fuel g, main_table fuel (encode (List.replicate 3
        (⟨[72, 97, 109, 98, 117, 114, 103], ⟨true, none, 3, 4⟩⟩ : Line))) = some g →
      ∃ s, table_entries g = [s] ∧
        s.name = (⟨[72, 97, 109, 98, 117, 114, 103], ⟨true, none, 3, 4⟩⟩ : Line).key ∧
        s.count = (3 : Nat) ∧
        s.min = (⟨[72, 97, 109, 98, 117, 114, 103], ⟨true, none, 3, 4⟩⟩ : Line).value.tenths ∧
        s.max = (⟨[72, 97, 109, 98, 117, 114, 103], ⟨true, none, 3, 4⟩⟩ : Line).value.tenths ∧
        round_temp_rounded s.sum s.count
          = some (⟨[72, 97, 109, 98, 117, 114, 103], ⟨true, none, 3, 4⟩⟩ : Line).value.tenths :=
  ⟨by decide, by decide, by decide,
    single_key_convergence ⟨[72, 97, 109, 98, 117, 114, 103], ⟨true, none, 3, 4⟩⟩ (by decide) 3
      (by decide) (by decide)⟩

/-- C12 as stated fails for `N = 2^31` copies of the line `a;0.0`: the pipeline ends,
and whenever it ends the one entry of the global table has the count -2^31, not
`N`. -/
theorem single_key_count_overflow :
    (∃ fuel g, main_table fuel (encode (List.replicate 2147483648 zero_line)) = some g) ∧
    ∀ fuel g, main_table fuel (encode (List.replicate 2147483648 zero_line)) = some g →
      ∃ s, table_entries g = [s] ∧ s.name = [97] ∧ s.count = -2147483648 ∧
        s.count ≠ 2147483648 := by
  obtain ⟨hex, hall⟩ := main_table_replicate zero_line (by decide) 2147483648 (by omega)
  refine ⟨⟨_, hex _ (le_refl _)⟩, ?_⟩
  intro fuel g hg
  have hc : wrap32 ((2147483648 : Nat) : Int) = -2147483648 := by
    unfold wrap32; norm_num
  refine ⟨_, hall fuel g hg, rfl, hc, ?_⟩
  simp only [hc]
  norm_num

/-! ### C14: the planning loop in the degenerate cases -/

theorem length_le_flatten {α : Type} : ∀ (L : List (List α)), (∀ x ∈ L, x ≠ []) →
    L.length ≤ L.flatten.length := by
  intro L
  induction L with
  | nil => intro _; simp
  | cons x L ih =>
    intro h
    have hx : 0 < x.length := List.length_pos.2 (h x (List.mem_cons_self _ _))
    have := ih (fun y hy => h y (List.mem_cons_of_mem _ hy))
    simp only [List.length_cons, List.flatten_cons, List.length_append]
    omega

/-- The lines of the slices between boundaries that are 0 or follow a newline are
the lines of the buffer. -/
theorem boundaries_lines (data : List Nat) (W : Nat) (b : Nat → Nat)
    (b0 : b 0 = 0) (bW : b W = data.length) (bmono : ∀ i, b i ≤ b (i + 1))
    (ble : ∀ i, b i ≤ data.length) (bnl : ∀ i, b i = 0 ∨ data[b i - 1]? = some 10) :
    ((List.range W).map (fun j => split_lines (slice data (b j, b (j + 1))))).flatten
      = split_lines data := by
  have hflat : ((List.range W).map (fun j => slice data (b j, b (j + 1)))).flatten = data := by
    rw [List.range_eq_range', slices_flatten data b bmono W 0, b0, Nat.zero_add, bW, slice_full]
  have hall : ∀ c ∈ (List.range W).map (fun j => slice data (b j, b (j + 1))),
      EndsWithNewline c := by
    intro c hc
    simp only [List.mem_map, List.mem_range] at hc
    obtain ⟨i, _, rfl⟩ := hc
    by_cases he : slice data (b i, b (i + 1)) = []
    · exact Or.inl he
    · right
      have hlt : b i < b (i + 1) := by
        by_contra hc
        apply he
        simp only [slice]
        have : b (i + 1) - b i = 0 := by omega
        rw [this]; simp
      have hl : (slice data (b i, b (i + 1))).length = b (i + 1) - b i := by
        simp only [slice, List.length_take, List.length_drop]
        have := ble (i + 1)
        omega
      rw [List.getLast?_eq_getElem?, hl]
      simp only [slice]
      rw [List.getElem?_take_of_lt (by omega), List.getElem?_drop]
      have e : b i + (b (i + 1) - b i - 1) = b (i + 1) - 1 := by omega
      rw [e]
      rcases bnl (i + 1) with h | h
      · omega
      · exact h
  have := split_lines_join _ hall
  rw [hflat] at this
  rw [this, List.map_map]
  rfl

/-- C14 (amended): for every non-empty buffer of whole lines and every worker count
`W ≥ 1`, the planning loop of `main` returns `W` ranges with
`0 ≤ start ≤ end ≤ length`; every newline search of the loop ends at a newline inside
the buffer, so no byte at an index from the length on is read; and when the buffer has
fewer lines than workers, at least one range is empty. -/
theorem plan_degenerate (data : List Nat) (W : Nat) (hW : 1 ≤ W) (hne : data ≠ [])
    (hnl : EndsWithNewline data) :
    (∃ rs : List (Nat × Nat), plan data W = some rs ∧ rs.length = W ∧
      (∀ r ∈ rs, r.1 ≤ r.2 ∧ r.2 ≤ data.length) ∧
      ((split_lines data).length < W → ∃ r ∈ rs, r.1 = r.2)) ∧
    ∀ i, 1 ≤ i → i < W →
      ∃ q, scan data 10 (i * (data.length / W)) = some q ∧ q < data.length := by
  obtain ⟨b, b0, bW, bmono, ble, bnl, hplan⟩ := plan_boundaries data W hW hne hnl
  have hlen : 0 < data.length := List.length_pos.2 hne
  have hlast : data[data.length - 1]? = some 10 := by
    rcases hnl with h | h
    · exact absurd h hne
    · rw [← List.getLast?_eq_getElem?]; exact h
  constructor
  · refine ⟨_, hplan, by simp, ?_, ?_⟩
    · intro r hr
      simp only [List.mem_map, List.mem_range] at hr
      obtain ⟨i, _, rfl⟩ := hr
      exact ⟨bmono i, ble _⟩
    · intro hfew
      by_contra hall
      have hne2 : ∀ x ∈ (List.range W).map (fun j => split_lines (slice data (b j, b (j + 1)))),
          x ≠ [] := by
        intro x hx
        simp only [List.mem_map, List.mem_range] at hx
        obtain ⟨i, hi, rfl⟩ := hx
        intro h0
        rw [split_lines_eq_nil] at h0
        apply hall
        refine ⟨(b i, b (i + 1)), List.mem_map.2 ⟨i, List.mem_range.2 hi, rfl⟩, ?_⟩
        have hl := congrArg List.length h0
        simp only [slice, List.length_take, List.length_drop, List.length_nil] at hl
        have h1 := bmono i
        have h2 := ble (i + 1)
        simp only
        omega
      have := length_le_flatten _ hne2
      rw [boundaries_lines data W b b0 bW bmono ble bnl] at this
      simp only [List.length_map, List.length_range] at this
      omega
  · intro i hi1 hi2
    have hlt : i * (data.length / W) < data.length := by
      by_cases hz : data.length / W = 0
      · rw [hz]; simpa using hlen
      · have h1 : i * (data.length / W) < W * (data.length / W) :=
          Nat.mul_lt_mul_of_pos_right hi2 (Nat.pos_of_ne_zero hz)
        have h2 : W * (data.length / W) ≤ data.length := Nat.mul_div_le _ _
        omega
    obtain ⟨q, hq⟩ := scan_exists (Nat.le_sub_one_of_lt hlt) hlast
    exact ⟨q, hq, (scan_some hq).2.1⟩

/-- C14 on the buffer of the end-to-end example, three lines for 48 workers. -/
theorem plan_degenerate_witness :
    1 ≤ NUM_THREADS ∧ encode example_lines ≠ [] ∧ EndsWithNewline (encode example_lines) ∧
    (∃ rs : List (Nat × Nat), plan (encode example_lines) NUM_THREADS = some rs ∧
      rs.length = NUM_THREADS ∧
      (∀ r ∈ rs, r.1 ≤ r.2 ∧ r.2 ≤ (encode example_lines).length) ∧
      ((split_lines (encode example_lines)).length < NUM_THREADS → ∃ r ∈ rs, r.1 = r.2)) ∧
    ∀ i, 1 ≤ i → i < NUM_THREADS →
      ∃ q, scan (encode example_lines) 10 (i * ((encode example_lines).length / NUM_THREADS))
        = some q ∧ q < (encode example_lines).length :=
  ⟨by decide, by decide, by decide,
    plan_degenerate (encode example_lines) NUM_THREADS (by decide) (by decide) (by decide)⟩

/-- C14 as stated fails on the empty buffer: the first newline search of the planning
loop (for the end of range 0) reads the byte at index 0, outside the buffer, and the
loop produces no ranges. -/
theorem plan_empty_buffer :
    ([] : List Nat).length = 0 ∧ scan [] 10 ((0 + 1) * (([] : List Nat).length / NUM_THREADS)) = none ∧
    plan_range [] NUM_THREADS 0 = none ∧ plan [] NUM_THREADS = none := by
  decide

/-! ### C20: the collection loop and the size of the result array -/

theorem collect_loop_none (g : HashTable) : ∀ (n i : Nat) (result : List Station),
    result.length ≤ MAX_STATIONS →
    MAX_STATIONS < result.length +
      (((List.range' i n).filter (fun j => occupied g j)).map g.stations).length →
    collect_loop g n i result = none := by
  intro n
  induction n with
  | zero =>
    intro i result h1 h2
    simp at h2
    omega
  | succ n ih =>
    intro i result h1 h2
    rw [List.range'_succ] at h2
    unfold collect_loop
    by_cases ho : occupied g i
    · have ho2 : (g.stations i).name_len > 0 := Nat.pos_of_ne_zero ho
      rw [if_pos ho2]
      rw [List.filter_cons_of_pos (by simpa using ho)] at h2
      by_cases hlt : result.length < MAX_STATIONS
      · rw [if_pos hlt]
        apply ih
        · simp; omega
        · simp only [List.map_cons, List.length_cons, List.length_append, List.length_nil] at h2 ⊢
          omega
      · rw [if_neg hlt]
    · have ho2 : ¬ (g.stations i).name_len > 0 := by
        intro h
        exact ho (Nat.pos_iff_ne_zero.1 h)
      rw [if_neg ho2]
      rw [List.filter_cons_of_neg (by simpa using ho)] at h2
      exact ih _ _ h1 h2

theorem collect_eq_none (g : HashTable) (h : MAX_STATIONS < (table_entries g).length) :
    collect g = none := by
  unfold collect
  unfold table_entries at h
  rw [List.range_eq_range'] at h
  exact collect_loop_none g _ _ [] (by simp) (by simpa using h)

/-- A table that represents the aggregation of some lines has as many entries as the
lines have distinct keys. -/
theorem table_entries_length {g : HashTable} {lines : List Line}
    (hR : Represents g (aggregate (fun _ => none) lines)) :
    (table_entries g).length = (lines.map Line.key).dedup.length := by
  rw [← List.length_map (table_entries g) Station.name,
    ← List.toFinset_card_of_nodup (table_names_nodup hR.inv), ← List.card_toFinset]
  refine congrArg Finset.card (Finset.ext fun k => ?_)
  simp only [List.mem_toFinset]
  constructor
  · intro hk
    obtain ⟨s, hs, rfl⟩ := List.mem_map.1 hk
    obtain ⟨i, hi, ho, rfl⟩ := mem_table_entries.1 hs
    exact aggregate_names hR i hi ho
  · intro hk
    rcases aggregate_entry_shape k lines with ⟨_, _, hk2⟩ | ⟨s, hagg, _, hn, _⟩
    · exact absurd hk hk2
    · obtain ⟨i, hi, ho, hs, _⟩ := (represents_slots hR).2 _ _ hagg
      exact List.mem_map.2 ⟨s, mem_table_entries.2 ⟨i, hi, ho, hs⟩, hn⟩

theorem many_lines_wf : ∀ l ∈ many_lines, l.wf := by
  intro l hl
  obtain ⟨i, _, rfl⟩ := List.mem_map.1 hl
  have hv : (⟨false, none, 0, 0⟩ : ValueText).wf := by decide
  refine ⟨by simp, by simp [MAX_NAME_LEN], ?_, ?_, hv⟩
  · simp only [List.mem_cons, List.mem_singleton, List.not_mem_nil, or_false]
    omega
  · simp only [List.mem_cons, List.mem_singleton, List.not_mem_nil, or_false]
    omega

theorem many_lines_keys : (many_lines.map Line.key).dedup.length = 10001 := by
  have hnd : (many_lines.map Line.key).Nodup := by
    unfold many_lines
    rw [List.map_map]
    refine List.Nodup.map_on ?_ (List.nodup_range _)
    intro i _ j _ h
    simp only [Function.comp_apply, List.cons.injEq, and_true] at h
    omega
  rw [hnd.dedup]
  simp [many_lines]

/-- C20 (amended): for every global table with at most `MAX_STATIONS` = 10000 occupied
slots, the collection loop of `main` stores every occupied entry, in slot order, at an
index below `MAX_STATIONS`, the allocated length of `result`: no store is out of
bounds. -/
theorem collect_within_allocation (g : HashTable)
    (h : (table_entries g).length ≤ MAX_STATIONS) :
    ∃ result, collect g = some result ∧ result = table_entries g ∧
      result.length ≤ MAX_STATIONS ∧
      ∀ n i acc, collect_loop g n i acc ≠ none → acc.length ≤ MAX_STATIONS →
        ∀ r, collect_loop g n i acc = some r → r.length ≤ MAX_STATIONS := by
  refine ⟨_, collect_eq g h, rfl, h, ?_⟩
  intro n
  induction n with
  | zero =>
    intro i acc _ hacc r hr
    simp only [collect_loop, Option.some.injEq] at hr
    rw [← hr]; exact hacc
  | succ n ih =>
    intro i acc hne hacc r hr
    unfold collect_loop at hr hne
    by_cases ho : (g.stations i).name_len > 0
    · rw [if_pos ho] at hr hne
      by_cases hlt : acc.length < MAX_STATIONS
      · rw [if_pos hlt] at hr hne
        exact ih _ _ hne (by simp; omega) r hr
      · rw [if_neg hlt] at hr
        exact absurd hr (by simp)
    · rw [if_neg ho] at hr hne
      exact ih _ _ hne hacc r hr

/-- C20 on the table that a worker builds from the lines of the end-to-end example. -/
theorem collect_within_allocation_witness :
    (table_entries (worker_table example_lines)).length ≤ MAX_STATIONS ∧
    ∃ result, collect (worker_table example_lines) = some result ∧
      result = table_entries (worker_table example_lines) ∧
      result.length ≤ MAX_STATIONS ∧
      ∀ n i acc, collect_loop (worker_table example_lines) n i acc ≠ none →
        acc.length ≤ MAX_STATIONS →
        ∀ r, collect_loop (worker_table example_lines) n i acc = some r →
          r.length ≤ MAX_STATIONS :=
  have hR := worker_table_represents example_lines (by decide) (by decide)
  have hlen : (table_entries (worker_table example_lines)).length ≤ MAX_STATIONS :=
    le_trans (table_entries_length_le hR.inv _ (aggregate_names hR)) (by decide)
  ⟨hlen, collect_within_allocation (worker_table example_lines) hlen⟩

/-- C20 as stated fails on the file of the 10001 lines `AAA;0.0`, `BAA;0.0`, ...: the
pipeline of `main` ends with a global table (no `find_or_create` call fails to end),
and every global table it ends with has 10001 occupied slots, fewer than the 16384
slots of the table, so that the collection loop stores the last entry at index 10000,
outside the `MAX_STATIONS` entries of `result`. -/
theorem collect_out_of_bounds :
    (∃ fuel g, main_table fuel (encode many_lines) = some g) ∧
    ∀ fuel g, main_table fuel (encode many_lines) = some g →
      (table_entries g).length = 10001 ∧ 10001 < HASH_TABLE_SIZE ∧ collect g = none := by
  have hne : many_lines ≠ [] := by
    intro h
    have := congrArg List.length h
    simp [many_lines] at this
  obtain ⟨hex, hall⟩ := main_table_represents many_lines hne many_lines_wf
    (by rw [many_lines_keys]; decide)
  refine ⟨⟨_, hex _ (le_refl _)⟩, ?_⟩
  intro fuel g hg
  have hlen := table_entries_length (hall fuel g hg)
  rw [many_lines_keys] at hlen
  exact ⟨hlen, by decide, collect_eq_none g (by rw [hlen]; decide)⟩

/-! ### Linear probing from any home slot -/

theorem tableInvAt_zero (hom : List Nat → Nat) : TableInvAt hom zero_table where
  distinct := fun i j _ _ ho _ => absurd rfl ho
  reach := fun i d _ ho _ _ _ _ => absurd rfl ho

/-- The invariant at any home slots speaks about names only. -/
theorem tableInvAt_of_names {hom : List Nat → Nat} {ht ht2 : HashTable} (h : TableInvAt hom ht)
    (hn : ∀ i, (ht2.stations i).name = (ht.stations i).name) : TableInvAt hom ht2 := by
  have ho : ∀ i, occupied ht2 i ↔ occupied ht i := fun i => by
    rw [occupied_iff_name, occupied_iff_name, hn]
  constructor
  · intro i j hi hj hoi e
    rw [hn, hn] at e
    exact h.distinct i j hi hj ((ho i).1 hoi) e
  · intro i d hi hoi hd e d2 hd2
    rw [hn] at e ⊢
    exact (ho _).2 (h.reach i d hi ((ho i).1 hoi) hd e d2 hd2)

/-- Probing from the home slot of a present key ends at its slot, and the table is
left as it is. -/
theorem probe_present {hom : List Nat → Nat} (hmlt : ∀ k, hom k < HASH_TABLE_SIZE) {ht : HashTable} (hinv : TableInvAt hom ht) {i : Nat}
    (hi : i < HASH_TABLE_SIZE) (ho : occupied ht i) (fuel : Nat) (hf : HASH_TABLE_SIZE ≤ fuel) :
    find_or_create_loop ht (ht.stations i).name fuel (hom (ht.stations i).name) = some (ht, i) := by
  obtain ⟨d, hd, hdi⟩ := probe_slot_surj (h := hom (ht.stations i).name) hi
  have hpath : ∀ d2, d2 < d → occupied ht (probe_slot (hom (ht.stations i).name) d2) ∧
      (ht.stations (probe_slot (hom (ht.stations i).name) d2)).name ≠ (ht.stations i).name := by
    intro d2 hd2
    have h1 := hinv.reach i d hi ho hd hdi d2 hd2
    refine ⟨h1, fun e => ?_⟩
    have e2 := (hinv.distinct _ i (probe_slot_lt _ _) hi h1 e).trans hdi.symm
    have := probe_slot_inj (by omega) hd e2
    omega
  have := find_or_create_loop_run ht (ht.stations i).name d (hom (ht.stations i).name) fuel
    (hmlt _) (by omega) hpath (by rw [hdi]; exact Or.inr rfl)
  rw [this, hdi, if_pos ho]

/-- Probing from the home slot of an absent key ends at an empty slot, where the entry
is created, and the invariant is kept. -/
theorem probe_absent {hom : List Nat → Nat} (hmlt : ∀ k, hom k < HASH_TABLE_SIZE) {ht : HashTable} (hinv : TableInvAt hom ht) {key : List Nat}
    (hkey : key ≠ [])
    (habs : ∀ i, i < HASH_TABLE_SIZE → occupied ht i → (ht.stations i).name ≠ key)
    (hroom : ∃ e, e < HASH_TABLE_SIZE ∧ ¬ occupied ht e) :
    ∃ j, j < HASH_TABLE_SIZE ∧ ¬ occupied ht j ∧
      TableInvAt hom { stations := Function.update ht.stations j (fresh_station key),
                       count := wrap32 (ht.count + 1) } ∧
      ∀ fuel, HASH_TABLE_SIZE ≤ fuel →
        find_or_create_loop ht key fuel (hom key) =
          some ({ stations := Function.update ht.stations j (fresh_station key),
                  count := wrap32 (ht.count + 1) }, j) := by
  classical
  obtain ⟨e, he, hoe⟩ := hroom
  obtain ⟨de, hde, hdee⟩ := probe_slot_surj (h := hom key) he
  have hex : ∃ d, d < HASH_TABLE_SIZE ∧ ¬ occupied ht (probe_slot (hom key) d) :=
    ⟨de, hde, by rw [hdee]; exact hoe⟩
  have hd0 := Nat.find_spec hex
  have hmin : ∀ d2, d2 < Nat.find hex → occupied ht (probe_slot (hom key) d2) := by
    intro d2 hd2
    by_contra hc
    exact Nat.find_min hex hd2 ⟨by omega, hc⟩
  have hrun := fun fuel (hf : HASH_TABLE_SIZE ≤ fuel) =>
    find_or_create_loop_run ht key (Nat.find hex) (hom key) fuel (hmlt _)
      (by omega) (fun d2 hd2 => ⟨hmin d2 hd2, habs _ (probe_slot_lt _ _) (hmin d2 hd2)⟩)
      (Or.inl hd0.2)
  have hjlt : probe_slot (hom key) (Nat.find hex) < HASH_TABLE_SIZE := probe_slot_lt _ _
  have hinj : ∀ d, d < HASH_TABLE_SIZE →
      probe_slot (hom key) d = probe_slot (hom key) (Nat.find hex) → d = Nat.find hex :=
    fun d hd e => probe_slot_inj hd hd0.1 e
  have hd02 := hd0.2
  generalize probe_slot (hom key) (Nat.find hex) = j at hrun hjlt hinj hd02
  refine ⟨j, hjlt, hd02, ?_, ?_⟩
  · have hocc : ∀ i, occupied ht i →
        occupied { stations := Function.update ht.stations j (fresh_station key),
                   count := wrap32 (ht.count + 1) } i := by
      intro i hi
      rw [occupied_iff_name] at hi ⊢
      by_cases hij : i = j
      · subst hij; simpa [fresh_station] using hkey
      · simpa [Function.update_noteq hij] using hi
    constructor
    · intro i i2 hi hi2 hoi e
      simp only at e
      rw [occupied_iff_name] at hoi
      simp only at hoi
      by_cases h1 : i = j
      · by_cases h2 : i2 = j
        · rw [h1, h2]
        · exfalso
          rw [h1, Function.update_same, Function.update_noteq h2] at e
          simp only [fresh_station] at e
          refine habs i2 hi2 ?_ e.symm
          rw [occupied_iff_name, ← e]; exact hkey
      · rw [Function.update_noteq h1] at e hoi
        by_cases h2 : i2 = j
        · exfalso
          rw [h2, Function.update_same] at e
          simp only [fresh_station] at e
          exact habs i hi ((occupied_iff_name _ _).2 hoi) e
        · rw [Function.update_noteq h2] at e
          exact hinv.distinct i i2 hi hi2 ((occupied_iff_name _ _).2 hoi) e
    · intro i d hi hoi hd e d2 hd2
      simp only at e ⊢
      by_cases h1 : i = j
      · rw [h1, Function.update_same] at e ⊢
        simp only [fresh_station] at e ⊢
        have := hinj d hd e
        exact hocc _ (hmin d2 (by omega))
      · rw [Function.update_noteq h1] at e ⊢
        rw [occupied_iff_name] at hoi
        simp only [Function.update_noteq h1] at hoi
        exact hocc _ (hinv.reach i d hi ((occupied_iff_name _ _).2 hoi) hd e d2 hd2)
  · intro fuel hf
    rw [hrun fuel hf, if_neg hd02]

/-- Writing a station named `key` into slot `j` of a table that represents `m`
gives a table that represents `m` with `key` mapped to that station. -/
theorem representsAt_set_slot {hom : List Nat → Nat} {ht ht2 : HashTable} {m : List Nat → Option Station}
    (hR : RepresentsAt hom ht m) {j : Nat} (hj : j < HASH_TABLE_SIZE) {s2 : Station} {key : List Nat}
    (hs2 : s2.name = key) (hkey : key ≠ [])
    (hC : ∀ i, i < HASH_TABLE_SIZE → i ≠ j → occupied ht i → (ht.stations i).name ≠ key)
    (hD : occupied ht j → (ht.stations j).name = key)
    (hst : ht2.stations = Function.update ht.stations j s2) (hinv2 : TableInvAt hom ht2) :
    RepresentsAt hom ht2 (Function.update m key (some s2)) := by
  have hoj : occupied ht2 j := by
    rw [occupied_iff_name, hst, Function.update_same, hs2]; exact hkey
  constructor
  · exact hinv2
  · intro k s hk
    by_cases hkk : k = key
    · subst hkk
      rw [Function.update_same] at hk
      cases hk; exact hs2
    · rw [Function.update_noteq hkk] at hk
      exact hR.named k s hk
  · intro s
    constructor
    · rintro ⟨i, hi, hoi, hsi⟩
      by_cases hij : i = j
      · subst hij
        rw [hst, Function.update_same] at hsi
        subst hsi
        rw [hs2, Function.update_same]
      · have hsi2 : ht.stations i = s := by
          rw [hst, Function.update_noteq hij] at hsi; exact hsi
        have hoi2 : occupied ht i := by
          rw [occupied_iff_name] at hoi ⊢
          rw [hst, Function.update_noteq hij] at hoi; exact hoi
        have hne : s.name ≠ key := by
          rw [← hsi2]; exact hC i hi hij hoi2
        rw [Function.update_noteq hne]
        exact (hR.entries s).1 ⟨i, hi, hoi2, hsi2⟩
    · intro hms
      by_cases hne : s.name = key
      · rw [hne, Function.update_same] at hms
        cases hms
        exact ⟨j, hj, hoj, by rw [hst, Function.update_same]⟩
      · rw [Function.update_noteq hne] at hms
        obtain ⟨i, hi, hoi, hsi⟩ := (hR.entries s).2 hms
        have hij : i ≠ j := by
          rintro rfl
          apply hne
          rw [← hsi]; exact hD hoi
        refine ⟨i, hi, ?_, by rw [hst, Function.update_noteq hij]; exact hsi⟩
        rw [occupied_iff_name] at hoi ⊢
        rw [hst, Function.update_noteq hij]; exact hoi

/-- The combined step of `process_chunk` and of `merge_tables`: `find_or_create`, then
an update `upd` of the returned station that keeps its name. -/
theorem probe_update_represents {hom : List Nat → Nat} (hmlt : ∀ k, hom k < HASH_TABLE_SIZE) {ht : HashTable} {m : List Nat → Option Station}
    (hR : RepresentsAt hom ht m) {key : List Nat} (hkey : key ≠ [])
    (hroom : m key ≠ none ∨ ∃ e, e < HASH_TABLE_SIZE ∧ ¬ occupied ht e)
    (upd : Station → Station) (hupd : ∀ s, (upd s).name = s.name) :
    ∃ ht1 idx, (∀ fuel, HASH_TABLE_SIZE ≤ fuel → find_or_create_loop ht key fuel (hom key) = some (ht1, idx)) ∧
      RepresentsAt hom { ht1 with stations := Function.update ht1.stations idx (upd (ht1.stations idx)) }
        (Function.update m key (some (upd ((m key).getD (fresh_station key))))) := by
  cases hmk : m key with
  | some s =>
    have hname := hR.named key s hmk
    obtain ⟨i, hi, hoi, hsi⟩ := (hR.entries s).2 (by rw [hname]; exact hmk)
    refine ⟨ht, i, ?_, ?_⟩
    · intro fuel hf
      have := probe_present hmlt hR.inv hi hoi fuel hf
      rwa [hsi, hname] at this
    · simp only [Option.getD_some]
      rw [hsi]
      refine representsAt_set_slot hR hi (by rw [hupd, hname]) hkey ?_ ?_ rfl ?_
      · intro i2 hi2 hne ho2 e
        apply hne
        exact hR.inv.distinct i2 i hi2 hi ho2 (by rw [e, hsi, hname])
      · intro _; rw [hsi, hname]
      · apply tableInvAt_of_names hR.inv
        intro i2
        simp only
        by_cases h : i2 = i
        · subst h; rw [Function.update_same, hupd, hsi]
        · rw [Function.update_noteq h]
  | none =>
    have habs : ∀ i, i < HASH_TABLE_SIZE → occupied ht i → (ht.stations i).name ≠ key := by
      intro i hi hoi e
      have := (hR.entries (ht.stations i)).1 ⟨i, hi, hoi, rfl⟩
      rw [e, hmk] at this
      exact absurd this (by simp)
    have hroom2 : ∃ e, e < HASH_TABLE_SIZE ∧ ¬ occupied ht e := by
      rcases hroom with h | h
      · exact absurd hmk h
      · exact h
    obtain ⟨j, hj, hoj, hinv1, hfind⟩ := probe_absent hmlt hR.inv hkey habs hroom2
    refine ⟨_, j, hfind, ?_⟩
    simp only [Option.getD_none, Function.update_same]
    refine representsAt_set_slot hR hj (by rw [hupd]; rfl) hkey ?_ ?_ ?_ ?_
    · intro i hi _ hoi
      exact habs i hi hoi
    · intro h; exact absurd h hoj
    · simp only [Function.update_idem]
    · apply tableInvAt_of_names hinv1
      intro i2
      simp only
      by_cases h : i2 = j
      · subst h; simp only [Function.update_same, hupd]
      · simp only [Function.update_noteq h]

theorem representsAt_zero (hom : List Nat → Nat) : RepresentsAt hom zero_table (fun _ => none) where
  inv := tableInvAt_zero hom
  named := fun k s h => by simp at h
  entries := fun s => by
    constructor
    · rintro ⟨i, _, ho, _⟩
      exact absurd rfl ho
    · intro h; simp at h

/-- A table probed from any home slots whose names all come from a list with fewer
distinct names than slots has an empty slot. -/
theorem exists_empty_slot_at {hom : List Nat → Nat} {ht : HashTable} (hinv : TableInvAt hom ht)
    (ks : List (List Nat))
    (hks : ∀ i, i < HASH_TABLE_SIZE → occupied ht i → (ht.stations i).name ∈ ks)
    (hcard : ks.dedup.length < HASH_TABLE_SIZE) :
    ∃ e, e < HASH_TABLE_SIZE ∧ ¬ occupied ht e := by
  by_contra hc
  push_neg at hc
  have hle : (Finset.range HASH_TABLE_SIZE).card ≤ ks.toFinset.card := by
    apply Finset.card_le_card_of_injOn (fun i => (ht.stations i).name)
    · intro i hi
      have hi2 : i < HASH_TABLE_SIZE := Finset.mem_range.1 hi
      simpa using hks i hi2 (hc i hi2)
    · intro i hi j hj e
      have hi2 : i < HASH_TABLE_SIZE := Finset.mem_range.1 hi
      have hj2 : j < HASH_TABLE_SIZE := Finset.mem_range.1 hj
      exact hinv.distinct i j hi2 hj2 (hc i hi2) e
  rw [Finset.card_range, List.card_toFinset] at hle
  omega

theorem representsAt_room {hom : List Nat → Nat} {ht : HashTable}
    {m : List Nat → Option Station} (hR : RepresentsAt hom ht m) (ks : List (List Nat))
    (hks : ∀ k, m k ≠ none → k ∈ ks) (hcard : ks.dedup.length < HASH_TABLE_SIZE) :
    ∃ e, e < HASH_TABLE_SIZE ∧ ¬ occupied ht e := by
  apply exists_empty_slot_at hR.inv ks _ hcard
  intro i hi hoi
  apply hks
  have := (hR.entries (ht.stations i)).1 ⟨i, hi, hoi, rfl⟩
  rw [this]; simp

/-! ### The single-threaded implementation: `get_station` against linear probing -/

theorem single_home_lt (name : List Nat) : Single.home name < HASH_TABLE_SIZE := by
  unfold Single.home
  rw [show Single.HASH_SIZE = HASH_TABLE_SIZE from rfl, mask_eq_mod]
  exact Nat.mod_lt _ (by decide)

theorem single_update_name (s : Single.Station) (t : Int) :
    (Single.update_station s t).name = s.name := by
  unfold Single.update_station
  simp only
  split_ifs <;> rfl

theorem single_update_hash (s : Single.Station) (t : Int) :
    (Single.update_station s t).hash = s.hash := by
  unfold Single.update_station
  simp only
  split_ifs <;> rfl

theorem entry_update (s : Single.Station) (t : Int) :
    (Single.update_station s t).entry = update_station s.entry t := by
  unfold Single.update_station update_station Single.Station.entry
  simp only
  split_ifs <;> rfl

theorem fresh_update (key : List Nat) (hash : Nat) (t : Int) (h1 : -9999 < t) (h2 : t < 9999) :
    (Single.update_station (Single.fresh_station key hash) t).entry
      = update_station (fresh_station key) t := by
  unfold Single.update_station update_station Single.Station.entry Single.fresh_station
    fresh_station
  simp only
  have a1 : t < 32767 := by omega
  have a2 : t > -32768 := by omega
  have a3 : t > -9999 := h1
  rw [if_pos a1, if_pos h2]
  simp only
  rw [if_pos a2, if_pos a3]

theorem table_of_none {map : Single.StationMap} {i : Nat} (h : map.hash_table i = none) :
    (Single.table_of map).stations i = zero_station := by
  show (match map.hash_table i with
    | some j => (map.stations j).entry
    | none => zero_station) = zero_station
  rw [h]

theorem table_of_some {map : Single.StationMap} {i j : Nat} (h : map.hash_table i = some j) :
    (Single.table_of map).stations i = (map.stations j).entry := by
  show (match map.hash_table i with
    | some j => (map.stations j).entry
    | none => zero_station) = (map.stations j).entry
  rw [h]

theorem occupied_table_of {map : Single.StationMap} (hinv : MapInv map) (i : Nat) :
    occupied (Single.table_of map) i ↔ map.hash_table i ≠ none := by
  rw [occupied_iff_name]
  cases h : map.hash_table i with
  | none =>
    rw [table_of_none h]
    simp [zero_station]
  | some j =>
    rw [table_of_some h]
    exact ⟨fun _ => by simp, fun _ => hinv.name_ne j (hinv.slot_lt i j h).2⟩

theorem get_station_loop_new (map : Single.StationMap) (name : List Nat) (hash fuel idx : Nat)
    (hq : map.hash_table idx = none) (h0 : 0 ≤ map.count) (h1 : map.count < MAX_STATIONS) :
    Single.get_station_loop map name hash (fuel + 1) idx
      = some (Single.create_station map idx name hash, map.count.toNat) := by
  unfold Single.get_station_loop
  rw [hq]
  simp only
  rw [if_pos ⟨h0, h1⟩]
  rfl

theorem get_station_loop_found (map : Single.StationMap) (name : List Nat) (hash fuel idx j : Nat)
    (hq : map.hash_table idx = some j) (hh : (map.stations j).hash = hash)
    (hn : (map.stations j).name = name) :
    Single.get_station_loop map name hash (fuel + 1) idx = some (map, j) := by
  unfold Single.get_station_loop
  rw [hq]
  simp only
  rw [if_pos ⟨hh, by rw [Single.Station.name_len, hn], hn⟩]

theorem get_station_loop_step (map : Single.StationMap) (name : List Nat) (hash fuel idx j : Nat)
    (hq : map.hash_table idx = some j) (hn : (map.stations j).name ≠ name) :
    Single.get_station_loop map name hash (fuel + 1) idx
      = Single.get_station_loop map name hash fuel ((idx + 1) &&& (HASH_TABLE_SIZE - 1)) := by
  conv_lhs => unfold Single.get_station_loop
  rw [hq]
  simp only
  rw [if_neg (fun h => hn h.2.2)]
  rfl

/-- The probing loop of `get_station` and the probing loop of `find_or_create` on the
table with the same slots go in step: they stop at the same slot. -/
theorem get_station_loop_sim {map : Single.StationMap} (hinv : MapInv map) (key : List Nat) :
    ∀ (fuel idx : Nat) (ht1 : HashTable) (i : Nat),
      find_or_create_loop (Single.table_of map) key fuel idx = some (ht1, i) →
      (ht1 = Single.table_of map ∧ ∃ j, map.hash_table i = some j ∧
        (map.stations j).name = key ∧
        Single.get_station_loop map key (Single.hash_name key) fuel idx = some (map, j)) ∨
      (map.hash_table i = none ∧ ht1 = create_entry (Single.table_of map) i key ∧
        (map.count < MAX_STATIONS →
          Single.get_station_loop map key (Single.hash_name key) fuel idx
            = some (Single.create_station map i key (Single.hash_name key), map.count.toNat))) := by
  intro fuel
  induction fuel with
  | zero => intro idx ht1 i h; simp [find_or_create_loop] at h
  | succ f ih =>
    intro idx ht1 i h
    cases hq : map.hash_table idx with
    | none =>
      have hno : ¬ occupied (Single.table_of map) idx := by
        rw [occupied_table_of hinv, hq]; simp
      rw [find_or_create_loop_stop _ _ _ _ (Or.inl hno), if_neg hno] at h
      simp only [Option.some.injEq, Prod.mk.injEq] at h
      obtain ⟨rfl, rfl⟩ := h
      right
      exact ⟨hq, rfl, fun hlt => get_station_loop_new map key _ f idx hq hinv.count_nonneg hlt⟩
    | some j =>
      have ho : occupied (Single.table_of map) idx := by
        rw [occupied_table_of hinv, hq]; simp
      have hnm : ((Single.table_of map).stations idx).name = (map.stations j).name := by
        rw [table_of_some hq]; rfl
      by_cases hn : (map.stations j).name = key
      · rw [find_or_create_loop_stop _ _ _ _ (Or.inr (hnm.trans hn)), if_pos ho] at h
        simp only [Option.some.injEq, Prod.mk.injEq] at h
        obtain ⟨rfl, rfl⟩ := h
        left
        refine ⟨rfl, j, hq, hn, get_station_loop_found map key _ f idx j hq ?_ hn⟩
        rw [hinv.hash_eq j (hinv.slot_lt idx j hq).2, hn]
      · rw [find_or_create_loop_step _ _ _ _ ho (by rw [hnm]; exact hn)] at h
        rw [get_station_loop_step map key _ f idx j hq hn]
        exact ih _ ht1 i h

/-! ### The single-threaded implementation: one step of `process_chunk` -/

theorem mapInv_zero : MapInv Single.zero_map where
  count_nonneg := le_refl _
  count_le := by decide
  slot_lt := fun i j h => by simp [Single.zero_map] at h
  slot_inj := fun i1 i2 j h => by simp [Single.zero_map] at h
  slot_surj := fun j h => by simp [Single.zero_map] at h
  hash_eq := fun j h => by simp [Single.zero_map] at h
  name_ne := fun j h => by simp [Single.zero_map] at h

theorem table_of_zero : Single.table_of Single.zero_map = zero_table := rfl

/-- Writing a station with the same name and hash over a station in use keeps the
invariant of the map. -/
theorem mapInv_update {map : Single.StationMap} (hinv : MapInv map) (j : Nat)
    (s2 : Single.Station) (hn : s2.name = (map.stations j).name)
    (hh : s2.hash = (map.stations j).hash) :
    MapInv { map with stations := Function.update map.stations j s2 } where
  count_nonneg := hinv.count_nonneg
  count_le := hinv.count_le
  slot_lt := hinv.slot_lt
  slot_inj := hinv.slot_inj
  slot_surj := hinv.slot_surj
  hash_eq := by
    intro j2 hj2
    simp only
    by_cases e : j2 = j
    · subst e
      rw [Function.update_same, hn, hh]
      exact hinv.hash_eq j2 hj2
    · rw [Function.update_noteq e]
      exact hinv.hash_eq j2 hj2
  name_ne := by
    intro j2 hj2
    simp only
    by_cases e : j2 = j
    · subst e
      rw [Function.update_same, hn]
      exact hinv.name_ne j2 hj2
    · rw [Function.update_noteq e]
      exact hinv.name_ne j2 hj2

theorem table_of_update {map : Single.StationMap} (hinv : MapInv map) {i j : Nat}
    (hq : map.hash_table i = some j) (s2 : Single.Station) :
    Single.table_of { map with stations := Function.update map.stations j s2 }
      = { Single.table_of map with
          stations := Function.update (Single.table_of map).stations i s2.entry } := by
  unfold Single.table_of
  simp only [HashTable.mk.injEq, and_true]
  funext i2
  by_cases e : i2 = i
  · subst e
    rw [Function.update_same, hq]
    simp only [Function.update_same]
  · rw [Function.update_noteq e]
    cases h2 : map.hash_table i2 with
    | none => rfl
    | some j2 =>
      have hne : j2 ≠ j := by
        rintro rfl
        exact e (hinv.slot_inj i2 i j2 h2 hq)
      simp only [Function.update_noteq hne]

theorem toNat_lt_succ {c : Int} (h0 : 0 ≤ c) (h1 : c < MAX_STATIONS) :
    (wrap32 (c + 1)).toNat = c.toNat + 1 ∧ 0 ≤ wrap32 (c + 1) ∧
      wrap32 (c + 1) ≤ MAX_STATIONS := by
  have hM : (MAX_STATIONS : Int) = 10000 := rfl
  have e : wrap32 (c + 1) = c + 1 := wrap32_of_range (by omega) (by omega)
  rw [e]
  omega

/-- Creating a station for a non-empty name at an empty slot keeps the invariant of
the map, when the array has room. -/
theorem mapInv_create {map : Single.StationMap} (hinv : MapInv map) {i : Nat}
    (hi : i < HASH_TABLE_SIZE) (hq : map.hash_table i = none) (key : List Nat) (hkey : key ≠ [])
    (hlt : map.count < MAX_STATIONS) :
    MapInv (Single.create_station map i key (Single.hash_name key)) := by
  obtain ⟨hc1, hc2, hc3⟩ := toNat_lt_succ hinv.count_nonneg hlt
  constructor
  · exact hc2
  · exact hc3
  · intro i2 j h
    simp only [Single.create_station] at h ⊢
    rw [hc1]
    by_cases e : i2 = i
    · subst e
      rw [Function.update_same] at h
      simp only [Option.some.injEq] at h
      exact ⟨hi, by omega⟩
    · rw [Function.update_noteq e] at h
      have := hinv.slot_lt i2 j h
      exact ⟨this.1, by omega⟩
  · intro i1 i2 j h1 h2
    simp only [Single.create_station] at h1 h2
    by_cases e1 : i1 = i
    · by_cases e2 : i2 = i
      · rw [e1, e2]
      · exfalso
        rw [e1, Function.update_same] at h1
        rw [Function.update_noteq e2] at h2
        simp only [Option.some.injEq] at h1
        have := (hinv.slot_lt i2 j h2).2
        omega
    · rw [Function.update_noteq e1] at h1
      by_cases e2 : i2 = i
      · exfalso
        rw [e2, Function.update_same] at h2
        simp only [Option.some.injEq] at h2
        have := (hinv.slot_lt i1 j h1).2
        omega
      · rw [Function.update_noteq e2] at h2
        exact hinv.slot_inj i1 i2 j h1 h2
  · intro j hj
    simp only [Single.create_station] at hj ⊢
    rw [hc1] at hj
    by_cases e : j = map.count.toNat
    · exact ⟨i, by rw [Function.update_same, e]⟩
    · obtain ⟨i2, h2⟩ := hinv.slot_surj j (by omega)
      refine ⟨i2, ?_⟩
      have : i2 ≠ i := by
        rintro rfl
        rw [hq] at h2
        exact absurd h2 (by simp)
      rw [Function.update_noteq this]
      exact h2
  · intro j hj
    simp only [Single.create_station] at hj ⊢
    rw [hc1] at hj
    by_cases e : j = map.count.toNat
    · rw [e, Function.update_same]
      rfl
    · rw [Function.update_noteq e]
      exact hinv.hash_eq j (by omega)
  · intro j hj
    simp only [Single.create_station] at hj ⊢
    rw [hc1] at hj
    by_cases e : j = map.count.toNat
    · rw [e, Function.update_same]
      exact hkey
    · rw [Function.update_noteq e]
      exact hinv.name_ne j (by omega)

theorem table_of_create {map : Single.StationMap} (hinv : MapInv map) {i : Nat}
    (hq : map.hash_table i = none) (key : List Nat) (hash : Nat) :
    Single.table_of (Single.create_station map i key hash)
      = { stations := Function.update (Single.table_of map).stations i
            (Single.fresh_station key hash).entry,
          count := wrap32 (map.count + 1) } := by
  unfold Single.table_of Single.create_station
  simp only [HashTable.mk.injEq, and_true]
  funext i2
  by_cases e : i2 = i
  · subst e
    simp only [Function.update_same]
  · simp only [Function.update_noteq e]
    cases h2 : map.hash_table i2 with
    | none => rfl
    | some j2 =>
      have hne : j2 ≠ map.count.toNat := by
        have := (hinv.slot_lt i2 j2 h2).2
        omega
      simp only [Function.update_noteq hne]

/-- The entries of a map are the entries of the table with the same slots. -/
theorem mem_entries_iff {map : Single.StationMap} (hinv : MapInv map) (s : Station) :
    s ∈ Single.entries map ↔ HasEntry (Single.table_of map) s := by
  unfold Single.entries HasEntry
  simp only [List.mem_map, List.mem_range]
  constructor
  · rintro ⟨j, hj, rfl⟩
    obtain ⟨i, hq⟩ := hinv.slot_surj j hj
    exact ⟨i, (hinv.slot_lt i j hq).1, (occupied_table_of hinv i).2 (by rw [hq]; simp),
      table_of_some hq⟩
  · rintro ⟨i, _, ho, rfl⟩
    have hne := (occupied_table_of hinv i).1 ho
    cases hq : map.hash_table i with
    | none => exact absurd hq hne
    | some j => exact ⟨j, (hinv.slot_lt i j hq).2, (table_of_some hq).symm⟩

/-- The stations in use have pairwise distinct names. -/
theorem entries_names_nodup {map : Single.StationMap} (hinv : MapInv map)
    (hT : TableInvAt Single.home (Single.table_of map)) :
    ((List.range map.count.toNat).map (fun j => (map.stations j).name)).Nodup := by
  refine List.Nodup.map_on ?_ (List.nodup_range _)
  intro j1 h1 j2 h2 e
  rw [List.mem_range] at h1 h2
  obtain ⟨i1, q1⟩ := hinv.slot_surj j1 h1
  obtain ⟨i2, q2⟩ := hinv.slot_surj j2 h2
  have o1 : occupied (Single.table_of map) i1 :=
    (occupied_table_of hinv i1).2 (by rw [q1]; simp)
  have := hT.distinct i1 i2 (hinv.slot_lt i1 j1 q1).1 (hinv.slot_lt i2 j2 q2).1 o1
    (by rw [table_of_some q1, table_of_some q2]; exact e)
  subst this
  rw [q1] at q2
  simpa using q2

/-- A map that represents `m`, all of whose keys lie in a list with at most
`MAX_STATIONS` distinct keys, has room in `stations` for a key of the list that is
not in `m`. -/
theorem count_lt_max {map : Single.StationMap} {m : List Nat → Option Station}
    (hinv : MapInv map) (hR : RepresentsAt Single.home (Single.table_of map) m)
    (ks : List (List Nat)) (hks : ∀ k, m k ≠ none → k ∈ ks) {key : List Nat} (hk : key ∈ ks)
    (hmk : m key = none) (hcard : ks.dedup.length ≤ MAX_STATIONS) :
    map.count < MAX_STATIONS := by
  have hmem : ∀ j, j < map.count.toNat → m (map.stations j).name ≠ none := by
    intro j hj
    have h1 : (map.stations j).entry ∈ Single.entries map :=
      List.mem_map.2 ⟨j, List.mem_range.2 hj, rfl⟩
    have := (hR.entries _).1 ((mem_entries_iff hinv _).1 h1)
    intro h0
    rw [show (map.stations j).entry.name = (map.stations j).name from rfl, h0] at this
    exact absurd this (by simp)
  have hnd : (key :: (List.range map.count.toNat).map (fun j => (map.stations j).name)).Nodup := by
    refine List.nodup_cons.2 ⟨?_, entries_names_nodup hinv hR.inv⟩
    intro h
    obtain ⟨j, hj, e⟩ := List.mem_map.1 h
    exact hmem j (List.mem_range.1 hj) (by rw [e]; exact hmk)
  have hsub : (key :: (List.range map.count.toNat).map (fun j => (map.stations j).name)).toFinset
      ⊆ ks.toFinset := by
    intro k hk2
    simp only [List.mem_toFinset, List.mem_cons, List.mem_map, List.mem_range] at hk2 ⊢
    rcases hk2 with rfl | ⟨j, hj, rfl⟩
    · exact hk
    · exact hks _ (hmem j hj)
  have hle := Finset.card_le_card hsub
  rw [List.toFinset_card_of_nodup hnd, List.card_toFinset] at hle
  simp only [List.length_cons, List.length_map, List.length_range] at hle
  have h0 := hinv.count_nonneg
  have hM : (MAX_STATIONS : Int) = ((MAX_STATIONS : Nat) : Int) := rfl
  omega

/-- The combined step of the single-threaded `process_chunk`: `get_station`, then
`update_station` with a temperature, on a map that represents `m`. -/
theorem get_update_represents {map : Single.StationMap} {m : List Nat → Option Station}
    (hinv : MapInv map) (hR : RepresentsAt Single.home (Single.table_of map) m)
    {key : List Nat} (hkey : key ≠ []) (ks : List (List Nat))
    (hks : ∀ k, m k ≠ none → k ∈ ks) (hk : key ∈ ks) (hcard : ks.dedup.length ≤ MAX_STATIONS)
    (temp : Int) (hlo : -9999 < temp) (hhi : temp < 9999) :
    ∃ map1 j,
      (∀ fuel, HASH_TABLE_SIZE ≤ fuel →
        Single.get_station fuel map key (Single.hash_name key) = some (map1, j)) ∧
      MapInv { map1 with stations := Function.update map1.stations j (Single.update_station (map1.stations j) temp) } ∧
      RepresentsAt Single.home
        (Single.table_of { map1 with stations := Function.update map1.stations j (Single.update_station (map1.stations j) temp) })
        (Function.update m key (some (update_station ((m key).getD (fresh_station key)) temp))) := by
  have hroom := representsAt_room hR ks hks (lt_of_le_of_lt hcard (by decide))
  obtain ⟨ht1, i, hfind, hR1⟩ := probe_update_represents single_home_lt hR hkey (Or.inr hroom)
    (fun s => update_station s temp) (fun s => update_station_name s _)
  have hi : i < HASH_TABLE_SIZE := by
    have h := hfind HASH_TABLE_SIZE (le_refl _)
    rcases get_station_loop_sim hinv key _ _ _ _ h with ⟨_, j, hq, _⟩ | ⟨hq, _, _⟩
    · exact (hinv.slot_lt i j hq).1
    · by_contra hge
      -- the probing loop only visits slots below the table size
      obtain ⟨e, he, hoe⟩ := hroom
      obtain ⟨de, hde, hdee⟩ := probe_slot_surj (h := Single.home key) he
      classical
      have hex : ∃ d, d < HASH_TABLE_SIZE ∧
          (¬ occupied (Single.table_of map) (probe_slot (Single.home key) d) ∨
            ((Single.table_of map).stations (probe_slot (Single.home key) d)).name = key) :=
        ⟨de, hde, Or.inl (by rw [hdee]; exact hoe)⟩
      have hrun := find_or_create_loop_run (Single.table_of map) key (Nat.find hex)
        (Single.home key) HASH_TABLE_SIZE (single_home_lt _) (Nat.find_spec hex).1
        (fun d2 hd2 => by
          have := Nat.find_min hex hd2
          push_neg at this
          have h2 := this (by have := (Nat.find_spec hex).1; omega)
          exact ⟨h2.1, h2.2⟩)
        (Nat.find_spec hex).2
      rw [h] at hrun
      split_ifs at hrun <;>
      · simp only [Option.some.injEq, Prod.mk.injEq] at hrun
        exact hge (by rw [hrun.2]; exact probe_slot_lt _ _)
  rcases get_station_loop_sim hinv key _ _ _ _ (hfind HASH_TABLE_SIZE (le_refl _)) with
    ⟨e1, j, hq, hn, _⟩ | ⟨hq, e1, _⟩
  · -- the key has a station
    refine ⟨map, j, ?_, ?_, ?_⟩
    · intro fuel hf
      rcases get_station_loop_sim hinv key _ _ _ _ (hfind fuel hf) with
        ⟨_, j2, hq2, _, hrun⟩ | ⟨hq2, _, _⟩
      · rw [hq] at hq2
        simp only [Option.some.injEq] at hq2
        subst hq2
        exact hrun
      · rw [hq] at hq2
        exact absurd hq2 (by simp)
    · exact mapInv_update hinv j _ (single_update_name _ _) (single_update_hash _ _)
    · rw [table_of_update hinv hq, entry_update]
      rw [e1] at hR1
      rw [table_of_some hq] at hR1
      exact hR1
  · -- the key is new
    have hmk : m key = none := by
      cases hm : m key with
      | none => rfl
      | some s =>
        exfalso
        have hname := hR.named key s hm
        obtain ⟨i0, hi0, ho0, hs0⟩ := (hR.entries s).2 (by rw [hname]; exact hm)
        have := probe_present single_home_lt hR.inv hi0 ho0 HASH_TABLE_SIZE (le_refl _)
        rw [hs0, hname, hfind HASH_TABLE_SIZE (le_refl _)] at this
        simp only [Option.some.injEq, Prod.mk.injEq] at this
        rw [← this.2] at ho0
        exact (occupied_table_of hinv i).1 ho0 hq
    have hlt := count_lt_max hinv hR ks hks hk hmk hcard
    have hinv1 := mapInv_create hinv hi hq key hkey hlt
    have hq1 : (Single.create_station map i key (Single.hash_name key)).hash_table i
        = some map.count.toNat := by
      simp only [Single.create_station, Function.update_same]
    have hst : (Single.create_station map i key (Single.hash_name key)).stations map.count.toNat
        = Single.fresh_station key (Single.hash_name key) := by
      simp only [Single.create_station, Function.update_same]
    refine ⟨Single.create_station map i key (Single.hash_name key), map.count.toNat, ?_, ?_, ?_⟩
    · intro fuel hf
      rcases get_station_loop_sim hinv key _ _ _ _ (hfind fuel hf) with
        ⟨_, j2, hq2, _, _⟩ | ⟨_, _, hrun⟩
      · rw [hq] at hq2
        exact absurd hq2 (by simp)
      · exact hrun hlt
    · exact mapInv_update hinv1 _ _ (single_update_name _ _) (single_update_hash _ _)
    · rw [table_of_update hinv1 hq1, hst, fresh_update key _ temp hlo hhi,
        table_of_create hinv hq]
      rw [e1] at hR1
      simp only [create_entry, Function.update_same, Function.update_idem] at hR1 ⊢
      exact hR1

/-! ### The single-threaded implementation: `process_chunk` on well-formed lines -/

theorem wrap16_of_range {a : Int} (h1 : -2 ^ 15 ≤ a) (h2 : a < 2 ^ 15) : wrap16 a = a := by
  unfold wrap16; omega

theorem single_parse_temp_bytes (v : ValueText) (h : v.wf) (pre post : List Nat) :
    Single.parse_temp (pre ++ (v.bytes ++ 10 :: post)) pre.length
      = some (v.tenths, pre.length + v.bytes.length) := by
  obtain ⟨h1, h2, h3⟩ := h
  rcases v with ⟨neg, tens, units, frac⟩
  simp only at h1 h2 h3
  have e0 : ∀ l : List Nat, (pre ++ l)[pre.length]? = l[0]? := fun l => by
    simpa using getElem?_mid pre l 0
  have e1 : ∀ (l : List Nat) k, (pre ++ l)[pre.length + k]? = l[k]? := fun l k => getElem?_mid pre l k
  have u1 : 48 + units ≠ 45 := by omega
  have u2 : 48 + units ≠ 46 := by omega
  have cu := char_val_digit units h2
  have cf := char_val_digit frac h3
  cases neg <;> cases tens with
  | none =>
    simp [Single.parse_temp, ValueText.bytes, ValueText.tenths, e0, e1, add_assoc, u1, u2, cu, cf]
    all_goals (try simp only [wrap16])
    all_goals (try omega)
  | some t =>
    have ht := h1 t rfl
    have t1 : 48 + t ≠ 45 := by omega
    have ct := char_val_digit t ht
    simp [Single.parse_temp, ValueText.bytes, ValueText.tenths, e0, e1, add_assoc, u1, u2, t1, cu,
      cf, ct]
    all_goals (try simp only [wrap16])
    all_goals (try omega)

/-- The loop of the single-threaded `process_chunk` on a run of well-formed lines whose
keys lie in a list with at most `MAX_STATIONS` distinct keys: with enough fuel it ends
at the end of the run, with a map that represents the reference aggregation. -/
theorem single_process_chunk_loop_spec (ks : List (List Nat))
    (hcard : ks.dedup.length ≤ MAX_STATIONS) (post : List Nat) :
    ∀ (lines : List Line) (pre : List Nat) (map : Single.StationMap)
      (m : List Nat → Option Station) (fuel : Nat),
      (∀ l ∈ lines, l.wf) → (∀ l ∈ lines, l.key ∈ ks) → MapInv map →
      RepresentsAt Single.home (Single.table_of map) m → (∀ k, m k ≠ none → k ∈ ks) →
      lines.length + HASH_TABLE_SIZE + 1 ≤ fuel →
      ∃ map2, Single.process_chunk_loop (pre ++ (encode lines ++ post))
          (pre.length + (encode lines).length) fuel pre.length map
            = some (map2, pre.length + (encode lines).length) ∧
        MapInv map2 ∧ RepresentsAt Single.home (Single.table_of map2) (aggregate m lines) := by
  intro lines
  induction lines with
  | nil =>
    intro pre map m fuel _ _ hinv hR _ hf
    obtain ⟨f, rfl⟩ : ∃ f, fuel = f + 1 := ⟨fuel - 1, by omega⟩
    refine ⟨map, ?_, hinv, hR⟩
    simp [Single.process_chunk_loop, encode]
  | cons l rest ih =>
    intro pre map m fuel hwf hkeys hinv hR hdom hf
    obtain ⟨f, rfl⟩ : ∃ f, fuel = f + 1 := ⟨fuel - 1, by omega⟩
    simp only [List.length_cons] at hf
    obtain ⟨hk1, hk2, hk3, hk4, hv⟩ := hwf l (List.mem_cons_self _ _)
    have hkey : l.key ≠ [] := by
      intro e; rw [e] at hk1; simp at hk1
    obtain ⟨v1, v2⟩ := tenths_bound l.value hv
    have hdata : pre ++ (encode (l :: rest) ++ post)
        = pre ++ (l.key ++ 59 :: (l.value.bytes ++ 10 :: (encode rest ++ post))) := by
      simp [encode_cons, Line.bytes]
    have hdata2 : pre ++ (encode (l :: rest) ++ post)
        = (pre ++ l.key ++ [59]) ++ (l.value.bytes ++ 10 :: (encode rest ++ post)) := by
      simp [encode_cons, Line.bytes]
    have hdata3 : pre ++ (encode (l :: rest) ++ post)
        = (pre ++ l.bytes) ++ (encode rest ++ post) := by
      simp [encode_cons]
    have hscan : scan (pre ++ (encode (l :: rest) ++ post)) 59 pre.length
        = some (pre.length + l.key.length) := by
      rw [hdata]; exact scan_key 59 pre l.key _ hk3
    have e2 : (pre ++ l.key ++ [59]).length + l.value.bytes.length + 1 = (pre ++ l.bytes).length := by
      simp [Line.bytes]; omega
    have hparse : Single.parse_temp (pre ++ (encode (l :: rest) ++ post))
        (pre.length + l.key.length + 1)
          = some (l.value.tenths, (pre ++ l.key ++ [59]).length + l.value.bytes.length) := by
      rw [hdata2]
      have := single_parse_temp_bytes l.value hv (pre ++ l.key ++ [59]) (encode rest ++ post)
      have e1 : (pre ++ l.key ++ [59]).length = pre.length + l.key.length + 1 := by
        simp only [List.length_append, List.length_singleton]
      rw [e1] at this
      rw [this, e1]
    have hname : ((pre ++ (encode (l :: rest) ++ post)).drop pre.length).take
        (pre.length + l.key.length - pre.length) = l.key := by
      rw [hdata, List.drop_left, Nat.add_sub_cancel_left, List.take_left]
    obtain ⟨map1, j, hfind, hinv1, hR1⟩ := get_update_represents hinv hR hkey ks hdom
      (hkeys l (List.mem_cons_self _ _)) hcard l.value.tenths (by omega) (by omega)
    have hlt : pre.length < pre.length + (encode (l :: rest)).length := by
      rw [encode_cons, List.length_append, line_bytes_length]; omega
    have hend : pre.length + (encode (l :: rest)).length
        = (pre ++ l.bytes).length + (encode rest).length := by
      simp [encode_cons]; omega
    obtain ⟨map2, hrun, hinv2, hR2⟩ := ih (pre ++ l.bytes) _ _ f
      (fun x hx => hwf x (List.mem_cons_of_mem _ hx))
      (fun x hx => hkeys x (List.mem_cons_of_mem _ hx)) hinv1 hR1
      (aggregate_dom ks m l hdom (hkeys l (List.mem_cons_self _ _))) (by omega)
    refine ⟨map2, ?_, hinv2, hR2⟩
    rw [Single.process_chunk_loop, if_pos hlt]
    simp only [hscan, Option.bind_eq_bind, Option.some_bind, hparse, hname,
      hfind f (by omega), e2]
    rw [hend, hdata3]
    exact hrun

theorem single_get_station_loop_mono (map : Single.StationMap) (name : List Nat) (hash : Nat) :
    ∀ (fuel idx : Nat) (r : Single.StationMap × Nat),
      Single.get_station_loop map name hash fuel idx = some r →
      Single.get_station_loop map name hash (fuel + 1) idx = some r := by
  intro fuel
  induction fuel with
  | zero => intro idx r h; simp [Single.get_station_loop] at h
  | succ f ih =>
    intro idx r h
    rw [Single.get_station_loop] at h ⊢
    cases hq : map.hash_table idx with
    | none => rw [hq] at h; exact h
    | some j =>
      rw [hq] at h
      simp only at h ⊢
      split_ifs at h ⊢ with h1
      · exact h
      · exact ih _ r h

theorem single_process_chunk_loop_mono (data : List Nat) (end_ : Nat) :
    ∀ (fuel p : Nat) (map : Single.StationMap) (r : Single.StationMap × Nat),
      Single.process_chunk_loop data end_ fuel p map = some r →
      Single.process_chunk_loop data end_ (fuel + 1) p map = some r := by
  intro fuel
  induction fuel with
  | zero => intro p map r h; simp [Single.process_chunk_loop] at h
  | succ f ih =>
    intro p map r h
    rw [Single.process_chunk_loop] at h ⊢
    by_cases hp : p < end_
    · rw [if_pos hp] at h ⊢
      cases hs : scan data 59 p with
      | none => rw [hs] at h; simp at h
      | some q =>
        rw [hs] at h
        simp only [Option.bind_eq_bind, Option.some_bind] at h ⊢
        cases hpt : Single.parse_temp data (q + 1) with
        | none => rw [hpt] at h; simp at h
        | some x =>
          rw [hpt] at h
          simp only [Option.some_bind] at h ⊢
          cases hfc : Single.get_station f map ((data.drop p).take (q - p))
              (Single.hash_name ((data.drop p).take (q - p))) with
          | none => rw [hfc] at h; simp at h
          | some y =>
            rw [hfc] at h
            have := single_get_station_loop_mono _ _ _ _ _ _ hfc
            unfold Single.get_station
            rw [this]
            simp only [Option.some_bind] at h ⊢
            exact ih _ _ r h
    · rw [if_neg hp] at h ⊢
      exact h

theorem single_process_chunk_mono (map : Single.StationMap) (data : List Nat) (size : Nat)
    (r : Single.StationMap × Nat) :
    ∀ (fuel fuel2 : Nat), fuel ≤ fuel2 → Single.process_chunk fuel map data size = some r →
      Single.process_chunk fuel2 map data size = some r := by
  intro fuel fuel2 hle h
  induction fuel2 with
  | zero =>
    have : fuel = 0 := by omega
    rw [this] at h; exact h
  | succ f ih =>
    by_cases e : fuel = f + 1
    · rw [← e]; exact h
    · exact single_process_chunk_loop_mono _ _ _ _ _ r (ih (by omega))

/-- The single-threaded `process_chunk` on a buffer of well-formed lines with at most
`MAX_STATIONS` distinct keys, from the zeroed map: it ends at the end of the buffer
(for every fuel that covers the lines and one probing cycle), and whenever it ends the
map satisfies its invariant and represents the aggregation of the lines. -/
theorem single_process_chunk_represents (lines : List Line) (hwf : ∀ l ∈ lines, l.wf)
    (hcard : (lines.map Line.key).dedup.length ≤ MAX_STATIONS) :
    (∀ fuel, lines.length + HASH_TABLE_SIZE + 1 ≤ fuel →
      ∃ map, Single.process_chunk fuel Single.zero_map (encode lines) (encode lines).length
        = some (map, (encode lines).length)) ∧
    ∀ fuel map e, Single.process_chunk fuel Single.zero_map (encode lines) (encode lines).length
        = some (map, e) →
      MapInv map ∧ RepresentsAt Single.home (Single.table_of map)
        (aggregate (fun _ => none) lines) := by
  have hspec := fun fuel hf => single_process_chunk_loop_spec (lines.map Line.key) hcard []
    lines [] Single.zero_map (fun _ => none) fuel hwf (fun l hl => List.mem_map_of_mem _ hl)
    mapInv_zero (by rw [table_of_zero]; exact representsAt_zero _) (fun k hk => absurd rfl hk) hf
  simp only [List.nil_append, List.append_nil, List.length_nil, Nat.zero_add] at hspec
  constructor
  · intro fuel hf
    obtain ⟨map, hrun, _⟩ := hspec fuel hf
    exact ⟨map, hrun⟩
  · intro fuel map e hrun
    obtain ⟨map2, hrun2, hinv2, hR2⟩ := hspec (Nat.max fuel (lines.length + HASH_TABLE_SIZE + 1))
      (Nat.le_max_right _ _)
    have := single_process_chunk_mono _ _ _ _ fuel
      (Nat.max fuel (lines.length + HASH_TABLE_SIZE + 1)) (Nat.le_max_left _ _) hrun
    unfold Single.process_chunk at this
    rw [this] at hrun2
    simp only [Option.some.injEq, Prod.mk.injEq] at hrun2
    obtain ⟨rfl, _⟩ := hrun2
    exact ⟨hinv2, hR2⟩

/-! ### C19: the two implementations aggregate alike -/

theorem single_entries_nodup {map : Single.StationMap} (hinv : MapInv map)
    (hT : TableInvAt Single.home (Single.table_of map)) : (Single.entries map).Nodup := by
  have h := entries_names_nodup hinv hT
  have e : (Single.entries map).map Station.name
      = (List.range map.count.toNat).map (fun j => (map.stations j).name) := by
    unfold Single.entries
    rw [List.map_map]
    rfl
  rw [← e] at h
  exact List.Nodup.of_map _ h

/-- C19: for every non-empty sequence of well-formed lines with at most 10000 distinct
keys, the parallel pipeline (planning of 48 ranges, `process_chunk` on each,
`merge_tables`) and the single-threaded `process_chunk` over the whole buffer both end
(for every fuel that covers the lines and one probing cycle), and whenever both end,
the occupied entries of the global table and the stations in use of the `StationMap`
are the same (key, sum, count, min, max) entries, each once; the two hash functions
differ. -/
theorem implementations_agree (lines : List Line) (hne : lines ≠ [])
    (hwf : ∀ l ∈ lines, l.wf) (hcard : (lines.map Line.key).dedup.length ≤ MAX_STATIONS) :
    (∀ fuel, lines.length + HASH_TABLE_SIZE + 1 ≤ fuel →
      ∃ g map, main_table fuel (encode lines) = some g ∧
        Single.process_chunk fuel Single.zero_map (encode lines) (encode lines).length
          = some (map, (encode lines).length)) ∧
    (∀ fuel fuel2 g map e, main_table fuel (encode lines) = some g →
      Single.process_chunk fuel2 Single.zero_map (encode lines) (encode lines).length
        = some (map, e) →
      (∀ s, HasEntry g s ↔ s ∈ Single.entries map) ∧
      (table_entries g).Perm (Single.entries map) ∧ (Single.entries map).Nodup) ∧
    hash_name [97] ≠ Single.hash_name [97] := by
  obtain ⟨hex, hall⟩ := main_table_represents lines hne hwf (lt_of_le_of_lt hcard (by decide))
  obtain ⟨hex2, hall2⟩ := single_process_chunk_represents lines hwf hcard
  refine ⟨?_, ?_, by decide⟩
  · intro fuel hf
    obtain ⟨g, hg⟩ := hex fuel hf
    obtain ⟨map, hmap⟩ := hex2 fuel hf
    exact ⟨g, map, hg, hmap⟩
  · intro fuel fuel2 g map e hg hmap
    have hR := hall fuel g hg
    obtain ⟨hinv, hR2⟩ := hall2 fuel2 map e hmap
    have hiff : ∀ s, HasEntry g s ↔ s ∈ Single.entries map := fun s =>
      ((hR.entries s).trans (hR2.entries s).symm).trans (mem_entries_iff hinv s).symm
    have hnd := single_entries_nodup hinv hR2.inv
    exact ⟨hiff, (List.perm_ext_iff_of_nodup (table_entries_nodup hR.inv) hnd).2
      (fun s => mem_table_entries.trans (hiff s)), hnd⟩

/-- C19 on the lines of the end-to-end example. -/
theorem implementations_agree_witness :
    example_lines ≠ [] ∧ (∀ l ∈ example_lines, l.wf) ∧
    (example_lines.map Line.key).dedup.length ≤ MAX_STATIONS ∧
    (∀ fuel, example_lines.length + HASH_TABLE_SIZE + 1 ≤ fuel →
      ∃ g map, main_table fuel (encode example_lines) = some g ∧
        Single.process_chunk fuel Single.zero_map (encode example_lines)
          (encode example_lines).length = some (map, (encode example_lines).length)) ∧
    (∀ fuel fuel2 g map e, main_table fuel (encode example_lines) = some g →
      Single.process_chunk fuel2 Single.zero_map (encode example_lines)
        (encode example_lines).length = some (map, e) →
      (∀ s, HasEntry g s ↔ s ∈ Single.entries map) ∧
      (table_entries g).Perm (Single.entries map) ∧ (Single.entries map).Nodup) ∧
    hash_name [97] ≠ Single.hash_name [97] :=
  ⟨by decide, by decide, by decide,
    implementations_agree example_lines (by decide) (by decide) (by decide)⟩

end OneBrc
